import Mathlib

/-!
# The queue of `queue.c`: an intrusive circular doubly linked list

The C program keeps its queue as a sentinel `struct list_head` whose `next`
and `prev` pointers close a cycle through the `list` members embedded in the
`element_t` objects.  The embedding below is a heap of such nodes, addressed
by natural numbers, with the functions of `queue.c` as state transformers.

* Pointers that may be `NULL` at the interface (`head`, `sp`, the results of
  `malloc` and of the remove functions) are `Option`s.
* `malloc` and `strdup` are external: the address `malloc` hands out and the
  success of `strdup` are arguments of the inserting functions.
* Loops that follow pointers carry a fuel argument; `none` means the fuel ran
  out.  The theorems show that on a well-formed queue a fuel of the queue's
  length plus two is always enough.
* `int` is 32 bits wide, `size_t` 64 bits; the counter returned by `q_size`
  wraps (`wrap32`), the dead counters `i` (`q_delete_mid`) and `count`
  (`q_sort`) are left out.
-/

namespace Queue

/-! ## The heap -/

/-- Address of a `struct list_head` (of the sentinel, or of the one embedded in an element). -/
abbrev Ptr := Nat

/-- Contents of a C string: its bytes up to, not including, the terminating zero byte. -/
abbrev Str := List Nat

/-- Memory as `queue.c` sees it: the two links of every node, the string an
element points to, and which elements and strings are currently allocated. -/
structure Heap where
  /-- Field `next` of the node at an address. -/
  next : Ptr → Ptr
  /-- Field `prev` of the node at an address. -/
  prev : Ptr → Ptr
  /-- String stored behind field `value` of the element at an address. -/
  value : Ptr → Str
  /-- Whether the node (sentinel or element) at an address is allocated. -/
  alloc : Ptr → Bool
  /-- Whether the string storage of the element at an address is allocated. -/
  salloc : Ptr → Bool

/-- A caller's character buffer, indexed from zero. -/
abbrev Buf := Nat → Nat

/-- Every byte of a C string is a non-zero `unsigned char`. -/
def CStr (s : Str) : Prop := ∀ b ∈ s, 0 < b ∧ b < 256

instance (s : Str) : Decidable (CStr s) :=
  inferInstanceAs (Decidable (∀ b ∈ s, 0 < b ∧ b < 256))

/-- Outcome of a function that may dereference a null pointer. -/
inductive Res (α : Type) where
  | ok : α → Res α
  | nullDeref : Res α
  | outOfFuel : Res α

/-! ## Library functions -/

/-- The libc `strcmp` on string contents: the difference of the first pair of
bytes that differ, the end of a string counting as the zero byte. -/
def strcmp : Str → Str → Int
  | [], [] => 0
  | [], b :: _ => 0 - (b : Int)
  | a :: _, [] => (a : Int) - 0
  | a :: as, b :: bs => if a = b then strcmp as bs else (a : Int) - (b : Int)

/-- The libc `strncpy`: exactly `n` bytes of `dst` are written, the bytes of
`src` first and zero bytes after its end. -/
def strncpy (dst : Buf) (src : Str) (n : Nat) : Buf :=
  fun i => if i < n then src.getD i 0 else dst i

/-- The value `bufsize - 1` in `size_t` arithmetic. -/
def size_sub_one (bufsize : Nat) : Nat := (bufsize + 2 ^ 64 - 1) % 2 ^ 64

/-- Reduction of an integer to the range of a 32-bit `int`. -/
def wrap32 (z : Int) : Int := (z + 2 ^ 31) % 2 ^ 32 - 2 ^ 31

/-- The effect of `malloc` returning address `p`. -/
def mallocAt (hp : Heap) (p : Ptr) : Heap :=
  { hp with alloc := Function.update hp.alloc p true }

/-- The effect of `free` on the node at address `p`. -/
def freeAt (hp : Heap) (p : Ptr) : Heap :=
  { hp with alloc := Function.update hp.alloc p false }

/-! ## List primitives -/

/-- Modelled from the spec: `init(sentinel)` of the list primitives
(`INIT_LIST_HEAD` of the absent `list.h`): sets sentinel.next = sentinel.prev = sentinel. -/
def INIT_LIST_HEAD (hp : Heap) (h : Ptr) : Heap :=
  { hp with next := Function.update hp.next h h, prev := Function.update hp.prev h h }

/-- Modelled from the spec: `is_empty(sentinel)` (`list_empty` of the absent
`list.h`): true iff sentinel.next == sentinel. -/
def list_empty (hp : Heap) (h : Ptr) : Bool := decide (hp.next h = h)

/-- Modelled from the spec: `insert_between(node, left, right)` of the absent
`list.h`: splices `node` so that left.next == node == right.prev. -/
def insert_between (hp : Heap) (node left right : Ptr) : Heap :=
  { hp with
    next := Function.update (Function.update hp.next node right) left node
    prev := Function.update (Function.update hp.prev right node) node left }

/-- Modelled from the spec: head insertion (`list_add` of the absent `list.h`)
is `insert_between` with left = the given node and right = its successor. -/
def list_add (hp : Heap) (node head : Ptr) : Heap :=
  insert_between hp node head (hp.next head)

/-- Modelled from the spec: tail insertion (`list_add_tail` of the absent
`list.h`) is `insert_between` with right = the sentinel and left = its predecessor. -/
def list_add_tail (hp : Heap) (node head : Ptr) : Heap :=
  insert_between hp node (hp.prev head) head

/-- Modelled from the spec: `unlink(node)` (`list_del` of the absent `list.h`):
sets node.prev.next = node.next and node.next.prev = node.prev, without
touching the links of `node` itself. -/
def list_del (hp : Heap) (node : Ptr) : Heap :=
  { hp with
    next := Function.update hp.next (hp.prev node) (hp.next node)
    prev := Function.update hp.prev (hp.next node) (hp.prev node) }

/-- Modelled from the spec: `move_after(node, target)` (`list_move` of the
absent `list.h`): unlinks `node`, then re-inserts it immediately after `target`. -/
def list_move (hp : Heap) (node target : Ptr) : Heap :=
  list_add (list_del hp node) node target

/-! ## The functions of `queue.c` -/

/-- The function `q_new`; `m` is what `malloc` returns. -/
def q_new (hp : Heap) (m : Option Ptr) : Heap × Option Ptr :=
  match m with
  | none => (hp, none)
  | some q => (INIT_LIST_HEAD (mallocAt hp q) q, some q)

/-- The function `q_insert_head`; `m` is what `malloc` returns and `dup` tells
whether `strdup` succeeds. -/
def q_insert_head (hp : Heap) (head : Option Ptr) (s : Str) (m : Option Ptr) (dup : Bool) :
    Heap × Bool :=
  match head with
  | none => (hp, false)
  | some h =>
    match m with
    | none => (hp, false)
    | some e =>
      let hp1 := mallocAt hp e
      if dup then
        let hp2 : Heap :=
          { hp1 with value := Function.update hp1.value e s
                     salloc := Function.update hp1.salloc e true }
        (list_add hp2 e h, true)
      else (freeAt hp1 e, false)

/-- The function `q_insert_tail`; `m` is what `malloc` returns and `dup` tells
whether `strdup` succeeds. -/
def q_insert_tail (hp : Heap) (head : Option Ptr) (s : Str) (m : Option Ptr) (dup : Bool) :
    Heap × Bool :=
  match head with
  | none => (hp, false)
  | some h =>
    match m with
    | none => (hp, false)
    | some e =>
      let hp1 := mallocAt hp e
      if dup then
        let hp2 : Heap :=
          { hp1 with value := Function.update hp1.value e s
                     salloc := Function.update hp1.salloc e true }
        (list_add_tail hp2 e h, true)
      else (freeAt hp1 e, false)

/-- The writes of a remove function stay inside the caller's buffer: no buffer is
supplied, or the capacity is a `size_t` value of at least 1. With a buffer of capacity
0 the value `bufsize - 1` is 2^64 - 1, `strncpy` runs over the end of the buffer and
the call does not return. -/
def BufferOk (sp : Option Buf) (bufsize : Nat) : Prop :=
  sp = none ∨ (1 ≤ bufsize ∧ bufsize < 2 ^ 64)

/-- The two statements under `if (sp)` of the remove functions:
`strncpy(sp, e->value, bufsize - 1); sp[bufsize - 1] = 0`. The buffer is memory without
an end here, so the result lists the bytes the statements write; it is what the call
leaves behind only when those writes stay inside the caller's buffer (`BufferOk`). -/
def copy_out (sp : Option Buf) (v : Str) (bufsize : Nat) : Option Buf :=
  match sp with
  | none => none
  | some b =>
    some (Function.update (strncpy b v (size_sub_one bufsize)) (size_sub_one bufsize) 0)

/-- The function `q_remove_head`: the heap, the returned element and the caller's buffer.
On a non-empty queue the call returns only under `BufferOk` (see `copy_out`). -/
def q_remove_head (hp : Heap) (head : Option Ptr) (sp : Option Buf) (bufsize : Nat) :
    Heap × Option Ptr × Option Buf :=
  match head with
  | none => (hp, none, sp)
  | some h =>
    if list_empty hp h then (hp, none, sp)
    else
      let e := hp.next h
      let hp1 := list_del hp e
      (hp1, some e, copy_out sp (hp1.value e) bufsize)

/-- The function `q_remove_tail`: the heap, the returned element and the caller's buffer.
On a non-empty queue the call returns only under `BufferOk` (see `copy_out`). -/
def q_remove_tail (hp : Heap) (head : Option Ptr) (sp : Option Buf) (bufsize : Nat) :
    Heap × Option Ptr × Option Buf :=
  match head with
  | none => (hp, none, sp)
  | some h =>
    if list_empty hp h then (hp, none, sp)
    else
      let e := hp.prev h
      let hp1 := list_del hp e
      (hp1, some e, copy_out sp (hp1.value e) bufsize)

/-- The function `q_release_element`: frees the string, then the element. -/
def q_release_element (hp : Heap) (e : Ptr) : Heap :=
  freeAt { hp with salloc := Function.update hp.salloc e false } e

/-- The `while` loop of `q_size`. -/
def q_size_loop (hp : Heap) (head : Ptr) : Nat → Ptr → Int → Option Int
  | 0, _, _ => none
  | fuel + 1, node, num =>
    if hp.next node ≠ head then q_size_loop hp head fuel (hp.next node) (wrap32 (num + 1))
    else some num

/-- The function `q_size`. -/
def q_size (fuel : Nat) (hp : Heap) (head : Option Ptr) : Option Int :=
  match head with
  | none => some 0
  | some h => q_size_loop hp h fuel h 0

/-- The `for` loop of `q_delete_mid`; the result is the final `tail`. -/
def q_delete_mid_loop (hp : Heap) : Nat → Ptr → Ptr → Option Ptr
  | 0, _, _ => none
  | fuel + 1, front, tail =>
    if front ≠ tail ∧ hp.next front ≠ tail then
      q_delete_mid_loop hp fuel (hp.next front) (hp.prev tail)
    else some tail

/-- The function `q_delete_mid`. -/
def q_delete_mid (fuel : Nat) (hp : Heap) (head : Option Ptr) : Option (Heap × Bool) :=
  match head with
  | none => some (hp, false)
  | some h =>
    if list_empty hp h then some (hp, false)
    else
      match q_delete_mid_loop hp fuel (hp.next h) (hp.prev h) with
      | none => none
      | some t => some (q_release_element (list_del hp t) t, true)

/-- The test `!(c & 0x7fffffff) || !c` of `q_delete_dup` on an `int` c. -/
def dup_test (c : Int) : Bool :=
  (((c % 2 ^ 32).toNat &&& 0x7fffffff) == 0) || (c == 0)

/-- The `for` loop of `q_delete_dup` over a comparator `cmp`; the result is
the heap and the final `tmp`. -/
def q_delete_dup_loop (cmp : Str → Str → Int) (head : Ptr) :
    Nat → Heap → Ptr → Ptr → Option Ptr → Option (Heap × Option Ptr)
  | 0, _, _, _, _ => none
  | fuel + 1, hp, e, safe, tmp =>
    if safe ≠ head then
      if dup_test (cmp (hp.value e) (hp.value safe)) then
        let hp1 := q_release_element (list_del hp e) e
        q_delete_dup_loop cmp head fuel hp1 safe (hp1.next safe) (some safe)
      else
        match tmp with
        | some t =>
          let hp1 := q_release_element (list_del hp t) t
          q_delete_dup_loop cmp head fuel hp1 safe (hp1.next safe) none
        | none => q_delete_dup_loop cmp head fuel hp safe (hp.next safe) none
    else some (hp, tmp)

/-- The function `q_delete_dup` over a comparator `cmp`. -/
def q_delete_dup_with (cmp : Str → Str → Int) (fuel : Nat) (hp : Heap) (head : Option Ptr) :
    Option (Heap × Bool) :=
  match head with
  | none => some (hp, false)
  | some h =>
    match q_delete_dup_loop cmp h fuel hp (hp.next h) (hp.next (hp.next h)) none with
    | none => none
    | some (hp1, some t) => some (q_release_element (list_del hp1 t) t, true)
    | some (hp1, none) => some (hp1, true)

/-- The function `q_delete_dup`, whose comparator is `strcmp`. -/
def q_delete_dup (fuel : Nat) (hp : Heap) (head : Option Ptr) : Option (Heap × Bool) :=
  q_delete_dup_with strcmp fuel hp head

/-- The `for` loop of `q_swap`. -/
def q_swap_loop (head : Ptr) : Nat → Heap → Ptr → Ptr → Option Heap
  | 0, _, _, _ => none
  | fuel + 1, hp, next, nnext =>
    if next ≠ head ∧ nnext ≠ head then
      let hp1 := list_move hp next nnext
      q_swap_loop head fuel hp1 (hp1.next next) (hp1.next (hp1.next next))
    else some hp

/-- The function `q_swap`, which reads `head->next` without a null check. -/
def q_swap (fuel : Nat) (hp : Heap) (head : Option Ptr) : Res Heap :=
  match head with
  | none => Res.nullDeref
  | some h =>
    match q_swap_loop h fuel hp (hp.next h) (hp.next (hp.next h)) with
    | none => Res.outOfFuel
    | some hp1 => Res.ok hp1

/-- The `do ... while` loop of `q_reverse`. -/
def q_reverse_loop (head : Ptr) : Nat → Heap → Ptr → Option Heap
  | 0, _, _ => none
  | fuel + 1, hp, iter =>
    let tmp := hp.next iter
    let hp1 : Heap := { hp with next := Function.update hp.next iter (hp.prev iter) }
    let hp2 : Heap := { hp1 with prev := Function.update hp1.prev iter tmp }
    if hp2.next iter ≠ head then q_reverse_loop head fuel hp2 (hp2.next iter) else some hp2

/-- The function `q_reverse`. -/
def q_reverse (fuel : Nat) (hp : Heap) (head : Option Ptr) : Option Heap :=
  match head with
  | none => some hp
  | some h => q_reverse_loop h fuel hp h

/-- The inner `for` loop of `q_sort`, for the element `i` being placed. -/
def q_sort_inner (i : Ptr) : Nat → Heap → Ptr → Option Heap
  | 0, _, _ => none
  | fuel + 1, hp, j =>
    if j ≠ i then
      if strcmp (hp.value i) (hp.value j) < 0 then some (list_move hp i (hp.prev j))
      else q_sort_inner i fuel hp (hp.next j)
    else some hp

/-- The outer `for` loop of `q_sort`; `fi` is the fuel of each inner loop. -/
def q_sort_outer (head : Ptr) (fi : Nat) : Nat → Heap → Ptr → Ptr → Option Heap
  | 0, _, _, _ => none
  | fuel + 1, hp, i, isafe =>
    if i ≠ head then
      match q_sort_inner i fi hp (hp.next head) with
      | none => none
      | some hp1 => q_sort_outer head fi fuel hp1 isafe (hp1.next isafe)
    else some hp

/-- The function `q_sort`. -/
def q_sort (fuel : Nat) (hp : Heap) (head : Option Ptr) : Option Heap :=
  match head with
  | none => some hp
  | some h =>
    q_sort_outer h fuel fuel hp (hp.next (hp.next h)) (hp.next (hp.next (hp.next h)))

/-! ## Reading a queue -/

/-- Two nodes are linked when the first points forward to the second and the
second points back to the first. -/
def Linked (hp : Heap) (u v : Ptr) : Prop := hp.next u = v ∧ hp.prev v = u

/-- The queue with sentinel `h` holds exactly the elements `xs`, head to tail:
the nodes are distinct and each is linked to the one after it, the last to the sentinel. -/
def IsQueue (hp : Heap) (h : Ptr) (xs : List Ptr) : Prop :=
  (h :: xs).Nodup ∧ List.Chain' (Linked hp) (h :: xs ++ [h])

/-- The nodes met when following `step` from `node` until the sentinel is reached. -/
def walk (step : Ptr → Ptr) (head : Ptr) : Nat → Ptr → Option (List Ptr)
  | 0, _ => none
  | fuel + 1, node =>
    if step node = head then some []
    else (walk step head fuel (step node)).map (fun l => step node :: l)

/-- The elements met when following `next` from the sentinel back to the sentinel. -/
def walkNext (fuel : Nat) (hp : Heap) (h : Ptr) : Option (List Ptr) := walk hp.next h fuel h

/-- The elements met when following `prev` from the sentinel back to the sentinel. -/
def walkPrev (fuel : Nat) (hp : Heap) (h : Ptr) : Option (List Ptr) := walk hp.prev h fuel h

/-- A queue is well formed when following `next` from the sentinel returns to
the sentinel and every node `n` on the way, the sentinel included, satisfies
`n.next.prev = n` and `n.prev.next = n`. -/
def WellFormed (hp : Heap) (h : Ptr) : Prop :=
  ∃ xs, walkNext (xs.length + 1) hp h = some xs ∧
    ∀ n ∈ h :: xs, hp.prev (hp.next n) = n ∧ hp.next (hp.prev n) = n

/-- All nodes of the queue are allocated, the elements together with their strings. -/
def Live (hp : Heap) (h : Ptr) (xs : List Ptr) : Prop :=
  hp.alloc h = true ∧ ∀ x ∈ xs, hp.alloc x = true ∧ hp.salloc x = true

instance (hp : Heap) (h : Ptr) (xs : List Ptr) : Decidable (Live hp h xs) :=
  inferInstanceAs
    (Decidable (hp.alloc h = true ∧ ∀ x ∈ xs, hp.alloc x = true ∧ hp.salloc x = true))

/-- The strings of the given elements. -/
def values (hp : Heap) (xs : List Ptr) : List Str := xs.map hp.value

/-- A heap in which nothing is allocated. -/
def emptyHeap : Heap :=
  { next := fun _ => 0, prev := fun _ => 0, value := fun _ => [],
    alloc := fun _ => false, salloc := fun _ => false }

/-! ## Sequences: what the operations do to the list of elements -/

/-- Exchange of the elements of every complete pair, an odd last element staying. -/
def swapPairs : List Ptr → List Ptr
  | a :: b :: t => b :: a :: swapPairs t
  | l => l

/-- Placement of `x` before the first element of `l` whose string `x` is less than,
at the end when there is none. -/
def insertBefore (val : Ptr → Str) (x : Ptr) : List Ptr → List Ptr
  | [] => [x]
  | y :: t => if strcmp (val x) (val y) < 0 then x :: y :: t else y :: insertBefore val x t

/-- Insertion sort of the elements, taken one by one from the front. -/
def sortSeq (val : Ptr → Str) (xs : List Ptr) : List Ptr :=
  xs.foldl (fun acc x => insertBefore val x acc) []

/-- Removal of every element that has an equal neighbour; `flag` tells whether the
element before the list was equal to its first element. -/
def dropRuns (eq : Ptr → Ptr → Bool) : Bool → List Ptr → List Ptr
  | _, [] => []
  | flag, [e] => if flag then [] else [e]
  | flag, e :: s :: rest =>
    if eq e s then dropRuns eq true (s :: rest)
    else (if flag then [] else [e]) ++ dropRuns eq false (s :: rest)

/-- The duplicate test of `q_delete_dup` on two elements of a heap. -/
def dupEq (cmp : Str → Str → Int) (val : Ptr → Str) (a b : Ptr) : Bool :=
  dup_test (cmp (val a) (val b))

/-- The pointer swap `q_reverse` performs on one node. -/
def swapLinks (hp : Heap) (n : Ptr) : Heap :=
  { hp with next := Function.update hp.next n (hp.prev n)
            prev := Function.update hp.prev n (hp.next n) }

/-! ## Calls -/

/-- A call of one of the nine operations that change a queue, with the arguments
besides the queue and with what `malloc` and `strdup` answer. -/
inductive Op where
  | insert_head (s : Str) (m : Option Ptr) (dup : Bool)
  | insert_tail (s : Str) (m : Option Ptr) (dup : Bool)
  | remove_head (sp : Option Buf) (bufsize : Nat)
  | remove_tail (sp : Option Buf) (bufsize : Nat)
  | delete_mid
  | delete_dup
  | swap
  | reverse
  | sort

/-- The address `malloc` returns during a call, if the call allocates. -/
def Op.allocated : Op → Option Ptr
  | Op.insert_head _ m _ => m
  | Op.insert_tail _ m _ => m
  | _ => none

/-- A remove call passes no buffer or a capacity of at least 1 (`BufferOk`); the other
calls take no buffer. -/
def Op.bufferOk : Op → Prop
  | Op.remove_head sp bufsize => BufferOk sp bufsize
  | Op.remove_tail sp bufsize => BufferOk sp bufsize
  | _ => True

/-- The heap after a call on the queue with sentinel `h`. -/
def Op.run (fuel : Nat) (hp : Heap) (h : Ptr) : Op → Option Heap
  | Op.insert_head s m dup => some (q_insert_head hp (some h) s m dup).1
  | Op.insert_tail s m dup => some (q_insert_tail hp (some h) s m dup).1
  | Op.remove_head sp bufsize => some (q_remove_head hp (some h) sp bufsize).1
  | Op.remove_tail sp bufsize => some (q_remove_tail hp (some h) sp bufsize).1
  | Op.delete_mid => (q_delete_mid fuel hp (some h)).map Prod.fst
  | Op.delete_dup => (q_delete_dup fuel hp (some h)).map Prod.fst
  | Op.swap =>
    match q_swap fuel hp (some h) with
    | Res.ok hp1 => some hp1
    | _ => none
  | Op.reverse => q_reverse fuel hp (some h)
  | Op.sort => q_sort fuel hp (some h)

/-- The strings of a queue read from head to tail. -/
def readValues (fuel : Nat) (hp : Heap) (h : Ptr) : Option (List Str) :=
  (walkNext fuel hp h).map (values hp)

/-- The C string found in a buffer: the bytes from index `i` up to the first zero byte. -/
def readStr (b : Buf) : Nat → Nat → Str
  | 0, _ => []
  | fuel + 1, i => if b i = 0 then [] else b i :: readStr b fuel (i + 1)

/-- A queue with sentinel 0 whose elements 1, 2, 3 hold "b", "a", "a". -/
def demoHeap : Heap :=
  { next := fun n => match n with
      | 0 => 1 | 1 => 2 | 2 => 3 | _ => 0
    prev := fun n => match n with
      | 0 => 3 | 1 => 0 | 2 => 1 | _ => 2
    value := fun n => match n with
      | 1 => [98] | 2 => [97] | 3 => [97] | _ => []
    alloc := fun n => decide (n < 4)
    salloc := fun n => decide (0 < n ∧ n < 4) }

/-- A queue with sentinel 0 whose elements 1, 2, 3 hold "a", "a", "b". -/
def sortedHeap : Heap :=
  { next := fun n => match n with
      | 0 => 1 | 1 => 2 | 2 => 3 | _ => 0
    prev := fun n => match n with
      | 0 => 3 | 1 => 0 | 2 => 1 | _ => 2
    value := fun n => match n with
      | 1 => [97] | 2 => [97] | 3 => [98] | _ => []
    alloc := fun n => decide (n < 4)
    salloc := fun n => decide (0 < n ∧ n < 4) }

/-- What a remove function that returned `r` has done with the element `x` and the
caller's buffer `buf` of capacity `c`: `x` is returned; the buffer holds the first
min(len, c - 1) bytes of the string of `x`, then a zero byte, and is untouched from
index `c` on; read back as a C string it is the string cut to `c - 1` bytes; and the
string of `x` is neither changed nor freed. -/
def CopiedOut (hp : Heap) (x : Ptr) (buf : Buf) (c : Nat)
    (r : Heap × Option Ptr × Option Buf) : Prop :=
  r.2.1 = some x ∧
  (∃ b, r.2.2 = some b ∧
    (∀ i, i < min (hp.value x).length (c - 1) → b i = (hp.value x).getD i 0) ∧
    b (min (hp.value x).length (c - 1)) = 0 ∧
    (∀ i, c ≤ i → b i = buf i) ∧
    (CStr (hp.value x) → readStr b c 0 = (hp.value x).take (c - 1))) ∧
  r.1.value x = hp.value x ∧ r.1.alloc x = hp.alloc x ∧ r.1.salloc x = hp.salloc x

/-- A successful insertion: at the head or at the tail, the string to store, and the
address that `malloc` returns. -/
structure InsertCall where
  /-- Whether the call is `q_insert_head` rather than `q_insert_tail`. -/
  atHead : Bool
  /-- The string to store. -/
  s : Str
  /-- The address returned by `malloc`. -/
  e : Ptr

/-- The heap after a successful insertion into the queue with sentinel `h`. -/
def doInsert (hp : Heap) (h : Ptr) (c : InsertCall) : Heap :=
  if c.atHead then (q_insert_head hp (some h) c.s (some c.e) true).1
  else (q_insert_tail hp (some h) c.s (some c.e) true).1

/-- The heap after a sequence of successful insertions. -/
def doInserts (hp : Heap) (h : Ptr) : List InsertCall → Heap
  | [] => hp
  | c :: cs => doInserts (doInsert hp h c) h cs

/-- At every call of the sequence `malloc` returns storage that is not allocated then. -/
def MallocFresh (hp : Heap) (h : Ptr) : List InsertCall → Prop
  | [] => True
  | c :: cs => hp.alloc c.e = false ∧ MallocFresh (doInsert hp h c) h cs

/-- A removal: at the head or at the tail, with the caller's buffer and its capacity. -/
structure RemoveCall where
  /-- Whether the call is `q_remove_head` rather than `q_remove_tail`. -/
  atHead : Bool
  /-- The caller's buffer, if any. -/
  sp : Option Buf
  /-- The capacity passed with the buffer. -/
  bufsize : Nat

/-- The heap after a removal from the queue with sentinel `h`. -/
def doRemove (hp : Heap) (h : Ptr) (c : RemoveCall) : Heap :=
  if c.atHead then (q_remove_head hp (some h) c.sp c.bufsize).1
  else (q_remove_tail hp (some h) c.sp c.bufsize).1

/-- The heap after a sequence of removals. -/
def doRemoves (hp : Heap) (h : Ptr) : List RemoveCall → Heap
  | [] => hp
  | c :: cs => doRemoves (doRemove hp h c) h cs

/-- The calls `q_insert_tail(q, "")` repeated 2^31 times, `malloc` returning the
addresses 1, 2, 3, and so on. -/
@[irreducible]
def manyInserts : List InsertCall :=
  (List.range (2 ^ 31)).map (fun i => { atHead := false, s := [], e := i + 1 })

/-- The heap after `q_new` and then `q_insert_tail` of "b", "a" and "a", the sentinel
at address 0 and the elements at 1, 2 and 3. -/
def scenarioHeap : Heap :=
  (q_insert_tail (q_insert_tail (q_insert_tail (q_new emptyHeap (some 0)).1
    (some 0) [98] (some 1) true).1 (some 0) [97] (some 2) true).1 (some 0) [97] (some 3) true).1

/-- The heap after `q_new` and then `q_insert_tail` of "a", "b", "c" and "d", the
sentinel at address 0 and the elements at 1, 2, 3 and 4. -/
def fourHeap : Heap :=
  (q_insert_tail (q_insert_tail (q_insert_tail (q_insert_tail (q_new emptyHeap (some 0)).1
    (some 0) [97] (some 1) true).1 (some 0) [98] (some 2) true).1
    (some 0) [99] (some 3) true).1 (some 0) [100] (some 4) true).1

/-- The heap after `q_new` and then `q_insert_tail` of "a", "b" and "c", the sentinel
at address 0 and the elements at 1, 2 and 3. -/
def threeHeap : Heap :=
  (q_insert_tail (q_insert_tail (q_insert_tail (q_new emptyHeap (some 0)).1
    (some 0) [97] (some 1) true).1 (some 0) [98] (some 2) true).1 (some 0) [99] (some 3) true).1

/-- Placement as the specification words it: `x` goes before the first element of `l`
that `x` is not less than, and stays behind `l` when there is none. -/
def insertBeforeNotLess (val : Ptr → Str) (x : Ptr) : List Ptr → List Ptr
  | [] => [x]
  | y :: t =>
    if ¬ strcmp (val x) (val y) < 0 then x :: y :: t else y :: insertBeforeNotLess val x t

/-- The heap after `q_new` and then `q_insert_tail` of "a", "b" and "a", the sentinel
at address 0 and the elements at 1, 2 and 3. -/
def abaHeap : Heap :=
  (q_insert_tail (q_insert_tail (q_insert_tail (q_new emptyHeap (some 0)).1
    (some 0) [97] (some 1) true).1 (some 0) [98] (some 2) true).1 (some 0) [97] (some 3) true).1

/-! ## Chains of links -/

theorem chain_frame {hp hp' : Heap} : ∀ {l : List Ptr}, l.Chain' (Linked hp) →
    (∀ u ∈ l.dropLast, hp'.next u = hp.next u) → (∀ v ∈ l.tail, hp'.prev v = hp.prev v) →
    l.Chain' (Linked hp')
  | [], _, _, _ => List.chain'_nil
  | [_], _, _, _ => List.chain'_singleton _
  | a :: b :: t, hc, hn, hv => by
    rw [List.chain'_cons] at hc ⊢
    refine ⟨?_, chain_frame hc.2 ?_ ?_⟩
    · have h1 := hn a (by simp [List.dropLast])
      have h2 := hv b (by simp)
      unfold Linked at hc ⊢
      rw [h1, h2]; exact hc.1
    · intro u hu
      exact hn u (by simp [List.dropLast] at hu ⊢; exact Or.inr hu)
    · intro v hv'
      exact hv v (by simp at hv' ⊢; exact Or.inr hv')

/-- Unlinking inside a chain. -/
theorem chain_del {hp : Heap} {A B : List Ptr} {p x n : Ptr}
    (hc : (A ++ p :: x :: n :: B).Chain' (Linked hp))
    (ha : ∀ u ∈ A, u ≠ p) (hb : ∀ v ∈ (A ++ [p]).tail, v ≠ n)
    (hc' : ∀ u ∈ (n :: B).dropLast, u ≠ p) (hd : ∀ v ∈ B, v ≠ n) :
    (A ++ p :: n :: B).Chain' (Linked (list_del hp x)) := by
  have h1 : (A ++ [p]).Chain' (Linked hp) ∧ (p :: x :: n :: B).Chain' (Linked hp) :=
    List.chain'_split.1 hc
  have h2 := List.chain'_cons.1 h1.2
  have h3 := List.chain'_cons.1 h2.2
  obtain ⟨hpx, hxp⟩ := h2.1
  obtain ⟨hxn, hnx⟩ := h3.1
  have hnext : (list_del hp x).next = Function.update hp.next p n := by
    simp [list_del, hxp, hxn]
  have hprev : (list_del hp x).prev = Function.update hp.prev n p := by
    simp [list_del, hxp, hxn]
  rw [List.chain'_split, List.chain'_cons]
  refine ⟨chain_frame h1.1 ?_ ?_, ⟨?_, ?_⟩, chain_frame h3.2 ?_ ?_⟩
  · intro u hu
    rw [hnext, Function.update_noteq (ha u (by simpa using hu))]
  · intro v hv
    rw [hprev, Function.update_noteq (hb v hv)]
  · rw [hnext]; simp
  · rw [hprev]; simp
  · intro u hu
    rw [hnext, Function.update_noteq (hc' u hu)]
  · intro v hv
    rw [hprev, Function.update_noteq (hd v (by simpa using hv))]

/-- Splicing into a chain. -/
theorem chain_ins {hp : Heap} {A B : List Ptr} {p x n : Ptr}
    (hc : (A ++ p :: n :: B).Chain' (Linked hp))
    (hxA : x ∉ A ++ p :: n :: B)
    (ha : ∀ u ∈ A, u ≠ p) (hb : ∀ v ∈ (A ++ [p]).tail, v ≠ n)
    (hc' : ∀ u ∈ (n :: B).dropLast, u ≠ p) (hd : ∀ v ∈ B, v ≠ n) :
    (A ++ p :: x :: n :: B).Chain' (Linked (insert_between hp x p n)) := by
  have h1 : (A ++ [p]).Chain' (Linked hp) ∧ (p :: n :: B).Chain' (Linked hp) :=
    List.chain'_split.1 hc
  have h2 := List.chain'_cons.1 h1.2
  have hxp : x ≠ p := fun h => hxA (by simp [h])
  have hxn : x ≠ n := fun h => hxA (by simp [h])
  have hnext : ∀ u, u ≠ p → u ≠ x → (insert_between hp x p n).next u = hp.next u := by
    intro u h1 h2; simp [insert_between, Function.update_noteq h1, Function.update_noteq h2]
  have hprev : ∀ u, u ≠ n → u ≠ x → (insert_between hp x p n).prev u = hp.prev u := by
    intro u h1 h2; simp [insert_between, Function.update_noteq h1, Function.update_noteq h2]
  rw [List.chain'_split, List.chain'_cons, List.chain'_cons]
  refine ⟨chain_frame h1.1 ?_ ?_, ⟨?_, ?_⟩, ⟨?_, ?_⟩, chain_frame h2.2 ?_ ?_⟩
  · intro u hu
    have hu' : u ∈ A := by simpa using hu
    exact hnext u (ha u hu') (fun h => hxA (by simp [← h, hu']))
  · intro v hv
    refine hprev v (hb v hv) (fun h => hxA ?_)
    have := List.mem_of_mem_tail hv
    rw [← h]; simp at this ⊢; tauto
  · simp [insert_between]
  · simp [insert_between]
  · simp [insert_between, Function.update_noteq hxp]
  · simp [insert_between, Function.update_noteq hxn.symm]
  · intro u hu
    refine hnext u (hc' u hu) (fun h => hxA ?_)
    have := List.mem_of_mem_dropLast hu
    rw [← h]; simp at this ⊢; tauto
  · intro v hv
    have hv' : v ∈ B := by simpa using hv
    exact hprev v (hd v hv') (fun h => hxA (by simp [← h, hv']))


theorem cycle_decomp (h : Ptr) (P Q : List Ptr) :
    ∃ A B, h :: P = A ++ [P.getLastD h] ∧ Q ++ [h] = Q.headD h :: B := by
  have h1 : ∃ A, h :: P = A ++ [P.getLastD h] := by
    rcases List.eq_nil_or_concat P with rfl | ⟨l, a, rfl⟩
    · exact ⟨[], rfl⟩
    · exact ⟨h :: l, by simp⟩
  have h2 : ∃ B, Q ++ [h] = Q.headD h :: B := by
    cases Q with
    | nil => exact ⟨[], rfl⟩
    | cons y t => exact ⟨t ++ [h], rfl⟩
  obtain ⟨A, hA⟩ := h1
  obtain ⟨B, hB⟩ := h2
  exact ⟨A, B, hA, hB⟩

theorem cycle_split {h : Ptr} {P Q A B : List Ptr} {p n : Ptr}
    (hA : h :: P = A ++ [p]) (hB : Q ++ [h] = n :: B) :
    h :: (P ++ Q) ++ [h] = A ++ p :: n :: B := by
  have : h :: (P ++ Q) ++ [h] = (h :: P) ++ (Q ++ [h]) := by simp
  rw [this, hA, hB]; simp

theorem cycle_split_mid {h x : Ptr} {P Q A B : List Ptr} {p n : Ptr}
    (hA : h :: P = A ++ [p]) (hB : Q ++ [h] = n :: B) :
    h :: (P ++ x :: Q) ++ [h] = A ++ p :: x :: n :: B := by
  have : h :: (P ++ x :: Q) ++ [h] = (h :: P) ++ x :: (Q ++ [h]) := by simp
  rw [this, hA, hB]; simp

theorem cycle_sep {h : Ptr} {P Q A B : List Ptr} {p n : Ptr}
    (hnd : (h :: (P ++ Q)).Nodup) (hA : h :: P = A ++ [p]) (hB : Q ++ [h] = n :: B) :
    (∀ u ∈ A, u ≠ p) ∧ (∀ v ∈ (A ++ [p]).tail, v ≠ n) ∧
    (∀ u ∈ (n :: B).dropLast, u ≠ p) ∧ (∀ v ∈ B, v ≠ n) := by
  have hh : h ∉ P ∧ h ∉ Q := by
    have := (List.nodup_cons.1 hnd).1
    simp at this; tauto
  have h12 := List.nodup_append.1 (List.nodup_cons.1 hnd).2
  have hp : p ∈ h :: P := by rw [hA]; simp
  have hn : n ∈ Q ++ [h] := by rw [hB]; simp
  have hndA : (A ++ [p]).Nodup := by
    rw [← hA]; exact List.nodup_cons.2 ⟨hh.1, h12.1⟩
  have hndB : (n :: B).Nodup := by
    rw [← hB]; exact List.nodup_append.2 ⟨h12.2.1, List.nodup_singleton _, by
      intro a ha hb; simp at hb; subst hb; exact hh.2 ha⟩
  refine ⟨?_, ?_, ?_, ?_⟩
  · intro u hu e
    have := (List.nodup_append.1 hndA).2.2
    exact this hu (by simp [e])
  · intro v hv e
    rw [← hA] at hv
    simp at hv
    subst e
    rcases List.mem_append.1 hn with h' | h'
    · exact h12.2.2 hv h'
    · simp at h'; subst h'; exact hh.1 hv
  · intro u hu e
    rw [← hB, List.dropLast_concat] at hu
    subst e
    rcases List.mem_cons.1 hp with h' | h'
    · subst h'; exact hh.2 hu
    · exact h12.2.2 h' hu
  · intro v hv e
    subst e
    exact (List.nodup_cons.1 hndB).1 hv

/-- In a queue, the last node of any initial part is linked to the first node of the rest. -/
theorem IsQueue.linked {hp : Heap} {h : Ptr} {P Q : List Ptr} (hq : IsQueue hp h (P ++ Q)) :
    Linked hp (P.getLastD h) (Q.headD h) := by
  obtain ⟨A, B, hA, hB⟩ := cycle_decomp h P Q
  have hc := hq.2
  rw [cycle_split hA hB] at hc
  exact (List.chain'_cons.1 (List.chain'_split.1 hc).2).1

theorem IsQueue.next_head {hp : Heap} {h : Ptr} {xs : List Ptr} (hq : IsQueue hp h xs) :
    hp.next h = xs.headD h :=
  (IsQueue.linked (P := []) (Q := xs) hq).1

theorem IsQueue.prev_head {hp : Heap} {h : Ptr} {xs : List Ptr} (hq : IsQueue hp h xs) :
    hp.prev h = xs.getLastD h := by
  have := (IsQueue.linked (P := xs) (Q := []) (by simpa using hq)).2
  simpa using this

theorem IsQueue.next_mid {hp : Heap} {h x : Ptr} {P Q : List Ptr}
    (hq : IsQueue hp h (P ++ x :: Q)) : hp.next x = Q.headD h := by
  have := (IsQueue.linked (P := P ++ [x]) (Q := Q) (by simpa using hq)).1
  simpa using this

theorem IsQueue.prev_mid {hp : Heap} {h x : Ptr} {P Q : List Ptr}
    (hq : IsQueue hp h (P ++ x :: Q)) : hp.prev x = P.getLastD h := by
  have := (IsQueue.linked (P := P) (Q := x :: Q) hq).2
  simpa using this

theorem IsQueue.nodup_erase {h x : Ptr} {P Q : List Ptr} (hnd : (h :: (P ++ x :: Q)).Nodup) :
    (h :: (P ++ Q)).Nodup ∧ x ∉ h :: (P ++ Q) := by
  have hs : (h :: (P ++ Q)).Sublist (h :: (P ++ x :: Q)) :=
    (List.Sublist.append_left (List.sublist_cons_self x Q) P).cons₂ h
  refine ⟨hnd.sublist hs, ?_⟩
  have h1 := List.nodup_cons.1 hnd
  have h2 := List.nodup_middle.1 h1.2
  have h3 := (List.nodup_cons.1 h2).1
  intro hx
  rcases List.mem_cons.1 hx with e | e
  · subst e; exact h1.1 (by simp)
  · exact h3 e

/-- Unlinking an element of a queue leaves the queue of the other elements. -/
theorem IsQueue.del {hp : Heap} {h x : Ptr} {P Q : List Ptr}
    (hq : IsQueue hp h (P ++ x :: Q)) : IsQueue (list_del hp x) h (P ++ Q) := by
  obtain ⟨A, B, hA, hB⟩ := cycle_decomp h P Q
  have hnd := (IsQueue.nodup_erase hq.1).1
  obtain ⟨s1, s2, s3, s4⟩ := cycle_sep hnd hA hB
  refine ⟨hnd, ?_⟩
  have hc := hq.2
  rw [cycle_split_mid hA hB] at hc
  rw [cycle_split hA hB]
  exact chain_del hc s1 s2 s3 s4

/-- Splicing a fresh node between two neighbours of a queue. -/
theorem IsQueue.ins {hp : Heap} {h x : Ptr} {P Q : List Ptr}
    (hq : IsQueue hp h (P ++ Q)) (hx : x ∉ h :: (P ++ Q)) :
    IsQueue (insert_between hp x (P.getLastD h) (Q.headD h)) h (P ++ x :: Q) := by
  obtain ⟨A, B, hA, hB⟩ := cycle_decomp h P Q
  obtain ⟨s1, s2, s3, s4⟩ := cycle_sep hq.1 hA hB
  constructor
  · have h1 := List.nodup_cons.1 hq.1
    refine List.nodup_cons.2 ⟨?_, List.nodup_middle.2 (List.nodup_cons.2 ⟨?_, h1.2⟩)⟩
    · intro hm
      rcases List.mem_append.1 hm with e | e
      · exact h1.1 (List.mem_append_left _ e)
      · rcases List.mem_cons.1 e with e | e
        · subst e; exact hx (by simp)
        · exact h1.1 (List.mem_append_right _ e)
    · intro hm; exact hx (List.mem_cons_of_mem _ hm)
  · have hc := hq.2
    rw [cycle_split hA hB] at hc
    rw [cycle_split_mid hA hB]
    refine chain_ins hc ?_ s1 s2 s3 s4
    rw [← cycle_split hA hB]
    intro hm
    simp at hm hx
    tauto

@[simp] theorem list_del_value (hp : Heap) (x : Ptr) : (list_del hp x).value = hp.value := rfl
@[simp] theorem list_del_alloc (hp : Heap) (x : Ptr) : (list_del hp x).alloc = hp.alloc := rfl
@[simp] theorem list_del_salloc (hp : Heap) (x : Ptr) : (list_del hp x).salloc = hp.salloc := rfl
@[simp] theorem insert_between_value (hp : Heap) (x p n : Ptr) :
    (insert_between hp x p n).value = hp.value := rfl
@[simp] theorem insert_between_alloc (hp : Heap) (x p n : Ptr) :
    (insert_between hp x p n).alloc = hp.alloc := rfl
@[simp] theorem insert_between_salloc (hp : Heap) (x p n : Ptr) :
    (insert_between hp x p n).salloc = hp.salloc := rfl
@[simp] theorem list_move_value (hp : Heap) (x t : Ptr) : (list_move hp x t).value = hp.value := rfl
@[simp] theorem list_move_alloc (hp : Heap) (x t : Ptr) : (list_move hp x t).alloc = hp.alloc := rfl
@[simp] theorem list_move_salloc (hp : Heap) (x t : Ptr) :
    (list_move hp x t).salloc = hp.salloc := rfl

/-- The links are all that `IsQueue` reads. -/
theorem IsQueue.congr {hp hp' : Heap} {h : Ptr} {xs : List Ptr} (hq : IsQueue hp h xs)
    (hn : hp'.next = hp.next) (hv : hp'.prev = hp.prev) : IsQueue hp' h xs :=
  ⟨hq.1, chain_frame hq.2 (fun u _ => by rw [hn]) (fun v _ => by rw [hv])⟩

/-- Adding a fresh node after the last node of an initial part (`list_add`). -/
theorem IsQueue.add {hp : Heap} {h x : Ptr} {P Q : List Ptr}
    (hq : IsQueue hp h (P ++ Q)) (hx : x ∉ h :: (P ++ Q)) :
    IsQueue (list_add hp x (P.getLastD h)) h (P ++ x :: Q) := by
  unfold list_add
  rw [(IsQueue.linked hq).1]
  exact IsQueue.ins hq hx

/-- Adding a fresh node before the sentinel (`list_add_tail`). -/
theorem IsQueue.add_tail {hp : Heap} {h x : Ptr} {xs : List Ptr}
    (hq : IsQueue hp h xs) (hx : x ∉ h :: xs) :
    IsQueue (list_add_tail hp x h) h (xs ++ [x]) := by
  unfold list_add_tail
  rw [IsQueue.prev_head hq]
  have hq' : IsQueue hp h (xs ++ []) := by simpa using hq
  have := IsQueue.ins hq' (by simpa using hx)
  simpa using this

/-- Moving an element to just after the last node of an initial part of the rest (`list_move`). -/
theorem IsQueue.move {hp : Heap} {h x : Ptr} {P Q m1 m2 : List Ptr}
    (hq : IsQueue hp h (P ++ x :: Q)) (hm : P ++ Q = m1 ++ m2) :
    IsQueue (list_move hp x (m1.getLastD h)) h (m1 ++ x :: m2) := by
  have hd := IsQueue.del hq
  have hx := (IsQueue.nodup_erase hq.1).2
  rw [hm] at hd hx
  exact IsQueue.add hd hx

/-- Following a chain of `step` from `node` lists the nodes up to the sentinel. -/
theorem walk_of_chain {step : Ptr → Ptr} {h : Ptr} :
    ∀ (l : List Ptr) (node : Ptr) (fuel : Nat),
      (node :: l ++ [h]).Chain' (fun u v => step u = v) → h ∉ l → l.length + 1 ≤ fuel →
      walk step h fuel node = some l
  | [], node, fuel, hc, _, hf => by
    obtain ⟨k, rfl⟩ : ∃ k, fuel = k + 1 := ⟨fuel - 1, by simp at hf; omega⟩
    have : step node = h := by simpa using hc
    simp [walk, this]
  | y :: l, node, fuel, hc, hh, hf => by
    obtain ⟨k, rfl⟩ : ∃ k, fuel = k + 1 := ⟨fuel - 1, by simp at hf; omega⟩
    have hc' : step node = y ∧ (y :: (l ++ [h])).Chain' (fun u v => step u = v) := by
      simpa using hc
    have hy : step node = y := hc'.1
    have hne : y ≠ h := fun e => hh (by simp [e])
    have ih := walk_of_chain l y k (by simpa using hc'.2)
      (fun e => hh (List.mem_cons_of_mem _ e)) (by simp at hf; omega)
    simp [walk, hy, hne, ih]

/-- What `walk` returns is a chain of `step` that ends at the sentinel and avoids it before. -/
theorem chain_of_walk {step : Ptr → Ptr} {h : Ptr} :
    ∀ (fuel : Nat) (node : Ptr) (l : List Ptr), walk step h fuel node = some l →
      (node :: l ++ [h]).Chain' (fun u v => step u = v) ∧ h ∉ l
  | 0, _, _, hw => by simp [walk] at hw
  | fuel + 1, node, l, hw => by
    unfold walk at hw
    split at hw
    · rename_i e
      cases hw
      simp [e]
    · rename_i e
      cases hr : walk step h fuel (step node) with
      | none => simp [hr] at hw
      | some l' =>
        simp [hr] at hw
        subst hw
        have ih := chain_of_walk fuel (step node) l' hr
        refine ⟨?_, ?_⟩
        · have : node :: (step node :: l') ++ [h] = node :: step node :: (l' ++ [h]) := by simp
          rw [this, List.chain'_cons]
          exact ⟨rfl, by simpa using ih.1⟩
        · intro hm
          rcases List.mem_cons.1 hm with e' | e'
          · exact e e'.symm
          · exact ih.2 e'

theorem IsQueue.walkNext {hp : Heap} {h : Ptr} {xs : List Ptr} (hq : IsQueue hp h xs)
    {fuel : Nat} (hf : xs.length + 1 ≤ fuel) : walkNext fuel hp h = some xs := by
  refine walk_of_chain xs h fuel (hq.2.imp (fun a b hab => hab.1)) ?_ hf
  exact fun e => (List.nodup_cons.1 hq.1).1 e

theorem IsQueue.walkPrev {hp : Heap} {h : Ptr} {xs : List Ptr} (hq : IsQueue hp h xs)
    {fuel : Nat} (hf : xs.length + 1 ≤ fuel) : walkPrev fuel hp h = some xs.reverse := by
  refine walk_of_chain xs.reverse h fuel ?_ ?_ (by simpa using hf)
  · have h1 : h :: xs.reverse ++ [h] = (h :: xs ++ [h]).reverse := by simp
    rw [h1, List.chain'_reverse]
    exact hq.2.imp (fun a b hab => hab.2)
  · exact fun e => (List.nodup_cons.1 hq.1).1 (List.mem_reverse.1 e)

/-- A chain of links that leaves a node and never comes back to it has no repetition. -/
theorem nodup_of_chain {hp : Heap} : ∀ (l : List Ptr) (a : Ptr),
    (a :: l).Chain' (Linked hp) → a ∉ l → (a :: l).Nodup
  | [], _, _, _ => by simp
  | y :: l, a, hc, ha => by
    have hc' := List.chain'_cons.1 hc
    refine List.nodup_cons.2 ⟨ha, nodup_of_chain l y hc'.2 ?_⟩
    intro hy
    obtain ⟨P, Q, rfl⟩ := List.append_of_mem hy
    obtain ⟨A, B, hA, _⟩ := cycle_decomp y P []
    have h2 : y :: (P ++ y :: Q) = A ++ P.getLastD y :: y :: Q := by
      have : y :: (P ++ y :: Q) = (y :: P) ++ y :: Q := by simp
      rw [this, hA]; simp
    have hc2 := hc'.2
    rw [h2] at hc2
    have h3 := (List.chain'_cons.1 (List.chain'_split.1 hc2).2).1
    have h4 : a = P.getLastD y := by rw [← hc'.1.2, h3.2]
    apply ha
    rw [h4]
    have : P.getLastD y ∈ y :: P := by rw [hA]; simp
    simp at this ⊢
    tauto

/-- Well-formedness, as the links say it, is the same as holding some sequence of elements. -/
theorem wellFormed_iff {hp : Heap} {h : Ptr} : WellFormed hp h ↔ ∃ xs, IsQueue hp h xs := by
  constructor
  · rintro ⟨xs, hw, hl⟩
    obtain ⟨hc, hh⟩ := chain_of_walk _ _ _ hw
    have hc2 : (h :: xs ++ [h]).Chain' (Linked hp) := by
      rw [List.Chain'.iff_mem] at hc
      refine hc.imp ?_
      intro a b ⟨ha, _, hab⟩
      refine ⟨hab, ?_⟩
      have ha' : a ∈ h :: xs := by
        simp at ha ⊢; tauto
      rw [← hab]; exact (hl a ha').1
    refine ⟨xs, @nodup_of_chain hp xs h ?_ hh, hc2⟩
    have : (h :: xs) <:+: (h :: xs ++ [h]) := ⟨[], [h], by simp⟩
    exact hc2.infix this
  · rintro ⟨xs, hq⟩
    refine ⟨xs, IsQueue.walkNext hq (le_refl _), ?_⟩
    intro n hn
    rcases List.mem_cons.1 hn with e | e
    · subst e
      have h1 := IsQueue.linked (P := []) (Q := xs) hq
      have h2 := IsQueue.linked (P := xs) (Q := []) (by simpa using hq)
      simp at h1 h2
      exact ⟨by rw [h1.1, h1.2], by rw [h2.2, h2.1]⟩
    · obtain ⟨P, Q, rfl⟩ := List.append_of_mem e
      have h1 := IsQueue.linked (P := P) (Q := n :: Q) hq
      have h2 := IsQueue.linked (P := P ++ [n]) (Q := Q) (by simpa using hq)
      simp at h1 h2
      exact ⟨by rw [h2.1, h2.2], by rw [h1.2, h1.1]⟩

theorem Live.fresh {hp : Heap} {h e : Ptr} {xs : List Ptr} (hl : Live hp h xs)
    (he : hp.alloc e = false) : e ∉ h :: xs := by
  intro hm
  rcases List.mem_cons.1 hm with rfl | hm
  · rw [hl.1] at he; cases he
  · rw [(hl.2 e hm).1] at he; cases he

/-- A successful `q_insert_head` links the new element in front. -/
theorem q_insert_head_queue {hp : Heap} {h e : Ptr} {xs : List Ptr} (s : Str)
    (hq : IsQueue hp h xs) (he : e ∉ h :: xs) :
    (q_insert_head hp (some h) s (some e) true).2 = true ∧
    IsQueue (q_insert_head hp (some h) s (some e) true).1 h (e :: xs) ∧
    (q_insert_head hp (some h) s (some e) true).1.value = Function.update hp.value e s ∧
    (q_insert_head hp (some h) s (some e) true).1.alloc = Function.update hp.alloc e true ∧
    (q_insert_head hp (some h) s (some e) true).1.salloc = Function.update hp.salloc e true := by
  refine ⟨rfl, ?_, rfl, rfl, rfl⟩
  have hq2 : IsQueue ({ mallocAt hp e with
      value := Function.update (mallocAt hp e).value e s
      salloc := Function.update (mallocAt hp e).salloc e true } : Heap) h ([] ++ xs) :=
    IsQueue.congr hq rfl rfl
  exact IsQueue.add hq2 he

/-- A successful `q_insert_tail` links the new element at the end. -/
theorem q_insert_tail_queue {hp : Heap} {h e : Ptr} {xs : List Ptr} (s : Str)
    (hq : IsQueue hp h xs) (he : e ∉ h :: xs) :
    (q_insert_tail hp (some h) s (some e) true).2 = true ∧
    IsQueue (q_insert_tail hp (some h) s (some e) true).1 h (xs ++ [e]) ∧
    (q_insert_tail hp (some h) s (some e) true).1.value = Function.update hp.value e s ∧
    (q_insert_tail hp (some h) s (some e) true).1.alloc = Function.update hp.alloc e true ∧
    (q_insert_tail hp (some h) s (some e) true).1.salloc = Function.update hp.salloc e true := by
  refine ⟨rfl, ?_, rfl, rfl, rfl⟩
  have hq2 : IsQueue ({ mallocAt hp e with
      value := Function.update (mallocAt hp e).value e s
      salloc := Function.update (mallocAt hp e).salloc e true } : Heap) h xs :=
    IsQueue.congr hq rfl rfl
  exact IsQueue.add_tail hq2 he

theorem IsQueue.head_ne {hp : Heap} {h x : Ptr} {P Q : List Ptr}
    (hq : IsQueue hp h (P ++ x :: Q)) : x ≠ h := by
  intro e
  exact (List.nodup_cons.1 hq.1).1 (by simp [e])

theorem IsQueue.list_empty_cons {hp : Heap} {h x : Ptr} {xs : List Ptr}
    (hq : IsQueue hp h (x :: xs)) : list_empty hp h = false := by
  have h1 := IsQueue.next_head hq
  have h2 := IsQueue.head_ne (P := []) hq
  simp [list_empty, h1, h2]

theorem IsQueue.list_empty_nil {hp : Heap} {h : Ptr} (hq : IsQueue hp h []) :
    list_empty hp h = true := by
  have h1 := IsQueue.next_head hq
  simpa [list_empty] using h1

/-- On a non-empty queue `q_remove_head` unlinks and returns the first element. -/
theorem q_remove_head_queue {hp : Heap} {h x : Ptr} {xs : List Ptr} (sp : Option Buf) (c : Nat)
    (hq : IsQueue hp h (x :: xs)) :
    q_remove_head hp (some h) sp c = (list_del hp x, some x, copy_out sp (hp.value x) c) ∧
    IsQueue (list_del hp x) h xs := by
  have h1 : hp.next h = x := IsQueue.next_head hq
  refine ⟨?_, IsQueue.del (P := []) hq⟩
  simp [q_remove_head, IsQueue.list_empty_cons hq, h1]

/-- On a non-empty queue `q_remove_tail` unlinks and returns the last element. -/
theorem q_remove_tail_queue {hp : Heap} {h x : Ptr} {xs : List Ptr} (sp : Option Buf) (c : Nat)
    (hq : IsQueue hp h (xs ++ [x])) :
    q_remove_tail hp (some h) sp c = (list_del hp x, some x, copy_out sp (hp.value x) c) ∧
    IsQueue (list_del hp x) h xs := by
  have h1 : hp.prev h = x := by simpa using IsQueue.prev_head hq
  have h2 : list_empty hp h = false := by
    cases xs with
    | nil => exact IsQueue.list_empty_cons hq
    | cons y t => exact IsQueue.list_empty_cons hq
  refine ⟨?_, by simpa using IsQueue.del (P := xs) (Q := []) hq⟩
  simp [q_remove_tail, h2, h1]

/-- On an empty queue both remove functions return null and change nothing. -/
theorem q_remove_empty {hp : Heap} {h : Ptr} (sp : Option Buf) (c : Nat) (hq : IsQueue hp h []) :
    q_remove_head hp (some h) sp c = (hp, none, sp) ∧
    q_remove_tail hp (some h) sp c = (hp, none, sp) := by
  simp [q_remove_head, q_remove_tail, IsQueue.list_empty_nil hq]

theorem wrap32_step (a b : Int) : wrap32 (wrap32 (a + 1) + b) = wrap32 (a + (b + 1)) := by
  unfold wrap32; omega

theorem wrap32_of_range {a : Int} (h1 : -2 ^ 31 ≤ a) (h2 : a < 2 ^ 31) : wrap32 a = a := by
  unfold wrap32; omega

theorem wrap32_range (a : Int) : -2 ^ 31 ≤ wrap32 a ∧ wrap32 a < 2 ^ 31 := by
  unfold wrap32; omega

theorem q_size_loop_chain {hp : Heap} {h : Ptr} :
    ∀ (l : List Ptr) (node : Ptr) (num : Int) (fuel : Nat),
      (node :: l ++ [h]).Chain' (fun u v => hp.next u = v) → h ∉ l → l.length + 1 ≤ fuel →
      -2 ^ 31 ≤ num → num < 2 ^ 31 →
      q_size_loop hp h fuel node num = some (wrap32 (num + l.length))
  | [], node, num, fuel, hc, _, hf, h1, h2 => by
    obtain ⟨k, rfl⟩ : ∃ k, fuel = k + 1 := ⟨fuel - 1, by simp at hf; omega⟩
    have : hp.next node = h := by simpa using hc
    simp [q_size_loop, this, wrap32_of_range h1 h2]
  | y :: l, node, num, fuel, hc, hh, hf, h1, h2 => by
    obtain ⟨k, rfl⟩ : ∃ k, fuel = k + 1 := ⟨fuel - 1, by simp at hf; omega⟩
    have hc' : hp.next node = y ∧ (y :: (l ++ [h])).Chain' (fun u v => hp.next u = v) := by
      simpa using hc
    have hne : y ≠ h := fun e => hh (by simp [e])
    have ih := q_size_loop_chain l y (wrap32 (num + 1)) k (by simpa using hc'.2)
      (fun e => hh (List.mem_cons_of_mem _ e)) (by simp at hf; omega)
      (wrap32_range _).1 (wrap32_range _).2
    simp only [q_size_loop, hc'.1, hne, ne_eq, not_false_eq_true, if_true, ih, wrap32_step]
    simp

/-- The function `q_size` returns the number of elements, reduced to an `int`. -/
theorem q_size_queue {hp : Heap} {h : Ptr} {xs : List Ptr} (hq : IsQueue hp h xs) {fuel : Nat}
    (hf : xs.length + 1 ≤ fuel) : q_size fuel hp (some h) = some (wrap32 xs.length) := by
  have := @q_size_loop_chain hp h xs h 0 fuel (hq.2.imp (fun a b hab => hab.1))
    (fun e => (List.nodup_cons.1 hq.1).1 e) hf (by norm_num) (by norm_num)
  simpa [q_size] using this

/-- The loop of `q_swap` exchanges the pairs of the part of the queue still ahead. -/
theorem q_swap_loop_queue {h : Ptr} : ∀ (rest pre : List Ptr) (hp : Heap) (fuel : Nat),
    IsQueue hp h (pre ++ rest) → rest.length + 1 ≤ fuel →
    ∃ hp', q_swap_loop h fuel hp (rest.headD h) (hp.next (rest.headD h)) = some hp' ∧
      IsQueue hp' h (pre ++ swapPairs rest) ∧ hp'.value = hp.value ∧
      hp'.alloc = hp.alloc ∧ hp'.salloc = hp.salloc
  | [], pre, hp, fuel, hq, hf => by
    obtain ⟨k, rfl⟩ : ∃ k, fuel = k + 1 := ⟨fuel - 1, by omega⟩
    exact ⟨hp, by simp [q_swap_loop], by simpa [swapPairs] using hq, rfl, rfl, rfl⟩
  | [a], pre, hp, fuel, hq, hf => by
    obtain ⟨k, rfl⟩ : ∃ k, fuel = k + 1 := ⟨fuel - 1, by omega⟩
    have h1 : hp.next a = h := IsQueue.next_mid hq
    exact ⟨hp, by simp [q_swap_loop, h1], by simpa [swapPairs] using hq, rfl, rfl, rfl⟩
  | a :: b :: t, pre, hp, fuel, hq, hf => by
    obtain ⟨k, rfl⟩ : ∃ k, fuel = k + 1 := ⟨fuel - 1, by omega⟩
    have h1 : hp.next a = b := IsQueue.next_mid hq
    have ha : a ≠ h := IsQueue.head_ne hq
    have hb : b ≠ h := IsQueue.head_ne (P := pre ++ [a]) (by simpa using hq)
    have hm : IsQueue (list_move hp a ((pre ++ [b]).getLastD h)) h ((pre ++ [b]) ++ a :: t) :=
      IsQueue.move hq (by simp)
    have hl : (pre ++ [b]).getLastD h = b := by simp
    rw [hl] at hm
    have h2 : (list_move hp a b).next a = t.headD h := IsQueue.next_mid hm
    obtain ⟨hp', e1, e2, e3, e4, e5⟩ := q_swap_loop_queue t (pre ++ [b, a]) (list_move hp a b) k
      (by simpa using hm) (by simp at hf; omega)
    refine ⟨hp', ?_, by simpa [swapPairs] using e2, e3, e4, e5⟩
    simp only [List.headD_cons, q_swap_loop, h1, ha, hb, ne_eq, not_false_eq_true, and_self,
      if_true, h2]
    exact e1

/-- On a queue `q_swap` exchanges the elements of every pair. -/
theorem q_swap_queue {hp : Heap} {h : Ptr} {xs : List Ptr} (hq : IsQueue hp h xs) {fuel : Nat}
    (hf : xs.length + 1 ≤ fuel) :
    ∃ hp', q_swap fuel hp (some h) = Res.ok hp' ∧ IsQueue hp' h (swapPairs xs) ∧
      hp'.value = hp.value ∧ hp'.alloc = hp.alloc ∧ hp'.salloc = hp.salloc := by
  obtain ⟨hp', e1, e2, e3⟩ := q_swap_loop_queue xs [] hp fuel (by simpa using hq) hf
  rw [← IsQueue.next_head hq] at e1
  exact ⟨hp', by simp [q_swap, e1], by simpa using e2, e3⟩

theorem foldl_swapLinks {L : List Ptr} : ∀ (hp : Heap), L.Nodup →
    (∀ n, (L.foldl swapLinks hp).next n = if n ∈ L then hp.prev n else hp.next n) ∧
    (∀ n, (L.foldl swapLinks hp).prev n = if n ∈ L then hp.next n else hp.prev n) ∧
    (L.foldl swapLinks hp).value = hp.value ∧ (L.foldl swapLinks hp).alloc = hp.alloc ∧
    (L.foldl swapLinks hp).salloc = hp.salloc := by
  induction L with
  | nil => intro hp _; simp
  | cons a L ih =>
    intro hp hnd
    have ha := (List.nodup_cons.1 hnd).1
    obtain ⟨i1, i2, i3, i4, i5⟩ := ih (swapLinks hp a) (List.nodup_cons.1 hnd).2
    refine ⟨?_, ?_, by rw [List.foldl_cons, i3]; rfl, by rw [List.foldl_cons, i4]; rfl,
      by rw [List.foldl_cons, i5]; rfl⟩
    · intro n
      rw [List.foldl_cons, i1]
      by_cases e : n = a
      · subst e; simp [ha, swapLinks]
      · by_cases m : n ∈ L <;> simp [m, e, swapLinks, Function.update_noteq e]
    · intro n
      rw [List.foldl_cons, i2]
      by_cases e : n = a
      · subst e; simp [ha, swapLinks]
      · by_cases m : n ∈ L <;> simp [m, e, swapLinks, Function.update_noteq e]

theorem chain_step_frame {f g : Ptr → Ptr} : ∀ {l : List Ptr},
    l.Chain' (fun u v => f u = v) → (∀ u ∈ l.dropLast, g u = f u) →
    l.Chain' (fun u v => g u = v)
  | [], _, _ => List.chain'_nil
  | [_], _, _ => List.chain'_singleton _
  | a :: b :: t, hc, hn => by
    rw [List.chain'_cons] at hc ⊢
    refine ⟨?_, chain_step_frame hc.2 ?_⟩
    · rw [hn a (by simp [List.dropLast])]; exact hc.1
    · intro u hu
      exact hn u (by simp [List.dropLast] at hu ⊢; exact Or.inr hu)

/-- The loop of `q_reverse` swaps the links of the nodes it meets going backwards. -/
theorem q_reverse_loop_chain {h : Ptr} : ∀ (l : List Ptr) (iter : Ptr) (hp : Heap) (fuel : Nat),
    (iter :: l ++ [h]).Chain' (fun u v => hp.prev u = v) → (iter :: l).Nodup → h ∉ l →
    l.length + 1 ≤ fuel →
    q_reverse_loop h fuel hp iter = some ((iter :: l).foldl swapLinks hp)
  | [], iter, hp, fuel, hc, _, _, hf => by
    obtain ⟨k, rfl⟩ : ∃ k, fuel = k + 1 := ⟨fuel - 1, by simp at hf; omega⟩
    have h1 : hp.prev iter = h := by simpa using hc
    simp [q_reverse_loop, h1, swapLinks]
  | y :: l, iter, hp, fuel, hc, hnd, hh, hf => by
    obtain ⟨k, rfl⟩ : ∃ k, fuel = k + 1 := ⟨fuel - 1, by simp at hf; omega⟩
    have hc' : hp.prev iter = y ∧ (y :: (l ++ [h])).Chain' (fun u v => hp.prev u = v) := by
      simpa using hc
    have hne : y ≠ h := fun e => hh (by simp [e])
    have hit : iter ∉ y :: l := (List.nodup_cons.1 hnd).1
    have hc2 : (y :: l ++ [h]).Chain' (fun u v => (swapLinks hp iter).prev u = v) := by
      have h0 : (y :: l ++ [h]).Chain' (fun u v => hp.prev u = v) := by simpa using hc'.2
      refine chain_step_frame h0 ?_
      intro u hu
      have hu' : u ∈ y :: l := by
        have h3 : ((y :: l) ++ [h]).dropLast = y :: l := List.dropLast_concat
        rw [← h3]; exact hu
      have : u ≠ iter := fun e => hit (e ▸ hu')
      simp [swapLinks, Function.update_noteq this]
    have ih := q_reverse_loop_chain l y (swapLinks hp iter) k hc2 (List.nodup_cons.1 hnd).2
      (fun e => hh (List.mem_cons_of_mem _ e)) (by simp at hf; omega)
    have e1 : (swapLinks hp iter).next iter = y := by simp [swapLinks, hc'.1]
    have : q_reverse_loop h (k + 1) hp iter = q_reverse_loop h k (swapLinks hp iter) y := by
      show (if (swapLinks hp iter).next iter ≠ h then
        q_reverse_loop h k (swapLinks hp iter) ((swapLinks hp iter).next iter)
        else some (swapLinks hp iter)) = _
      rw [e1]; simp [hne]
    rw [this, ih]; rfl

/-- On a queue `q_reverse` swaps the two links of every node, which reverses the sequence. -/
theorem q_reverse_queue {hp : Heap} {h : Ptr} {xs : List Ptr} (hq : IsQueue hp h xs) {fuel : Nat}
    (hf : xs.length + 1 ≤ fuel) :
    ∃ hp', q_reverse fuel hp (some h) = some hp' ∧ IsQueue hp' h xs.reverse ∧
      (∀ n, hp'.next n = if n ∈ h :: xs then hp.prev n else hp.next n) ∧
      (∀ n, hp'.prev n = if n ∈ h :: xs then hp.next n else hp.prev n) ∧
      hp'.value = hp.value ∧ hp'.alloc = hp.alloc ∧ hp'.salloc = hp.salloc := by
  have hnd : (h :: xs.reverse).Nodup := by
    have := hq.1
    simp at this ⊢; exact this
  have hh : h ∉ xs.reverse := (List.nodup_cons.1 hnd).1
  have hc : (h :: xs.reverse ++ [h]).Chain' (fun u v => hp.prev u = v) := by
    have h1 : h :: xs.reverse ++ [h] = (h :: xs ++ [h]).reverse := by simp
    rw [h1, List.chain'_reverse]
    exact hq.2.imp (fun a b hab => hab.2)
  have hl := q_reverse_loop_chain xs.reverse h hp fuel hc hnd hh (by simpa using hf)
  obtain ⟨f1, f2, f3, f4, f5⟩ := foldl_swapLinks (L := h :: xs.reverse) hp hnd
  have g1 : ∀ n, ((h :: xs.reverse).foldl swapLinks hp).next n =
      if n ∈ h :: xs then hp.prev n else hp.next n := by
    intro n; rw [f1]; simp
  have g2 : ∀ n, ((h :: xs.reverse).foldl swapLinks hp).prev n =
      if n ∈ h :: xs then hp.next n else hp.prev n := by
    intro n; rw [f2]; simp
  refine ⟨_, hl, ⟨hnd, ?_⟩, g1, g2, f3, f4, f5⟩
  have h1 : h :: xs.reverse ++ [h] = (h :: xs ++ [h]).reverse := by simp
  rw [h1, List.chain'_reverse]
  have hc0 := hq.2
  rw [List.Chain'.iff_mem] at hc0
  refine hc0.imp ?_
  intro a b ⟨ha, hb, hab⟩
  have ha' : a ∈ h :: xs := by simp at ha ⊢; tauto
  have hb' : b ∈ h :: xs := by simp at hb ⊢; tauto
  show _ ∧ _
  rw [g1, g2, if_pos ha', if_pos hb']
  exact ⟨hab.2, hab.1⟩

@[simp] theorem q_release_element_next (hp : Heap) (e : Ptr) :
    (q_release_element hp e).next = hp.next := rfl
@[simp] theorem q_release_element_prev (hp : Heap) (e : Ptr) :
    (q_release_element hp e).prev = hp.prev := rfl
@[simp] theorem q_release_element_value (hp : Heap) (e : Ptr) :
    (q_release_element hp e).value = hp.value := rfl
@[simp] theorem q_release_element_alloc (hp : Heap) (e : Ptr) :
    (q_release_element hp e).alloc = Function.update hp.alloc e false := rfl
@[simp] theorem q_release_element_salloc (hp : Heap) (e : Ptr) :
    (q_release_element hp e).salloc = Function.update hp.salloc e false := rfl

/-- Unlinking and releasing an element of a queue leaves the queue of the other elements. -/
theorem IsQueue.delete {hp : Heap} {h x : Ptr} {P Q : List Ptr}
    (hq : IsQueue hp h (P ++ x :: Q)) :
    IsQueue (q_release_element (list_del hp x) x) h (P ++ Q) :=
  IsQueue.congr (IsQueue.del hq) rfl rfl

theorem eq_nil_or_snoc (l : List Ptr) : l = [] ∨ ∃ m b, l = m ++ [b] := by
  rcases List.eq_nil_or_concat l with e | ⟨m, b, e⟩
  · exact Or.inl e
  · exact Or.inr ⟨m, b, by rw [e, List.concat_eq_append]⟩

theorem getLastD_snoc (m : List Ptr) (b d : Ptr) : (m ++ [b]).getLastD d = b := by simp

theorem getLastD_append_cons (P m : List Ptr) (a d : Ptr) :
    (P ++ a :: m).getLastD d = m.getLastD a := by
  rcases eq_nil_or_snoc m with rfl | ⟨m', c, rfl⟩
  · simp
  · have : P ++ a :: (m' ++ [c]) = (P ++ a :: m') ++ [c] := by simp
    rw [this, getLastD_snoc, getLastD_snoc]

theorem getLastD_cons (m : List Ptr) (a d : Ptr) : (a :: m).getLastD d = m.getLastD a :=
  getLastD_append_cons [] m a d

/-- The loop of `q_delete_mid` stops with `tail` on the middle of the part between the cursors. -/
theorem q_delete_mid_loop_queue {hp : Heap} {h : Ptr} : ∀ (n : Nat) (mid pre post : List Ptr)
    (fuel : Nat), mid.length ≤ n → mid ≠ [] → IsQueue hp h (pre ++ mid ++ post) →
    mid.length ≤ fuel →
    q_delete_mid_loop hp fuel (mid.headD h) (mid.getLastD h) = some (mid.getD (mid.length / 2) h)
  | 0, mid, _, _, _, hn, hne, _, _ => by
    cases mid with
    | nil => exact absurd rfl hne
    | cons a t => simp at hn
  | n + 1, mid, pre, post, fuel, hn, hne, hq, hf => by
    cases mid with
    | nil => exact absurd rfl hne
    | cons a t =>
      obtain ⟨k, rfl⟩ : ∃ k, fuel = k + 1 := ⟨fuel - 1, by simp at hf; omega⟩
      rcases eq_nil_or_snoc t with rfl | ⟨m, b, rfl⟩
      · simp [q_delete_mid_loop]
      · have hnd := hq.1
        have hab : a ≠ b := by
          intro e; subst e
          simp [List.nodup_append, List.nodup_cons] at hnd
        have hna : hp.next a = (m ++ [b]).headD h := by
          have := IsQueue.next_mid (P := pre) (x := a) (Q := m ++ [b] ++ post)
            (by simpa using hq)
          rw [this]; cases m <;> simp
        have hpb : hp.prev b = m.getLastD a := by
          have := IsQueue.prev_mid (P := pre ++ a :: m) (x := b) (Q := post)
            (by simpa using hq)
          rw [this, getLastD_append_cons]
        have e2 : (a :: (m ++ [b])).headD h = a := rfl
        have e3 : (a :: (m ++ [b])).getLastD h = b := by
          rw [getLastD_cons, getLastD_snoc]
        rw [e2, e3]
        cases m with
        | nil =>
          have : hp.next a = b := by simpa using hna
          simp [q_delete_mid_loop, hab, this]
        | cons c m' =>
          have hcb : c ≠ b := by
            intro e; subst e
            simp [List.nodup_append, List.nodup_cons] at hnd
          have hna' : hp.next a = c := by simpa using hna
          have ih := @q_delete_mid_loop_queue hp h n (c :: m') (pre ++ [a])
            (b :: post) k (by simp at hn ⊢; omega) (by simp) (by simpa using hq)
            (by simp at hf ⊢; omega)
          have hl : (c :: m').getLastD h = (c :: m').getLastD a := by
            rw [getLastD_cons, getLastD_cons]
          have e1 : q_delete_mid_loop hp (k + 1) a b =
              q_delete_mid_loop hp k c ((c :: m').getLastD a) := by
            rw [← hpb, ← hna']
            show (if a ≠ b ∧ hp.next a ≠ b then _ else _) = _
            rw [if_pos ⟨hab, by rw [hna']; exact hcb⟩]
          rw [e1, ← hl]
          simp only [List.headD_cons] at ih
          rw [ih]
          have e4 : (a :: (c :: m' ++ [b])).length / 2 = (c :: m').length / 2 + 1 := by
            simp only [List.length_cons, List.length_append, List.length_nil]; omega
          have e5 : (c :: m').length / 2 < (c :: m').length := by
            simp only [List.length_cons]; omega
          rw [e4, List.getD_cons_succ, List.getD_append _ _ _ _ e5]

/-- On a non-empty queue `q_delete_mid` unlinks and releases the element at index ⌊n/2⌋. -/
theorem q_delete_mid_queue {hp : Heap} {h : Ptr} {xs : List Ptr} (hq : IsQueue hp h xs)
    (hne : xs ≠ []) {fuel : Nat} (hf : xs.length ≤ fuel) :
    ∃ hp', q_delete_mid fuel hp (some h) = some (hp', true) ∧
      IsQueue hp' h (xs.eraseIdx (xs.length / 2)) ∧ hp'.value = hp.value ∧
      hp'.alloc = Function.update hp.alloc (xs.getD (xs.length / 2) h) false ∧
      hp'.salloc = Function.update hp.salloc (xs.getD (xs.length / 2) h) false := by
  have hl := @q_delete_mid_loop_queue hp h xs.length xs [] [] fuel (le_refl _) hne
    (by simpa using hq) hf
  rw [← IsQueue.next_head hq, ← IsQueue.prev_head hq] at hl
  have hk : xs.length / 2 < xs.length := by
    have : 0 < xs.length := List.length_pos.2 hne
    omega
  have hx : xs = xs.take (xs.length / 2) ++ xs.getD (xs.length / 2) h ::
      xs.drop (xs.length / 2 + 1) := by
    rw [List.getD_eq_getElem _ _ hk, ← List.drop_eq_getElem_cons hk, List.take_append_drop]
  have he : list_empty hp h = false := by
    cases xs with
    | nil => exact absurd rfl hne
    | cons y t => exact IsQueue.list_empty_cons hq
  refine ⟨q_release_element (list_del hp (xs.getD (xs.length / 2) h)) (xs.getD (xs.length / 2) h),
    by simp [q_delete_mid, he, hl], ?_, rfl, rfl, rfl⟩
  rw [List.eraseIdx_eq_take_drop_succ]
  rw [hx] at hq
  exact IsQueue.delete hq

theorem q_delete_mid_nil {hp : Heap} {h : Ptr} (hq : IsQueue hp h []) (fuel : Nat) :
    q_delete_mid fuel hp (some h) = some (hp, false) := by
  simp [q_delete_mid, IsQueue.list_empty_nil hq]

/-- The loop of `q_delete_dup`, with the deletion that follows it, removes every
element of the part still ahead that has an equal neighbour. -/
theorem q_delete_dup_loop_queue {cmp : Str → Str → Int} {h : Ptr} {val : Ptr → Str} :
    ∀ (rest kept : List Ptr) (e : Ptr) (flag : Bool) (hp : Heap) (fuel : Nat),
    IsQueue hp h (kept ++ e :: rest) → hp.value = val → rest.length + 1 ≤ fuel →
    ∃ hp1 tmp1, q_delete_dup_loop cmp h fuel hp e (rest.headD h)
        (if flag then some e else none) = some (hp1, tmp1) ∧
      IsQueue (match tmp1 with
        | some t => q_release_element (list_del hp1 t) t
        | none => hp1) h (kept ++ dropRuns (dupEq cmp val) flag (e :: rest)) ∧
      hp1.value = val
  | [], kept, e, flag, hp, fuel, hq, hv, hf => by
    obtain ⟨k, rfl⟩ : ∃ k, fuel = k + 1 := ⟨fuel - 1, by simp at hf; omega⟩
    refine ⟨hp, if flag then some e else none, by simp [q_delete_dup_loop], ?_, hv⟩
    cases flag
    · simpa [dropRuns] using hq
    · simpa [dropRuns] using IsQueue.delete hq
  | s :: rest, kept, e, flag, hp, fuel, hq, hv, hf => by
    obtain ⟨k, rfl⟩ : ∃ k, fuel = k + 1 := ⟨fuel - 1, by simp at hf; omega⟩
    have hs : s ≠ h := IsQueue.head_ne (P := kept ++ [e]) (by simpa using hq)
    have hk : rest.length + 1 ≤ k := by simp at hf; omega
    by_cases ht : dup_test (cmp (hp.value e) (hp.value s)) = true
    · have hd : IsQueue (q_release_element (list_del hp e) e) h (kept ++ s :: rest) :=
        IsQueue.delete hq
      have hn : (q_release_element (list_del hp e) e).next s = rest.headD h :=
        IsQueue.next_mid hd
      obtain ⟨hp1, tmp1, e1, e2, e3⟩ := @q_delete_dup_loop_queue cmp h (val) rest
        kept s true (q_release_element (list_del hp e) e) k hd hv hk
      refine ⟨hp1, tmp1, ?_, ?_, e3⟩
      · simp only [List.headD_cons, q_delete_dup_loop, hs, ne_eq, not_false_eq_true, if_true,
          ht, hn]
        simpa using e1
      · have : dupEq cmp val e s = true := by rw [← hv]; exact ht
        simpa [dropRuns, this] using e2
    · have hne : dupEq cmp val e s = false := by
        rw [← hv]; simpa [dupEq] using ht
      cases flag
      · have hn : hp.next s = rest.headD h :=
          IsQueue.next_mid (P := kept ++ [e]) (by simpa using hq)
        obtain ⟨hp1, tmp1, e1, e2, e3⟩ := @q_delete_dup_loop_queue cmp h (val) rest
          (kept ++ [e]) s false hp k (by simpa using hq) hv hk
        refine ⟨hp1, tmp1, ?_, ?_, e3⟩
        · simp only [List.headD_cons, q_delete_dup_loop, hs, ne_eq, not_false_eq_true, if_true,
            ht, hn]
          simpa using e1
        · simpa [dropRuns, hne] using e2
      · have hd : IsQueue (q_release_element (list_del hp e) e) h (kept ++ s :: rest) :=
          IsQueue.delete hq
        have hn : (q_release_element (list_del hp e) e).next s = rest.headD h :=
          IsQueue.next_mid hd
        obtain ⟨hp1, tmp1, e1, e2, e3⟩ := @q_delete_dup_loop_queue cmp h (val) rest
          kept s false (q_release_element (list_del hp e) e) k hd hv hk
        refine ⟨hp1, tmp1, ?_, ?_, e3⟩
        · simp only [List.headD_cons, q_delete_dup_loop, hs, ne_eq, not_false_eq_true, if_true,
            ht, hn]
          simpa using e1
        · simpa [dropRuns, hne] using e2

theorem insertBefore_length (val : Ptr → Str) (x : Ptr) (l : List Ptr) :
    (insertBefore val x l).length = l.length + 1 := by
  induction l with
  | nil => rfl
  | cons y t ih =>
    unfold insertBefore
    split <;> simp [ih]

/-- The inner loop of `q_sort` places `x` into the part of the sorted elements not yet scanned. -/
theorem q_sort_inner_queue {h x : Ptr} : ∀ (todo scanned rest : List Ptr) (hp : Heap) (fuel : Nat),
    IsQueue hp h (scanned ++ todo ++ x :: rest) → todo.length + 1 ≤ fuel →
    ∃ hp1, q_sort_inner x fuel hp ((todo ++ [x]).headD h) = some hp1 ∧
      IsQueue hp1 h (scanned ++ insertBefore hp.value x todo ++ rest) ∧
      hp1.value = hp.value ∧ hp1.alloc = hp.alloc ∧ hp1.salloc = hp.salloc
  | [], scanned, rest, hp, fuel, hq, hf => by
    obtain ⟨k, rfl⟩ : ∃ k, fuel = k + 1 := ⟨fuel - 1, by simp at hf; omega⟩
    exact ⟨hp, by simp [q_sort_inner], by simpa [insertBefore] using hq, rfl, rfl, rfl⟩
  | y :: t, scanned, rest, hp, fuel, hq, hf => by
    obtain ⟨k, rfl⟩ : ∃ k, fuel = k + 1 := ⟨fuel - 1, by simp at hf; omega⟩
    have hyx : y ≠ x := by
      intro e; subst e
      have := hq.1
      simp [List.nodup_append, List.nodup_cons] at this
    by_cases hc : strcmp (hp.value x) (hp.value y) < 0
    · have hp1 : hp.prev y = scanned.getLastD h :=
        IsQueue.prev_mid (P := scanned) (Q := t ++ x :: rest) (by simpa using hq)
      have hm : IsQueue (list_move hp x (scanned.getLastD h)) h
          (scanned ++ x :: (y :: t ++ rest)) :=
        IsQueue.move (P := scanned ++ y :: t) (Q := rest) (by simpa using hq) (by simp)
      refine ⟨list_move hp x (scanned.getLastD h), ?_, ?_, rfl, rfl, rfl⟩
      · simp [q_sort_inner, hyx, hc, hp1]
      · simpa [insertBefore, hc] using hm
    · have hn : hp.next y = (t ++ [x]).headD h := by
        have := IsQueue.next_mid (P := scanned) (x := y) (Q := t ++ x :: rest)
          (by simpa using hq)
        rw [this]; cases t <;> simp
      obtain ⟨hp1, e1, e2, e3⟩ := q_sort_inner_queue t (scanned ++ [y]) rest hp k
        (by simpa using hq) (by simp at hf; omega)
      refine ⟨hp1, ?_, ?_, e3⟩
      · simp only [List.cons_append, List.headD_cons, q_sort_inner, hyx, ne_eq,
          not_false_eq_true, if_true, hc, if_false, hn]
        exact e1
      · simpa [insertBefore, hc] using e2

/-- The outer loop of `q_sort` places the elements still ahead one by one. -/
theorem q_sort_outer_queue {h : Ptr} : ∀ (rest done : List Ptr) (hp : Heap) (isafe : Ptr)
    (fuel fi : Nat), IsQueue hp h (done ++ rest) → (rest ≠ [] → isafe = rest.tail.headD h) →
    rest.length + 1 ≤ fuel → done.length + rest.length + 1 ≤ fi →
    ∃ hp', q_sort_outer h fi fuel hp (rest.headD h) isafe = some hp' ∧
      IsQueue hp' h (rest.foldl (fun acc x => insertBefore hp.value x acc) done) ∧
      hp'.value = hp.value ∧ hp'.alloc = hp.alloc ∧ hp'.salloc = hp.salloc
  | [], done, hp, isafe, fuel, fi, hq, _, hf, _ => by
    obtain ⟨k, rfl⟩ : ∃ k, fuel = k + 1 := ⟨fuel - 1, by simp at hf; omega⟩
    exact ⟨hp, by simp [q_sort_outer], by simpa using hq, rfl, rfl, rfl⟩
  | x :: rest, done, hp, isafe, fuel, fi, hq, hs, hf, hfi => by
    obtain ⟨k, rfl⟩ : ∃ k, fuel = k + 1 := ⟨fuel - 1, by simp at hf; omega⟩
    have hx : x ≠ h := IsQueue.head_ne hq
    have hs' : isafe = rest.headD h := hs (by simp)
    have hj : hp.next h = (done ++ [x]).headD h := by
      rw [IsQueue.next_head hq]; cases done <;> simp
    obtain ⟨hp1, e1, e2, e3, e4, e5⟩ := q_sort_inner_queue (h := h) (x := x) done [] rest hp fi
      (by simpa using hq) (by simp at hfi; omega)
    have e2' : IsQueue hp1 h (insertBefore hp.value x done ++ rest) := by simpa using e2
    obtain ⟨hp', i1, i2, i3, i4, i5⟩ := q_sort_outer_queue rest (insertBefore hp.value x done) hp1
      (hp1.next isafe) k fi e2' (by
        intro hne
        cases rest with
        | nil => exact absurd rfl hne
        | cons z r =>
          have : hp1.next z = r.headD h := IsQueue.next_mid e2'
          simpa [hs'] using this) (by simp at hf; omega)
      (by rw [insertBefore_length]; simp at hfi; omega)
    refine ⟨hp', ?_, ?_, i3.trans e3, i4.trans e4, i5.trans e5⟩
    · simp only [List.headD_cons, q_sort_outer, hx, ne_eq, not_false_eq_true, if_true, hj, e1,
        hs']
      rw [hs'] at i1
      exact i1
    · rw [e3] at i2
      simpa using i2

/-- On a queue `q_sort` is the insertion sort `sortSeq` of its elements. -/
theorem q_sort_queue {hp : Heap} {h : Ptr} {xs : List Ptr} (hq : IsQueue hp h xs) {fuel : Nat}
    (hf : xs.length + 1 ≤ fuel) :
    ∃ hp', q_sort fuel hp (some h) = some hp' ∧ IsQueue hp' h (sortSeq hp.value xs) ∧
      hp'.value = hp.value ∧ hp'.alloc = hp.alloc ∧ hp'.salloc = hp.salloc := by
  cases xs with
  | nil =>
    obtain ⟨k, rfl⟩ : ∃ k, fuel = k + 1 := ⟨fuel - 1, by simp at hf; omega⟩
    have h1 : hp.next h = h := IsQueue.next_head hq
    exact ⟨hp, by simp [q_sort, q_sort_outer, h1], by simpa [sortSeq] using hq, rfl, rfl, rfl⟩
  | cons x0 rest =>
    have h1 : hp.next h = x0 := IsQueue.next_head hq
    have h2 : hp.next x0 = rest.headD h := IsQueue.next_mid (P := []) hq
    obtain ⟨hp', e1, e2, e3⟩ := q_sort_outer_queue (h := h) rest [x0] hp
      (hp.next (rest.headD h)) fuel fuel hq (by
        intro hne
        cases rest with
        | nil => exact absurd rfl hne
        | cons z r =>
          have : hp.next z = r.headD h := IsQueue.next_mid (P := [x0]) hq
          simpa using this) (by simp at hf; omega) (by simp at hf ⊢; omega)
    refine ⟨hp', ?_, ?_, e3⟩
    · simp only [q_sort, h1, h2]; exact e1
    · simpa [sortSeq, insertBefore] using e2

theorem strcmp_self (a : Str) : strcmp a a = 0 := by
  induction a with
  | nil => rfl
  | cons x t ih => simp [strcmp, ih]

theorem strcmp_swap : ∀ (a b : Str), strcmp b a = - strcmp a b
  | [], [] => by simp [strcmp]
  | [], b :: _ => by simp [strcmp]
  | a :: _, [] => by simp [strcmp]
  | a :: as, b :: bs => by
    by_cases e : a = b
    · subst e; simp [strcmp, strcmp_swap as bs]
    · have e' : b ≠ a := fun h => e h.symm
      simp [strcmp, e, e']

theorem CStr.tail {a : Nat} {as : Str} (h : CStr (a :: as)) : CStr as :=
  fun b hb => h b (List.mem_cons_of_mem _ hb)

theorem CStr.head {a : Nat} {as : Str} (h : CStr (a :: as)) : 0 < a ∧ a < 256 :=
  h a (List.mem_cons_self _ _)

theorem strcmp_eq_zero : ∀ {a b : Str}, CStr a → CStr b → strcmp a b = 0 → a = b
  | [], [], _, _, _ => rfl
  | [], b :: _, _, hb, h => by
    have := hb.head; simp [strcmp] at h; omega
  | a :: _, [], ha, _, h => by
    have := ha.head; simp [strcmp] at h; omega
  | a :: as, b :: bs, ha, hb, h => by
    by_cases e : a = b
    · subst e
      simp [strcmp] at h
      rw [strcmp_eq_zero ha.tail hb.tail h]
    · simp [strcmp, e] at h; omega

theorem strcmp_range : ∀ {a b : Str}, CStr a → CStr b → -256 < strcmp a b ∧ strcmp a b < 256
  | [], [], _, _ => by simp [strcmp]
  | [], b :: _, _, hb => by
    have := hb.head; simp [strcmp]; omega
  | a :: _, [], ha, _ => by
    have := ha.head; simp [strcmp]; omega
  | a :: as, b :: bs, ha, hb => by
    by_cases e : a = b
    · subst e
      simpa [strcmp] using strcmp_range ha.tail hb.tail
    · have := ha.head
      have := hb.head
      simp [strcmp, e]; omega

theorem strcmp_lt_trans : ∀ {a b c : Str}, CStr a → CStr b → CStr c →
    strcmp a b < 0 → strcmp b c < 0 → strcmp a c < 0
  | [], [], _, _, _, _, h1, _ => by simp [strcmp] at h1
  | _, _ :: _, [], _, hb, _, _, h2 => by
    have := hb.head; simp [strcmp] at h2; omega
  | a :: _, [], _, ha, _, _, h1, _ => by
    have := ha.head; simp [strcmp] at h1; omega
  | [], _ :: _, c :: _, _, _, hc, _, _ => by
    have := hc.head; simp [strcmp]; omega
  | a :: as, b :: bs, c :: cs, ha, hb, hc, h1, h2 => by
    by_cases e1 : a = b
    · subst e1
      by_cases e2 : a = c
      · subst e2
        simp [strcmp] at h1 h2 ⊢
        exact strcmp_lt_trans ha.tail hb.tail hc.tail h1 h2
      · simp [strcmp, e2] at h1 h2 ⊢; omega
    · by_cases e2 : b = c
      · subst e2
        simp [strcmp, e1] at h1 h2 ⊢; omega
      · by_cases e3 : a = c
        · subst e3
          have e2' : b ≠ a := e2
          simp [strcmp, e1, e2'] at h1 h2; omega
        · simp [strcmp, e1, e2, e3] at h1 h2 ⊢; omega

theorem strcmp_le_trans {a b c : Str} (ha : CStr a) (hb : CStr b) (hc : CStr c)
    (h1 : strcmp a b ≤ 0) (h2 : strcmp b c ≤ 0) : strcmp a c ≤ 0 := by
  rcases lt_or_eq_of_le h1 with h1 | h1
  · rcases lt_or_eq_of_le h2 with h2 | h2
    · exact le_of_lt (strcmp_lt_trans ha hb hc h1 h2)
    · rw [← strcmp_eq_zero hb hc h2]; exact le_of_lt h1
  · rw [strcmp_eq_zero ha hb h1]; exact h2

theorem dup_test_iff {c : Int} (h1 : -2 ^ 31 < c) (h2 : c < 2 ^ 31) : dup_test c = true ↔ c = 0 := by
  unfold dup_test
  have hm : (0x7fffffff : Nat) = 2 ^ 31 - 1 := by norm_num
  rw [hm, Nat.and_pow_two_sub_one_eq_mod]
  simp only [Bool.or_eq_true, beq_iff_eq]
  constructor
  · rintro (h | h)
    · omega
    · exact h
  · intro h; exact Or.inr h

theorem dup_test_strcmp {a b : Str} (ha : CStr a) (hb : CStr b) :
    dup_test (strcmp a b) = decide (a = b) := by
  have hr := strcmp_range ha hb
  have := dup_test_iff (c := strcmp a b) (by omega) (by omega)
  by_cases e : a = b
  · subst e; simp [strcmp_self, dup_test]
  · have hne : strcmp a b ≠ 0 := fun h => e (strcmp_eq_zero ha hb h)
    simp only [e, decide_False]
    cases hd : dup_test (strcmp a b) with
    | false => rfl
    | true => exact absurd (this.1 hd) hne

theorem insertBefore_perm (val : Ptr → Str) (x : Ptr) (l : List Ptr) :
    (insertBefore val x l).Perm (x :: l) := by
  induction l with
  | nil => exact List.Perm.refl _
  | cons y t ih =>
    unfold insertBefore
    split
    · exact List.Perm.refl _
    · exact (List.Perm.cons y ih).trans (List.Perm.swap x y t)

theorem foldl_insertBefore_perm (val : Ptr → Str) (xs : List Ptr) : ∀ acc : List Ptr,
    (xs.foldl (fun acc x => insertBefore val x acc) acc).Perm (acc ++ xs) := by
  induction xs with
  | nil => intro acc; simp
  | cons x t ih =>
    intro acc
    rw [List.foldl_cons]
    refine (ih _).trans ?_
    refine ((insertBefore_perm val x acc).append_right t).trans ?_
    simpa using (@List.perm_middle _ x acc t).symm

theorem sortSeq_perm (val : Ptr → Str) (xs : List Ptr) : (sortSeq val xs).Perm xs := by
  simpa [sortSeq] using foldl_insertBefore_perm val xs []

/-- Placing an element keeps adjacent elements in order. -/
theorem insertBefore_chain (val : Ptr → Str) (x : Ptr) : ∀ (l : List Ptr),
    l.Chain' (fun a b => strcmp (val a) (val b) ≤ 0) →
    (insertBefore val x l).Chain' (fun a b => strcmp (val a) (val b) ≤ 0)
  | [], _ => List.chain'_singleton _
  | [y], _ => by
    unfold insertBefore
    split
    · rename_i hc
      exact List.chain'_pair.2 (le_of_lt hc)
    · rename_i hc
      have := strcmp_swap (val x) (val y)
      exact List.chain'_pair.2 (by omega)
  | y :: z :: t, h => by
    have h' := List.chain'_cons.1 h
    have ih := insertBefore_chain val x (z :: t) h'.2
    unfold insertBefore
    split
    · rename_i hc
      exact List.chain'_cons.2 ⟨le_of_lt hc, h⟩
    · rename_i hc
      have hs := strcmp_swap (val x) (val y)
      unfold insertBefore at ih ⊢
      split
      · rename_i hc2
        rw [if_pos hc2] at ih
        exact List.chain'_cons.2 ⟨by omega, ih⟩
      · rename_i hc2
        rw [if_neg hc2] at ih
        exact List.chain'_cons.2 ⟨h'.1, ih⟩

theorem foldl_insertBefore_chain (val : Ptr → Str) (xs : List Ptr) : ∀ acc : List Ptr,
    acc.Chain' (fun a b => strcmp (val a) (val b) ≤ 0) →
    (xs.foldl (fun acc x => insertBefore val x acc) acc).Chain'
      (fun a b => strcmp (val a) (val b) ≤ 0) := by
  induction xs with
  | nil => intro acc h; exact h
  | cons x t ih => intro acc h; exact ih _ (insertBefore_chain val x acc h)

theorem sortSeq_chain (val : Ptr → Str) (xs : List Ptr) :
    (sortSeq val xs).Chain' (fun a b => strcmp (val a) (val b) ≤ 0) :=
  foldl_insertBefore_chain val xs [] List.chain'_nil

theorem pairwise_of_chain {R : Ptr → Ptr → Prop} : ∀ (l : List Ptr),
    (∀ a ∈ l, ∀ b ∈ l, ∀ c ∈ l, R a b → R b c → R a c) → l.Chain' R → l.Pairwise R
  | [], _, _ => List.Pairwise.nil
  | [a], _, _ => List.pairwise_singleton _ _
  | a :: b :: t, ht, hc => by
    have hc' := List.chain'_cons.1 hc
    have ih := pairwise_of_chain (b :: t)
      (fun a ha b hb c hc => ht a (List.mem_cons_of_mem _ ha) b (List.mem_cons_of_mem _ hb) c
        (List.mem_cons_of_mem _ hc)) hc'.2
    refine List.pairwise_cons.2 ⟨?_, ih⟩
    intro c hc
    rcases List.mem_cons.1 hc with rfl | hc
    · exact hc'.1
    · exact ht a (by simp) b (by simp) c (by simp [hc]) hc'.1 ((List.pairwise_cons.1 ih).1 c hc)

/-- On C strings, adjacent order is order between all pairs. -/
theorem sorted_of_chain {val : Ptr → Str} {l : List Ptr} (hs : ∀ a ∈ l, CStr (val a))
    (hc : l.Chain' (fun a b => strcmp (val a) (val b) ≤ 0)) :
    l.Pairwise (fun a b => strcmp (val a) (val b) ≤ 0) :=
  pairwise_of_chain l (fun a ha b hb c hc h1 h2 => strcmp_le_trans (hs a ha) (hs b hb) (hs c hc)
    h1 h2) hc

theorem insertBefore_noop (val : Ptr → Str) (x : Ptr) : ∀ (l : List Ptr),
    (∀ y ∈ l, ¬ strcmp (val x) (val y) < 0) → insertBefore val x l = l ++ [x]
  | [], _ => rfl
  | y :: t, h => by
    have h1 := h y (by simp)
    have ih := insertBefore_noop val x t (fun z hz => h z (List.mem_cons_of_mem _ hz))
    simp [insertBefore, h1, ih]

/-- Placing an element into a sorted sequence of C strings keeps, for every string,
the elements that hold it in their order, the new element last. -/
theorem insertBefore_filter {val : Ptr → Str} (x : Ptr) (v : Str) : ∀ (l : List Ptr),
    (∀ a ∈ x :: l, CStr (val a)) → l.Pairwise (fun a b => strcmp (val a) (val b) ≤ 0) →
    (insertBefore val x l).filter (fun a => decide (val a = v)) =
      l.filter (fun a => decide (val a = v)) ++ [x].filter (fun a => decide (val a = v))
  | [], _, _ => by simp [insertBefore]
  | y :: t, hs, hp => by
    unfold insertBefore
    split
    · rename_i hc
      by_cases hx : val x = v
      · have hnone : ∀ z ∈ y :: t, val z ≠ v := by
          intro z hz e
          have hyz : strcmp (val y) (val z) ≤ 0 := by
            rcases List.mem_cons.1 hz with rfl | hz
            · rw [strcmp_self]
            · exact (List.pairwise_cons.1 hp).1 z hz
          have hlt : strcmp (val x) (val z) < 0 := by
            rcases lt_or_eq_of_le hyz with h1 | h1
            · exact strcmp_lt_trans (hs x (by simp)) (hs y (by simp))
                (hs z (List.mem_cons_of_mem _ hz)) hc h1
            · rw [← strcmp_eq_zero (hs y (by simp)) (hs z (List.mem_cons_of_mem _ hz)) h1]
              exact hc
          rw [hx, ← e, strcmp_self] at hlt
          exact lt_irrefl _ hlt
        have h0 : (y :: t).filter (fun a => decide (val a = v)) = [] := by
          rw [List.filter_eq_nil_iff]
          intro z hz; simpa using hnone z hz
        rw [List.filter_cons_of_pos (by simpa using hx), h0]
        simp [hx]
      · rw [List.filter_cons_of_neg (by simpa using hx)]
        simp [hx]
    · have ih := insertBefore_filter x v t
        (fun a ha => hs a (by
          rcases List.mem_cons.1 ha with rfl | ha
          · simp
          · simp [ha]))
        (List.pairwise_cons.1 hp).2
      by_cases hy : val y = v
      · simp only [List.filter_cons, hy, decide_True, if_true, List.cons_append] at ih ⊢
        rw [ih]
      · simp only [List.filter_cons, hy, decide_False] at ih ⊢
        simpa using ih

theorem foldl_insertBefore_filter {val : Ptr → Str} (v : Str) (xs : List Ptr) :
    ∀ acc : List Ptr, (∀ a ∈ acc ++ xs, CStr (val a)) →
    acc.Chain' (fun a b => strcmp (val a) (val b) ≤ 0) →
    (xs.foldl (fun acc x => insertBefore val x acc) acc).filter (fun a => decide (val a = v)) =
      acc.filter (fun a => decide (val a = v)) ++ xs.filter (fun a => decide (val a = v)) := by
  induction xs with
  | nil => intro acc _ _; simp
  | cons x t ih =>
    intro acc hs hc
    rw [List.foldl_cons, ih _ ?_ (insertBefore_chain val x acc hc)]
    · rw [insertBefore_filter x v acc (fun a ha => hs a (by simp at ha ⊢; tauto))
        (sorted_of_chain (fun a ha => hs a (by simp [ha])) hc)]
      rw [List.append_assoc, ← List.filter_append]
      rfl
    · intro a ha
      rcases List.mem_append.1 ha with h1 | h1
      · have := (insertBefore_perm val x acc).mem_iff.1 h1
        exact hs a (by simp at this ⊢; tauto)
      · exact hs a (by simp [h1])

/-- The insertion sort is stable on C strings: for every string, the elements holding
it come out in the order they came in. -/
theorem sortSeq_filter {val : Ptr → Str} (v : Str) (xs : List Ptr)
    (hs : ∀ a ∈ xs, CStr (val a)) :
    (sortSeq val xs).filter (fun a => decide (val a = v)) =
      xs.filter (fun a => decide (val a = v)) := by
  simpa [sortSeq] using foldl_insertBefore_filter v xs [] (by simpa using hs) List.chain'_nil

theorem foldl_insertBefore_noop (val : Ptr → Str) (xs : List Ptr) : ∀ acc : List Ptr,
    (acc ++ xs).Pairwise (fun a b => strcmp (val a) (val b) ≤ 0) →
    xs.foldl (fun acc x => insertBefore val x acc) acc = acc ++ xs := by
  induction xs with
  | nil => intro acc _; simp
  | cons x t ih =>
    intro acc hp
    have h1 : insertBefore val x acc = acc ++ [x] := by
      refine insertBefore_noop val x acc ?_
      intro y hy
      have := (List.pairwise_append.1 hp).2.2 y hy x (by simp)
      have hs := strcmp_swap (val y) (val x)
      omega
    rw [List.foldl_cons, h1, ih _ (by simpa using hp)]
    simp

/-- The insertion sort leaves a sorted sequence of C strings as it is. -/
theorem sortSeq_sorted {val : Ptr → Str} {xs : List Ptr} (hs : ∀ a ∈ xs, CStr (val a))
    (hc : xs.Chain' (fun a b => strcmp (val a) (val b) ≤ 0)) : sortSeq val xs = xs := by
  simpa [sortSeq] using foldl_insertBefore_noop val xs [] (by simpa using sorted_of_chain hs hc)

/-- The inner loop of `q_sort` changes nothing when `x` is less than no scanned element. -/
theorem q_sort_inner_noop {h x : Ptr} : ∀ (todo scanned rest : List Ptr) (hp : Heap) (fuel : Nat),
    IsQueue hp h (scanned ++ todo ++ x :: rest) → todo.length + 1 ≤ fuel →
    (∀ y ∈ todo, ¬ strcmp (hp.value x) (hp.value y) < 0) →
    q_sort_inner x fuel hp ((todo ++ [x]).headD h) = some hp
  | [], scanned, rest, hp, fuel, hq, hf, _ => by
    obtain ⟨k, rfl⟩ : ∃ k, fuel = k + 1 := ⟨fuel - 1, by simp at hf; omega⟩
    simp [q_sort_inner]
  | y :: t, scanned, rest, hp, fuel, hq, hf, hn => by
    obtain ⟨k, rfl⟩ : ∃ k, fuel = k + 1 := ⟨fuel - 1, by simp at hf; omega⟩
    have hyx : y ≠ x := by
      intro e; subst e
      have := hq.1
      simp [List.nodup_append, List.nodup_cons] at this
    have hc := hn y (by simp)
    have hnx : hp.next y = (t ++ [x]).headD h := by
      have := IsQueue.next_mid (P := scanned) (x := y) (Q := t ++ x :: rest)
        (by simpa using hq)
      rw [this]; cases t <;> simp
    have ih := q_sort_inner_noop t (scanned ++ [y]) rest hp k (by simpa using hq)
      (by simp at hf; omega) (fun z hz => hn z (List.mem_cons_of_mem _ hz))
    simp only [List.cons_append, List.headD_cons, q_sort_inner, hyx, ne_eq,
      not_false_eq_true, if_true, hc, if_false, hnx]
    exact ih

/-- The outer loop of `q_sort` changes nothing when no element ahead is less than an
element before it. -/
theorem q_sort_outer_noop {h : Ptr} : ∀ (rest done : List Ptr) (hp : Heap) (isafe : Ptr)
    (fuel fi : Nat), IsQueue hp h (done ++ rest) → (rest ≠ [] → isafe = rest.tail.headD h) →
    rest.length + 1 ≤ fuel → done.length + rest.length + 1 ≤ fi →
    (done ++ rest).Pairwise (fun a b => ¬ strcmp (hp.value b) (hp.value a) < 0) →
    q_sort_outer h fi fuel hp (rest.headD h) isafe = some hp
  | [], done, hp, isafe, fuel, fi, hq, _, hf, _, _ => by
    obtain ⟨k, rfl⟩ : ∃ k, fuel = k + 1 := ⟨fuel - 1, by simp at hf; omega⟩
    simp [q_sort_outer]
  | x :: rest, done, hp, isafe, fuel, fi, hq, hs, hf, hfi, hp' => by
    obtain ⟨k, rfl⟩ : ∃ k, fuel = k + 1 := ⟨fuel - 1, by simp at hf; omega⟩
    have hx : x ≠ h := IsQueue.head_ne hq
    have hs' : isafe = rest.headD h := hs (by simp)
    have hj : hp.next h = (done ++ [x]).headD h := by
      rw [IsQueue.next_head hq]; cases done <;> simp
    have e1 := q_sort_inner_noop (h := h) (x := x) done [] rest hp fi
      (by simpa using hq) (by simp at hfi; omega)
      (fun y hy => (List.pairwise_append.1 hp').2.2 y hy x (by simp))
    have hq' : IsQueue hp h ((done ++ [x]) ++ rest) := by simpa using hq
    have ih := q_sort_outer_noop rest (done ++ [x]) hp (hp.next isafe) k fi hq' (by
        intro hne
        cases rest with
        | nil => exact absurd rfl hne
        | cons z r =>
          have : hp.next z = r.headD h := IsQueue.next_mid hq'
          simpa [hs'] using this) (by simp at hf; omega) (by simp at hfi ⊢; omega)
      (by simpa using hp')
    simp only [List.headD_cons, q_sort_outer, hx, ne_eq, not_false_eq_true, if_true, hj, e1,
      hs']
    rw [hs'] at ih
    exact ih

/-- On a queue whose strings never decrease from an element to a later one, `q_sort`
writes nothing. -/
theorem q_sort_noop {hp : Heap} {h : Ptr} {xs : List Ptr} (hq : IsQueue hp h xs) {fuel : Nat}
    (hf : xs.length + 1 ≤ fuel)
    (hs : xs.Pairwise (fun a b => ¬ strcmp (hp.value b) (hp.value a) < 0)) :
    q_sort fuel hp (some h) = some hp := by
  cases xs with
  | nil =>
    obtain ⟨k, rfl⟩ : ∃ k, fuel = k + 1 := ⟨fuel - 1, by simp at hf; omega⟩
    have h1 : hp.next h = h := IsQueue.next_head hq
    simp [q_sort, q_sort_outer, h1]
  | cons x0 rest =>
    have h1 : hp.next h = x0 := IsQueue.next_head hq
    have h2 : hp.next x0 = rest.headD h := IsQueue.next_mid (P := []) hq
    have e1 := q_sort_outer_noop (h := h) rest [x0] hp
      (hp.next (rest.headD h)) fuel fuel hq (by
        intro hne
        cases rest with
        | nil => exact absurd rfl hne
        | cons z r =>
          have : hp.next z = r.headD h := IsQueue.next_mid (P := [x0]) hq
          simpa using this) (by simp at hf; omega) (by simp at hf ⊢; omega) hs
    simp only [q_sort, h1, h2]; exact e1

theorem sorted_not_lt {val : Ptr → Str} {l : List Ptr} (hs : ∀ a ∈ l, CStr (val a))
    (hc : l.Chain' (fun a b => strcmp (val a) (val b) ≤ 0)) :
    l.Pairwise (fun a b => ¬ strcmp (val b) (val a) < 0) := by
  refine (sorted_of_chain hs hc).imp ?_
  intro a b hab
  have := strcmp_swap (val a) (val b)
  omega

theorem dropRuns_sublist (eq : Ptr → Ptr → Bool) : ∀ (flag : Bool) (l : List Ptr),
    (dropRuns eq flag l).Sublist l
  | _, [] => by simp [dropRuns]
  | flag, [e] => by
    cases flag <;> simp [dropRuns]
  | flag, e :: s :: rest => by
    have i1 := dropRuns_sublist eq true (s :: rest)
    have i2 := dropRuns_sublist eq false (s :: rest)
    unfold dropRuns
    split
    · exact i1.cons e
    · cases flag
      · simpa using i2.cons₂ e
      · simpa using i2.cons e

/-- The loop of `q_delete_dup`, with the deletion that follows it, releases only
elements that it removes. -/
theorem q_delete_dup_loop_frame {cmp : Str → Str → Int} {h : Ptr} {val : Ptr → Str} :
    ∀ (rest kept : List Ptr) (e : Ptr) (flag : Bool) (hp : Heap) (fuel : Nat)
      (hp1 : Heap) (tmp1 : Option Ptr),
    IsQueue hp h (kept ++ e :: rest) → hp.value = val →
    q_delete_dup_loop cmp h fuel hp e (rest.headD h) (if flag then some e else none) =
      some (hp1, tmp1) →
    ∀ x, x ∉ e :: rest ∨ x ∈ dropRuns (dupEq cmp val) flag (e :: rest) →
      (match tmp1 with
        | some t => q_release_element (list_del hp1 t) t
        | none => hp1).alloc x = hp.alloc x ∧
      (match tmp1 with
        | some t => q_release_element (list_del hp1 t) t
        | none => hp1).salloc x = hp.salloc x
  | [], kept, e, flag, hp, fuel, hp1, tmp1, hq, hv, hl => by
    cases fuel with
    | zero => simp [q_delete_dup_loop] at hl
    | succ k =>
      simp only [List.headD_nil, q_delete_dup_loop, ne_eq, not_true_eq_false, if_false,
        Option.some.injEq, Prod.mk.injEq] at hl
      obtain ⟨rfl, rfl⟩ := hl
      intro x hx
      cases flag
      · exact ⟨rfl, rfl⟩
      · have hxe : x ≠ e := by
          rcases hx with hx | hx
          · simpa using hx
          · simp [dropRuns] at hx
        simp [Function.update_noteq hxe]
  | s :: rest, kept, e, flag, hp, fuel, hp1, tmp1, hq, hv, hl => by
    cases fuel with
    | zero => simp [q_delete_dup_loop] at hl
    | succ k =>
      have hs : s ≠ h := IsQueue.head_ne (P := kept ++ [e]) (by simpa using hq)
      have hes : e ∉ s :: rest := by
        have := hq.1
        simp [List.nodup_append, List.nodup_cons] at this ⊢
        tauto
      have hsub := fun f => (dropRuns_sublist (dupEq cmp val) f (s :: rest)).subset
      by_cases ht : dup_test (cmp (hp.value e) (hp.value s)) = true
      · have hd : IsQueue (q_release_element (list_del hp e) e) h (kept ++ s :: rest) :=
          IsQueue.delete hq
        have hn : (q_release_element (list_del hp e) e).next s = rest.headD h :=
          IsQueue.next_mid hd
        simp only [List.headD_cons, q_delete_dup_loop, hs, ne_eq, not_false_eq_true, if_true,
          ht, hn] at hl
        have ih := @q_delete_dup_loop_frame cmp h (val) rest kept s true
          (q_release_element (list_del hp e) e) k hp1 tmp1 hd hv (by simpa using hl)
        have heq : dupEq cmp val e s = true := by rw [← hv]; exact ht
        intro x hx
        have hx' : x ∉ s :: rest ∨ x ∈ dropRuns (dupEq cmp val) true (s :: rest) := by
          rcases hx with hx | hx
          · exact Or.inl (fun hm => hx (List.mem_cons_of_mem _ hm))
          · exact Or.inr (by simpa [dropRuns, heq] using hx)
        have hxe : x ≠ e := by
          rcases hx with hx | hx
          · exact fun e' => hx (by simp [e'])
          · intro e'
            rw [dropRuns, if_pos heq] at hx
            exact hes (e' ▸ hsub true hx)
        have := ih x hx'
        simpa [Function.update_noteq hxe] using this
      · have hne : dupEq cmp val e s = false := by
          rw [← hv]; simpa [dupEq] using ht
        cases flag
        · have hn : hp.next s = rest.headD h :=
            IsQueue.next_mid (P := kept ++ [e]) (by simpa using hq)
          simp only [List.headD_cons, q_delete_dup_loop, hs, ne_eq, not_false_eq_true, if_true,
            ht, hn] at hl
          have ih := @q_delete_dup_loop_frame cmp h (val) rest (kept ++ [e]) s
            false hp k hp1 tmp1 (by simpa using hq) hv (by simpa using hl)
          intro x hx
          refine ih x ?_
          rcases hx with hx | hx
          · exact Or.inl (fun hm => hx (List.mem_cons_of_mem _ hm))
          · rw [dropRuns, if_neg (by simp [hne])] at hx
            simp only [Bool.false_eq_true, if_false, List.singleton_append,
              List.mem_cons] at hx
            rcases hx with rfl | hx
            · exact Or.inl hes
            · exact Or.inr hx
        · have hd : IsQueue (q_release_element (list_del hp e) e) h (kept ++ s :: rest) :=
            IsQueue.delete hq
          have hn : (q_release_element (list_del hp e) e).next s = rest.headD h :=
            IsQueue.next_mid hd
          simp only [List.headD_cons, q_delete_dup_loop, hs, ne_eq, not_false_eq_true, if_true,
            ht, hn] at hl
          have ih := @q_delete_dup_loop_frame cmp h (val) rest kept s false
            (q_release_element (list_del hp e) e) k hp1 tmp1 hd hv (by simpa using hl)
          intro x hx
          have hdr : dropRuns (dupEq cmp val) true (e :: s :: rest) =
              dropRuns (dupEq cmp val) false (s :: rest) := by
            rw [dropRuns, if_neg (by simp [hne])]; simp
          rw [hdr] at hx
          have hx' : x ∉ s :: rest ∨ x ∈ dropRuns (dupEq cmp val) false (s :: rest) := by
            rcases hx with hx | hx
            · exact Or.inl (fun hm => hx (List.mem_cons_of_mem _ hm))
            · exact Or.inr hx
          have hxe : x ≠ e := by
            rcases hx with hx | hx
            · exact fun e' => hx (by simp [e'])
            · intro e'
              exact hes (e' ▸ hsub false hx)
          have := ih x hx'
          simpa [Function.update_noteq hxe] using this

theorem strcmp_le_lt_trans {a b c : Str} (ha : CStr a) (hb : CStr b) (hc : CStr c)
    (h1 : strcmp a b ≤ 0) (h2 : strcmp b c < 0) : strcmp a c < 0 := by
  rcases lt_or_eq_of_le h1 with h1 | h1
  · exact strcmp_lt_trans ha hb hc h1 h2
  · rw [strcmp_eq_zero ha hb h1]; exact h2

theorem strcmp_ne_of_lt {a b : Str} (h : strcmp a b < 0) : a ≠ b := by
  intro e; subst e; rw [strcmp_self] at h; exact lt_irrefl _ h

theorem strcmp_lt_of_le_of_ne {a b : Str} (ha : CStr a) (hb : CStr b) (h1 : strcmp a b ≤ 0)
    (h2 : a ≠ b) : strcmp a b < 0 := by
  rcases lt_or_eq_of_le h1 with h | h
  · exact h
  · exact absurd (strcmp_eq_zero ha hb h) h2

theorem count_map_eq_zero {val : Ptr → Str} {v : Str} {l : List Ptr} :
    (l.map val).count v = 0 ↔ ∀ p ∈ l, val p ≠ v := by
  rw [List.count_eq_zero]
  simp

/-- On a sorted sequence of C strings, removing the elements with an equal neighbour
leaves the elements whose string occurs once. -/
theorem dropRuns_sorted {val : Ptr → Str} : ∀ (l pre : List Ptr) (flag : Bool),
    (∀ a ∈ pre ++ l, CStr (val a)) →
    (pre ++ l).Pairwise (fun a b => strcmp (val a) (val b) ≤ 0) →
    (∀ e ∈ l.head?, (flag = true ↔ ∃ p ∈ pre, val p = val e)) →
    dropRuns (dupEq strcmp val) flag l =
      l.filter (fun x => decide (((pre ++ l).map val).count (val x) = 1))
  | [], _, _, _, _, _ => by simp [dropRuns]
  | [e], pre, flag, _, _, hf => by
    have hf' := hf e (by simp)
    have hc : ((pre ++ [e]).map val).count (val e) = (pre.map val).count (val e) + 1 := by
      simp [List.count_append]
    rw [dropRuns, List.filter_cons, hc]
    cases flag
    · have : (pre.map val).count (val e) = 0 := by
        rw [count_map_eq_zero]
        intro p hp e'
        exact absurd (hf'.2 ⟨p, hp, e'⟩) (by simp)
      simp [this]
    · obtain ⟨p, hp, e'⟩ := hf'.1 rfl
      have : (pre.map val).count (val e) ≠ 0 := by
        rw [Ne, count_map_eq_zero]
        intro hall; exact hall p hp e'
      simp [this]
  | e :: s :: rest, pre, flag, hs, hp, hf => by
    have hf' := hf e (by simp)
    have hL : pre ++ e :: s :: rest = (pre ++ [e]) ++ s :: rest := by simp
    have hse : CStr (val e) := hs e (by simp)
    have hss : CStr (val s) := hs s (by simp)
    have hes : strcmp (val e) (val s) ≤ 0 :=
      (List.pairwise_cons.1 (List.pairwise_append.1 hp).2.1).1 s (by simp)
    have hde : dupEq strcmp val e s = decide (val e = val s) := dup_test_strcmp hse hss
    have hcnt : ((pre ++ e :: s :: rest).map val).count (val e) =
        (pre.map val).count (val e) + 1 + ((s :: rest).map val).count (val e) := by
      simp [List.count_append, List.count_cons]
      omega
    have hsplit : ∀ F : Ptr → Bool, List.filter F (e :: s :: rest) =
        (if F e = true then [e] else []) ++ List.filter F (s :: rest) := by
      intro F
      rw [List.filter_cons]
      split <;> simp
    rw [hsplit]
    by_cases heq : val e = val s
    · have ih := dropRuns_sorted (s :: rest) (pre ++ [e]) true (by rw [← hL]; exact hs)
        (by rw [← hL]; exact hp) (by
          intro z hz
          simp only [List.head?_cons, Option.mem_def, Option.some.injEq] at hz
          subst hz
          simp only [true_iff]
          exact ⟨e, by simp, heq⟩)
      have h2 : ((pre ++ e :: s :: rest).map val).count (val e) ≠ 1 := by
        rw [hcnt]
        have : ((s :: rest).map val).count (val e) ≠ 0 := by
          rw [Ne, count_map_eq_zero]
          intro hall; exact hall s (by simp) heq.symm
        omega
      rw [← hL] at ih
      rw [dropRuns, if_pos (by rw [hde]; simpa using heq), ih, if_neg (by simpa using h2)]
      rfl
    · have hlt : strcmp (val e) (val s) < 0 := strcmp_lt_of_le_of_ne hse hss hes heq
      have ih := dropRuns_sorted (s :: rest) (pre ++ [e]) false (by rw [← hL]; exact hs)
        (by rw [← hL]; exact hp) (by
          intro z hz
          simp only [List.head?_cons, Option.mem_def, Option.some.injEq] at hz
          subst hz
          simp only [Bool.false_eq_true, false_iff, not_exists, not_and]
          intro p hpm
          have hpe : strcmp (val p) (val e) ≤ 0 := by
            rcases List.mem_append.1 hpm with h1 | h1
            · exact (List.pairwise_append.1 hp).2.2 p h1 e (by simp)
            · simp at h1; subst h1; rw [strcmp_self]
          exact strcmp_ne_of_lt (strcmp_le_lt_trans (hs p (by
            rcases List.mem_append.1 hpm with h1 | h1
            · simp [h1]
            · simp at h1; subst h1; simp)) hse hss hpe hlt))
      have h0 : ((s :: rest).map val).count (val e) = 0 := by
        rw [count_map_eq_zero]
        intro z hz e'
        have hsz : strcmp (val s) (val z) ≤ 0 := by
          rcases List.mem_cons.1 hz with rfl | hz
          · rw [strcmp_self]
          · exact (List.pairwise_cons.1 (List.pairwise_cons.1
              (List.pairwise_append.1 hp).2.1).2).1 z hz
        have hsz' : CStr (val z) := hs z (by simp at hz ⊢; tauto)
        have : strcmp (val e) (val z) < 0 := by
          rcases lt_or_eq_of_le hsz with h1 | h1
          · exact strcmp_lt_trans hse hss hsz' hlt h1
          · rw [← strcmp_eq_zero hss hsz' h1]; exact hlt
        exact strcmp_ne_of_lt this e'.symm
      rw [← hL] at ih
      rw [dropRuns, if_neg (by rw [hde]; simpa using heq), ih]
      congr 1
      have hd : (decide (((pre ++ e :: s :: rest).map val).count (val e) = 1) = true) ↔
          flag = false := by
        rw [hcnt, h0]
        cases flag
        · have : (pre.map val).count (val e) = 0 := by
            rw [count_map_eq_zero]
            intro p hp' e'
            exact absurd (hf'.2 ⟨p, hp', e'⟩) (by simp)
          simp [this]
        · obtain ⟨p, hp', e'⟩ := hf'.1 rfl
          have : (pre.map val).count (val e) ≠ 0 := by
            rw [Ne, count_map_eq_zero]
            intro hall; exact hall p hp' e'
          simp [this]
      cases flag
      · rw [if_neg (by simp), if_pos (hd.2 rfl)]
      · rw [if_pos rfl, if_neg (fun h => by simpa using hd.1 h)]

/-- A walk along `next` that closes, with consistent links on the way, is a queue. -/
theorem isQueue_of_walk {hp : Heap} {h : Ptr} {xs : List Ptr}
    (hw : walkNext (xs.length + 1) hp h = some xs)
    (hl : ∀ n ∈ h :: xs, hp.prev (hp.next n) = n ∧ hp.next (hp.prev n) = n) :
    IsQueue hp h xs := by
  obtain ⟨hc, hh⟩ := chain_of_walk _ _ _ hw
  have hc2 : (h :: xs ++ [h]).Chain' (Linked hp) := by
    rw [List.Chain'.iff_mem] at hc
    refine hc.imp ?_
    intro a b ⟨ha, _, hab⟩
    refine ⟨hab, ?_⟩
    have ha' : a ∈ h :: xs := by
      simp at ha ⊢; tauto
    rw [← hab]; exact (hl a ha').1
  refine ⟨@nodup_of_chain hp xs h ?_ hh, hc2⟩
  have : (h :: xs) <:+: (h :: xs ++ [h]) := ⟨[], [h], by simp⟩
  exact hc2.infix this

/-- A queue is well formed, and the backward walk is the reverse of the forward walk. -/
theorem isQueue_observe {hp : Heap} {h : Ptr} {xs : List Ptr} (hq : IsQueue hp h xs) :
    WellFormed hp h ∧ walkNext (xs.length + 1) hp h = some xs ∧
      walkPrev (xs.length + 1) hp h = some xs.reverse :=
  ⟨wellFormed_iff.2 ⟨xs, hq⟩, IsQueue.walkNext hq (le_refl _), IsQueue.walkPrev hq (le_refl _)⟩

theorem swapPairs_perm : ∀ (l : List Ptr), (swapPairs l).Perm l
  | [] => List.Perm.refl _
  | [_] => List.Perm.refl _
  | a :: b :: t => by
    unfold swapPairs
    exact (List.Perm.swap a b _).trans (((swapPairs_perm t).cons b).cons a)

/-- On a queue `q_delete_dup_with` removes every element that has an equal neighbour,
and releases nothing else. -/
theorem q_delete_dup_with_spec {cmp : Str → Str → Int} {hp : Heap} {h : Ptr} {xs : List Ptr}
    (hq : IsQueue hp h xs) {fuel : Nat} (hf : xs.length + 1 ≤ fuel) :
    ∃ hp', q_delete_dup_with cmp fuel hp (some h) = some (hp', true) ∧
      IsQueue hp' h (dropRuns (dupEq cmp hp.value) false xs) ∧ hp'.value = hp.value ∧
      ∀ x, x ∉ xs ∨ x ∈ dropRuns (dupEq cmp hp.value) false xs →
        hp'.alloc x = hp.alloc x ∧ hp'.salloc x = hp.salloc x := by
  cases xs with
  | nil =>
    obtain ⟨k, rfl⟩ : ∃ k, fuel = k + 1 := ⟨fuel - 1, by simp at hf; omega⟩
    have h1 : hp.next h = h := IsQueue.next_head hq
    exact ⟨hp, by simp [q_delete_dup_with, q_delete_dup_loop, h1], by simpa [dropRuns] using hq,
      rfl, fun _ _ => ⟨rfl, rfl⟩⟩
  | cons e rest =>
    have h1 : hp.next h = e := IsQueue.next_head hq
    have h2 : hp.next e = rest.headD h := IsQueue.next_mid (P := []) hq
    obtain ⟨hp1, tmp1, e1, e2, e3⟩ := @q_delete_dup_loop_queue cmp h hp.value
      rest [] e false hp fuel hq rfl (by simp at hf; omega)
    have e4 := @q_delete_dup_loop_frame cmp h (hp.value) rest [] e false hp fuel
      hp1 tmp1 hq rfl e1
    simp only [Bool.false_eq_true, if_false] at e1
    cases tmp1 with
    | none =>
      exact ⟨hp1, by simp only [q_delete_dup_with, h1, h2, e1], by simpa using e2, e3, e4⟩
    | some t =>
      exact ⟨q_release_element (list_del hp1 t) t, by simp only [q_delete_dup_with, h1, h2, e1],
        by simpa using e2, e3, e4⟩

theorem Live.of_subset {hp hp' : Heap} {h : Ptr} {xs ys : List Ptr} (hl : Live hp h xs)
    (hs : ∀ x ∈ ys, x ∈ xs)
    (ha : ∀ x ∈ h :: ys, hp'.alloc x = hp.alloc x ∧ hp'.salloc x = hp.salloc x) :
    Live hp' h ys := by
  refine ⟨by rw [(ha h (by simp)).1]; exact hl.1, ?_⟩
  intro x hx
  have h1 := ha x (List.mem_cons_of_mem _ hx)
  have h2 := hl.2 x (hs x hx)
  rw [h1.1, h1.2]; exact h2

theorem Live.insert {hp hp' : Heap} {h e : Ptr} {xs ys : List Ptr} (hl : Live hp h xs)
    (hs : ∀ x ∈ ys, x = e ∨ x ∈ xs)
    (ha : hp'.alloc = Function.update hp.alloc e true)
    (hsa : hp'.salloc = Function.update hp.salloc e true) : Live hp' h ys := by
  have key : ∀ (f : Ptr → Bool) (x : Ptr), f x = true → Function.update f e true x = true := by
    intro f x hx
    by_cases e' : x = e
    · subst e'; simp
    · rw [Function.update_noteq e']; exact hx
  refine ⟨by rw [ha]; exact key _ _ hl.1, ?_⟩
  intro x hx
  rw [ha, hsa]
  rcases hs x hx with rfl | hm
  · simp
  · exact ⟨key _ _ (hl.2 x hm).1, key _ _ (hl.2 x hm).2⟩

theorem getD_not_mem_eraseIdx {h : Ptr} {xs : List Ptr} {k : Nat} (hnd : (h :: xs).Nodup)
    (hk : k < xs.length) : xs.getD k h ∉ h :: xs.eraseIdx k := by
  have hx : xs = xs.take k ++ xs.getD k h :: xs.drop (k + 1) := by
    rw [List.getD_eq_getElem _ _ hk, ← List.drop_eq_getElem_cons hk, List.take_append_drop]
  rw [List.eraseIdx_eq_take_drop_succ]
  rw [hx] at hnd
  exact (IsQueue.nodup_erase hnd).2

/-- C1. Every one of the nine operations takes a well-formed queue (following `next`
from the sentinel returns to it, and every node `n` on the way has `n.next.prev = n`
and `n.prev.next = n`) to a well-formed queue on which following `prev` visits the
elements that following `next` visits, in the reverse order. The nodes of the queue
are allocated and `malloc` returns unallocated storage; both stay so. A remove call
passes no buffer or a capacity of at least 1. -/
theorem c1_operations_keep_queue_well_formed (hp : Heap) (h : Ptr) (xs : List Ptr) (op : Op)
    (fuel : Nat)
    (hwalk : walkNext (xs.length + 1) hp h = some xs)
    (hlinks : ∀ n ∈ h :: xs, hp.prev (hp.next n) = n ∧ hp.next (hp.prev n) = n)
    (hlive : Live hp h xs)
    (hfresh : ∀ e, op.allocated = some e → hp.alloc e = false)
    (_hbuf : op.bufferOk)
    (hfuel : xs.length + 2 ≤ fuel) :
    ∃ hp' ys, op.run fuel hp h = some hp' ∧ WellFormed hp' h ∧ Live hp' h ys ∧
      walkNext (ys.length + 1) hp' h = some ys ∧
      walkPrev (ys.length + 1) hp' h = some ys.reverse := by
  have hq : IsQueue hp h xs := isQueue_of_walk hwalk hlinks
  have fin : ∀ (hp' : Heap) (ys : List Ptr), op.run fuel hp h = some hp' → IsQueue hp' h ys →
      Live hp' h ys → ∃ hp' ys, op.run fuel hp h = some hp' ∧ WellFormed hp' h ∧ Live hp' h ys ∧
      walkNext (ys.length + 1) hp' h = some ys ∧
      walkPrev (ys.length + 1) hp' h = some ys.reverse :=
    fun hp' ys hr hq' hl' => ⟨hp', ys, hr, (isQueue_observe hq').1, hl', (isQueue_observe hq').2⟩
  have same : ∀ (hp' : Heap), op.run fuel hp h = some hp' → hp'.next = hp.next →
      hp'.prev = hp.prev → (∀ x ∈ h :: xs, hp'.alloc x = hp.alloc x ∧ hp'.salloc x = hp.salloc x) →
      ∃ hp' ys, op.run fuel hp h = some hp' ∧ WellFormed hp' h ∧ Live hp' h ys ∧
      walkNext (ys.length + 1) hp' h = some ys ∧
      walkPrev (ys.length + 1) hp' h = some ys.reverse :=
    fun hp' hr hn hv ha => fin hp' xs hr (IsQueue.congr hq hn hv)
      (Live.of_subset hlive (fun _ hx => hx) ha)
  cases op with
  | insert_head s m dup =>
    cases m with
    | none => exact same hp rfl rfl rfl (fun _ _ => ⟨rfl, rfl⟩)
    | some e =>
      have he : hp.alloc e = false := hfresh e rfl
      have hne := Live.fresh hlive he
      cases dup with
      | false =>
        refine same (freeAt (mallocAt hp e) e) rfl rfl rfl ?_
        intro x hx
        have : x ≠ e := fun e' => hne (e' ▸ hx)
        exact ⟨by simp [freeAt, mallocAt, Function.update_noteq this], rfl⟩
      | true =>
        obtain ⟨_, r2, _, r4, r5⟩ := q_insert_head_queue s hq hne
        exact fin _ (e :: xs) rfl r2 (Live.insert hlive (fun x hx => by simpa using hx) r4 r5)
  | insert_tail s m dup =>
    cases m with
    | none => exact same hp rfl rfl rfl (fun _ _ => ⟨rfl, rfl⟩)
    | some e =>
      have he : hp.alloc e = false := hfresh e rfl
      have hne := Live.fresh hlive he
      cases dup with
      | false =>
        refine same (freeAt (mallocAt hp e) e) rfl rfl rfl ?_
        intro x hx
        have : x ≠ e := fun e' => hne (e' ▸ hx)
        exact ⟨by simp [freeAt, mallocAt, Function.update_noteq this], rfl⟩
      | true =>
        obtain ⟨_, r2, _, r4, r5⟩ := q_insert_tail_queue s hq hne
        exact fin _ (xs ++ [e]) rfl r2
          (Live.insert hlive (fun x hx => by simp at hx; tauto) r4 r5)
  | remove_head sp c =>
    cases xs with
    | nil =>
      have := (q_remove_empty sp c hq).1
      exact same hp (by simp [Op.run, this]) rfl rfl (fun _ _ => ⟨rfl, rfl⟩)
    | cons x t =>
      obtain ⟨r1, r2⟩ := q_remove_head_queue sp c hq
      exact fin _ t (by simp [Op.run, r1]) r2
        (Live.of_subset hlive (fun _ hx => List.mem_cons_of_mem _ hx) (fun _ _ => ⟨rfl, rfl⟩))
  | remove_tail sp c =>
    rcases eq_nil_or_snoc xs with rfl | ⟨t, x, rfl⟩
    · have := (q_remove_empty sp c hq).2
      exact same hp (by simp [Op.run, this]) rfl rfl (fun _ _ => ⟨rfl, rfl⟩)
    · obtain ⟨r1, r2⟩ := q_remove_tail_queue sp c hq
      exact fin _ t (by simp [Op.run, r1]) r2
        (Live.of_subset hlive (fun _ hx => List.mem_append_left _ hx) (fun _ _ => ⟨rfl, rfl⟩))
  | delete_mid =>
    by_cases hne : xs = []
    · subst hne
      have := q_delete_mid_nil hq fuel
      exact same hp (by simp [Op.run, this]) rfl rfl (fun _ _ => ⟨rfl, rfl⟩)
    · obtain ⟨hp', r1, r2, _, r4, r5⟩ := q_delete_mid_queue hq hne (show xs.length ≤ fuel by omega)
      have hk : xs.length / 2 < xs.length := by
        have : 0 < xs.length := List.length_pos.2 hne
        omega
      have hnot := getD_not_mem_eraseIdx hq.1 hk
      refine fin hp' _ (by simp [Op.run, r1]) r2 (Live.of_subset hlive
        (fun _ hx => (List.eraseIdx_sublist xs _).subset hx) ?_)
      intro x hx
      have : x ≠ xs.getD (xs.length / 2) h := fun e' => hnot (e' ▸ hx)
      rw [r4, r5, Function.update_noteq this, Function.update_noteq this]
      exact ⟨rfl, rfl⟩
  | delete_dup =>
    obtain ⟨hp', r1, r2, _, r4⟩ := @q_delete_dup_with_spec strcmp hp h xs hq fuel
      (by omega)
    refine fin hp' _ (by simp [Op.run, q_delete_dup, r1]) r2 (Live.of_subset hlive
      (fun _ hx => (dropRuns_sublist _ _ xs).subset hx) ?_)
    intro x hx
    rcases List.mem_cons.1 hx with rfl | hx
    · exact r4 x (Or.inl (List.nodup_cons.1 hq.1).1)
    · exact r4 x (Or.inr hx)
  | swap =>
    obtain ⟨hp', r1, r2, _, r4, r5⟩ := q_swap_queue hq (show xs.length + 1 ≤ fuel by omega)
    exact fin hp' _ (by simp [Op.run, r1]) r2 (Live.of_subset hlive
      (fun _ hx => (swapPairs_perm xs).mem_iff.1 hx) (fun _ _ => ⟨by rw [r4], by rw [r5]⟩))
  | reverse =>
    obtain ⟨hp', r1, r2, _, _, _, r4, r5⟩ := q_reverse_queue hq (show xs.length + 1 ≤ fuel by omega)
    exact fin hp' _ (by simp [Op.run, r1]) r2 (Live.of_subset hlive
      (fun _ hx => List.mem_reverse.1 hx) (fun _ _ => ⟨by rw [r4], by rw [r5]⟩))
  | sort =>
    obtain ⟨hp', r1, r2, _, r4, r5⟩ := q_sort_queue hq (show xs.length + 1 ≤ fuel by omega)
    exact fin hp' _ (by simp [Op.run, r1]) r2 (Live.of_subset hlive
      (fun _ hx => (sortSeq_perm hp.value xs).mem_iff.1 hx) (fun _ _ => ⟨by rw [r4], by rw [r5]⟩))

/-- C1 at the queue "b", "a", "a" and the call of `q_remove_head` with a buffer of
capacity 2. -/
theorem c1_operations_keep_queue_well_formed_witness :
    (walkNext 4 demoHeap 0 = some [1, 2, 3] ∧
      (∀ n ∈ [0, 1, 2, 3], demoHeap.prev (demoHeap.next n) = n ∧
        demoHeap.next (demoHeap.prev n) = n) ∧
      Live demoHeap 0 [1, 2, 3] ∧ (Op.remove_head (some (fun _ => 7)) 2).bufferOk) ∧
    ∃ hp' ys, (Op.remove_head (some (fun _ => 7)) 2).run 5 demoHeap 0 = some hp' ∧
      WellFormed hp' 0 ∧ Live hp' 0 ys ∧
      walkNext (ys.length + 1) hp' 0 = some ys ∧
      walkPrev (ys.length + 1) hp' 0 = some ys.reverse :=
  ⟨⟨by decide, by decide, by decide, Or.inr ⟨by decide, by decide⟩⟩,
    c1_operations_keep_queue_well_formed demoHeap 0 [1, 2, 3]
      (Op.remove_head (some (fun _ => 7)) 2) 5 (by decide) (by decide)
      (by decide) (fun e he => by cases he) (Or.inr ⟨by decide, by decide⟩) (by decide)⟩

theorem readValues_queue {hp : Heap} {h : Ptr} {xs : List Ptr} (hq : IsQueue hp h xs)
    {fuel : Nat} (hf : xs.length + 1 ≤ fuel) : readValues fuel hp h = some (values hp xs) := by
  simp [readValues, IsQueue.walkNext hq hf]

theorem values_update {val : Ptr → Str} {e : Ptr} {s : Str} {xs : List Ptr} (he : e ∉ xs) :
    xs.map (Function.update val e s) = xs.map val := by
  refine List.map_congr_left ?_
  intro x hx
  have hxe : x ≠ e := fun e' => he (e' ▸ hx)
  exact Function.update_noteq hxe _ _

theorem demoHeap_isQueue : IsQueue demoHeap 0 [1, 2, 3] :=
  isQueue_of_walk (by decide) (by decide)

theorem sortedHeap_isQueue : IsQueue sortedHeap 0 [1, 2, 3] :=
  isQueue_of_walk (by decide) (by decide)

/-- C2. The four boundary operations act on the strings of a queue, read head to tail,
as the plain sequence operations: a successful `q_insert_head` returns true and puts
`s` before them, a successful `q_insert_tail` returns true and puts `s` after them, and
on a non-empty queue `q_remove_head` returns the element holding the first string and
leaves the rest, `q_remove_tail` the element holding the last string and leaves the
strings before it. A remove call passes no buffer or a capacity of at least 1. -/
theorem c2_boundary_operations_refine_sequence (hp : Heap) (h : Ptr) (xs : List Ptr)
    (hq : IsQueue hp h xs) (hlive : Live hp h xs) :
    (∀ (s : Str) (e : Ptr), hp.alloc e = false →
      (q_insert_head hp (some h) s (some e) true).2 = true ∧
      readValues (xs.length + 2) (q_insert_head hp (some h) s (some e) true).1 h =
        some (s :: values hp xs)) ∧
    (∀ (s : Str) (e : Ptr), hp.alloc e = false →
      (q_insert_tail hp (some h) s (some e) true).2 = true ∧
      readValues (xs.length + 2) (q_insert_tail hp (some h) s (some e) true).1 h =
        some (values hp xs ++ [s])) ∧
    (xs ≠ [] → ∀ (sp : Option Buf) (c : Nat), BufferOk sp c → ∃ x,
      (q_remove_head hp (some h) sp c).2.1 = some x ∧
      (values hp xs).head? = some ((q_remove_head hp (some h) sp c).1.value x) ∧
      readValues xs.length (q_remove_head hp (some h) sp c).1 h = some (values hp xs).tail) ∧
    (xs ≠ [] → ∀ (sp : Option Buf) (c : Nat), BufferOk sp c → ∃ x,
      (q_remove_tail hp (some h) sp c).2.1 = some x ∧
      (values hp xs).getLast? = some ((q_remove_tail hp (some h) sp c).1.value x) ∧
      readValues xs.length (q_remove_tail hp (some h) sp c).1 h =
        some (values hp xs).dropLast) := by
  refine ⟨?_, ?_, ?_, ?_⟩
  · intro s e he
    have hne := Live.fresh hlive he
    obtain ⟨r1, r2, r3, _, _⟩ := q_insert_head_queue s hq hne
    refine ⟨r1, ?_⟩
    rw [readValues_queue r2 (by simp), values, r3]
    have : e ∉ xs := fun hm => hne (List.mem_cons_of_mem _ hm)
    simp [values, values_update this]
  · intro s e he
    have hne := Live.fresh hlive he
    obtain ⟨r1, r2, r3, _, _⟩ := q_insert_tail_queue s hq hne
    refine ⟨r1, ?_⟩
    rw [readValues_queue r2 (by simp), values, r3]
    have : e ∉ xs := fun hm => hne (List.mem_cons_of_mem _ hm)
    simp [values, values_update this]
  · intro hne sp c _
    cases xs with
    | nil => exact absurd rfl hne
    | cons x t =>
      obtain ⟨r1, r2⟩ := q_remove_head_queue sp c hq
      refine ⟨x, by rw [r1], by rw [r1]; simp [values], ?_⟩
      rw [r1, readValues_queue r2 (by simp)]
      simp [values]
  · intro hne sp c _
    rcases eq_nil_or_snoc xs with rfl | ⟨t, x, rfl⟩
    · exact absurd rfl hne
    · obtain ⟨r1, r2⟩ := q_remove_tail_queue sp c hq
      refine ⟨x, by rw [r1], by rw [r1]; simp [values], ?_⟩
      rw [r1, readValues_queue r2 (by simp)]
      simp [values]

/-- C2 at the queue "b", "a", "a": `q_insert_head` of "c", and `q_remove_head` and
`q_remove_tail` with a buffer of capacity 2. -/
theorem c2_boundary_operations_refine_sequence_witness :
    (IsQueue demoHeap 0 [1, 2, 3] ∧ Live demoHeap 0 [1, 2, 3] ∧ demoHeap.alloc 7 = false ∧
      [1, 2, 3] ≠ [] ∧ BufferOk (some (fun _ => 7)) 2) ∧
    readValues 5 (q_insert_head demoHeap (some 0) [99] (some 7) true).1 0 =
      some ([99] :: values demoHeap [1, 2, 3]) ∧
    (∃ x, (q_remove_head demoHeap (some 0) (some (fun _ => 7)) 2).2.1 = some x ∧
      (values demoHeap [1, 2, 3]).head? =
        some ((q_remove_head demoHeap (some 0) (some (fun _ => 7)) 2).1.value x) ∧
      readValues 3 (q_remove_head demoHeap (some 0) (some (fun _ => 7)) 2).1 0 =
        some (values demoHeap [1, 2, 3]).tail) ∧
    (∃ x, (q_remove_tail demoHeap (some 0) (some (fun _ => 7)) 2).2.1 = some x ∧
      (values demoHeap [1, 2, 3]).getLast? =
        some ((q_remove_tail demoHeap (some 0) (some (fun _ => 7)) 2).1.value x) ∧
      readValues 3 (q_remove_tail demoHeap (some 0) (some (fun _ => 7)) 2).1 0 =
        some (values demoHeap [1, 2, 3]).dropLast) :=
  ⟨⟨demoHeap_isQueue, by decide, by decide, by decide, Or.inr ⟨by decide, by decide⟩⟩,
    ((c2_boundary_operations_refine_sequence demoHeap 0 [1, 2, 3] demoHeap_isQueue
      (by decide)).1 [99] 7 (by decide)).2,
    (c2_boundary_operations_refine_sequence demoHeap 0 [1, 2, 3] demoHeap_isQueue
      (by decide)).2.2.1 (by decide) (some (fun _ => 7)) 2 (Or.inr ⟨by decide, by decide⟩),
    (c2_boundary_operations_refine_sequence demoHeap 0 [1, 2, 3] demoHeap_isQueue
      (by decide)).2.2.2 (by decide) (some (fun _ => 7)) 2 (Or.inr ⟨by decide, by decide⟩)⟩

/-- C3. A successful `q_insert_head` of `s` followed at once by `q_remove_head` returns
the inserted element, whose string is `s`, and leaves the queue with the sequence of
elements, and their strings, that it had before the insertion. The remove call passes
no buffer or a capacity of at least 1. -/
theorem c3_insert_head_remove_head_round_trip (hp : Heap) (h : Ptr) (xs : List Ptr) (s : Str)
    (e : Ptr) (sp : Option Buf) (c : Nat)
    (hq : IsQueue hp h xs) (hlive : Live hp h xs) (he : hp.alloc e = false)
    (_hbuf : BufferOk sp c) :
    (q_insert_head hp (some h) s (some e) true).2 = true ∧
    (q_remove_head (q_insert_head hp (some h) s (some e) true).1 (some h) sp c).2.1 = some e ∧
    (q_remove_head (q_insert_head hp (some h) s (some e) true).1 (some h) sp c).1.value e = s ∧
    IsQueue (q_remove_head (q_insert_head hp (some h) s (some e) true).1 (some h) sp c).1 h xs ∧
    walkNext (xs.length + 1)
      (q_remove_head (q_insert_head hp (some h) s (some e) true).1 (some h) sp c).1 h = some xs ∧
    values (q_remove_head (q_insert_head hp (some h) s (some e) true).1 (some h) sp c).1 xs =
      values hp xs := by
  have hne := Live.fresh hlive he
  obtain ⟨r1, r2, r3, _, _⟩ := q_insert_head_queue s hq hne
  obtain ⟨t1, t2⟩ := q_remove_head_queue sp c r2
  rw [t1]
  refine ⟨r1, rfl, ?_, t2, IsQueue.walkNext t2 (le_refl _), ?_⟩
  · show (q_insert_head hp (some h) s (some e) true).1.value e = s
    rw [r3]; simp
  · show xs.map (q_insert_head hp (some h) s (some e) true).1.value = xs.map hp.value
    rw [r3]
    exact values_update (fun hm => hne (List.mem_cons_of_mem _ hm))

/-- C3 at the queue "b", "a", "a", the string "c" and a buffer of capacity 2. -/
theorem c3_insert_head_remove_head_round_trip_witness :
    (IsQueue demoHeap 0 [1, 2, 3] ∧ Live demoHeap 0 [1, 2, 3] ∧ demoHeap.alloc 7 = false ∧
      BufferOk (some (fun _ => 7)) 2) ∧
    (q_remove_head (q_insert_head demoHeap (some 0) [99] (some 7) true).1 (some 0)
      (some (fun _ => 7)) 2).2.1 = some 7 ∧
    (q_remove_head (q_insert_head demoHeap (some 0) [99] (some 7) true).1 (some 0)
      (some (fun _ => 7)) 2).1.value 7 = [99] ∧
    walkNext 4 (q_remove_head (q_insert_head demoHeap (some 0) [99] (some 7) true).1 (some 0)
      (some (fun _ => 7)) 2).1 0 = some [1, 2, 3] :=
  ⟨⟨demoHeap_isQueue, by decide, by decide, Or.inr ⟨by decide, by decide⟩⟩,
    (c3_insert_head_remove_head_round_trip demoHeap 0 [1, 2, 3] [99] 7 (some (fun _ => 7)) 2
      demoHeap_isQueue (by decide) (by decide) (Or.inr ⟨by decide, by decide⟩)).2.1,
    (c3_insert_head_remove_head_round_trip demoHeap 0 [1, 2, 3] [99] 7 (some (fun _ => 7)) 2
      demoHeap_isQueue (by decide) (by decide) (Or.inr ⟨by decide, by decide⟩)).2.2.1,
    (c3_insert_head_remove_head_round_trip demoHeap 0 [1, 2, 3] [99] 7 (some (fun _ => 7)) 2
      demoHeap_isQueue (by decide) (by decide) (Or.inr ⟨by decide, by decide⟩)).2.2.2.2.1⟩

/-- C5. Each remove function returns null exactly when the queue handle is null or the
queue is empty (its sentinel points to itself, which for a queue means it holds no
element), and then it returns the heap and the caller's buffer as they were. -/
theorem c5_remove_null_iff_null_or_empty (hp : Heap) (head : Option Ptr) (sp : Option Buf)
    (c : Nat) :
    ((q_remove_head hp head sp c).2.1 = none ↔
      head = none ∨ ∃ h, head = some h ∧ list_empty hp h = true) ∧
    ((q_remove_tail hp head sp c).2.1 = none ↔
      head = none ∨ ∃ h, head = some h ∧ list_empty hp h = true) ∧
    ((head = none ∨ ∃ h, head = some h ∧ list_empty hp h = true) →
      q_remove_head hp head sp c = (hp, none, sp) ∧
      q_remove_tail hp head sp c = (hp, none, sp)) ∧
    (∀ h xs, IsQueue hp h xs → (list_empty hp h = true ↔ xs = [])) := by
  refine ⟨?_, ?_, ?_, ?_⟩
  · cases head with
    | none => simp [q_remove_head]
    | some h =>
      cases he : list_empty hp h <;> simp [q_remove_head, he]
  · cases head with
    | none => simp [q_remove_tail]
    | some h =>
      cases he : list_empty hp h <;> simp [q_remove_tail, he]
  · rintro (rfl | ⟨h, rfl, he⟩)
    · exact ⟨rfl, rfl⟩
    · simp [q_remove_head, q_remove_tail, he]
  · intro h xs hq
    cases xs with
    | nil => simp [IsQueue.list_empty_nil hq]
    | cons x t => simp [IsQueue.list_empty_cons hq]

theorem size_sub_one_eq {c : Nat} (h1 : 1 ≤ c) (h2 : c < 2 ^ 64) : size_sub_one c = c - 1 := by
  unfold size_sub_one; omega

theorem readStr_spec (b : Buf) : ∀ (t : Str) (i fuel : Nat),
    (∀ j, j < t.length → b (i + j) = t.getD j 0) → (∀ x ∈ t, x ≠ 0) → b (i + t.length) = 0 →
    t.length < fuel → readStr b fuel i = t
  | [], i, fuel, _, _, h0, hf => by
    obtain ⟨k, rfl⟩ : ∃ k, fuel = k + 1 := ⟨fuel - 1, by simp at hf; omega⟩
    have : b i = 0 := by simpa using h0
    simp [readStr, this]
  | x :: t, i, fuel, hb, hx, h0, hf => by
    obtain ⟨k, rfl⟩ : ∃ k, fuel = k + 1 := ⟨fuel - 1, by simp at hf; omega⟩
    have h1 : b i = x := by simpa using hb 0 (by simp)
    have h2 : x ≠ 0 := hx x (by simp)
    have ih := readStr_spec b t (i + 1) k
      (fun j hj => by
        have := hb (j + 1) (by simpa using hj)
        simpa [Nat.add_assoc, Nat.add_comm 1 j] using this)
      (fun y hy => hx y (List.mem_cons_of_mem _ hy))
      (by simpa [Nat.add_assoc, Nat.add_comm 1] using h0)
      (by simp at hf; omega)
    simp [readStr, h1, h2, ih]

/-- What the two statements under `if (sp)` leave in a buffer of capacity `c ≥ 1`. -/
theorem copy_out_spec (buf : Buf) (v : Str) {c : Nat} (h1 : 1 ≤ c) (h2 : c < 2 ^ 64) :
    ∃ b, copy_out (some buf) v c = some b ∧
      (∀ i, i < min v.length (c - 1) → b i = v.getD i 0) ∧
      b (min v.length (c - 1)) = 0 ∧
      (∀ i, c ≤ i → b i = buf i) ∧
      (CStr v → readStr b c 0 = v.take (c - 1)) := by
  have hs := size_sub_one_eq h1 h2
  have hb1 : ∀ i, i < min v.length (c - 1) →
      Function.update (strncpy buf v (c - 1)) (c - 1) 0 i = v.getD i 0 := by
    intro i hi
    have h3 : i < c - 1 := lt_of_lt_of_le hi (min_le_right _ _)
    rw [Function.update_noteq (by omega)]
    simp [strncpy, h3]
  have hb2 : Function.update (strncpy buf v (c - 1)) (c - 1) 0 (min v.length (c - 1)) = 0 := by
    by_cases hl : c - 1 ≤ v.length
    · rw [min_eq_right hl]; simp
    · have hl' : v.length < c - 1 := by omega
      rw [min_eq_left (le_of_lt hl'), Function.update_noteq (by omega)]
      simp [strncpy, hl']
  refine ⟨Function.update (strncpy buf v (c - 1)) (c - 1) 0, by simp [copy_out, hs], hb1, hb2,
    ?_, ?_⟩
  · intro i hi
    rw [Function.update_noteq (by omega)]
    have : ¬ i < c - 1 := by omega
    simp [strncpy, this]
  · intro hv
    refine readStr_spec _ (v.take (c - 1)) 0 c ?_ ?_ ?_ ?_
    · intro j hj
      have hj' : j < min v.length (c - 1) := by
        simpa [List.length_take, min_comm] using hj
      rw [Nat.zero_add, hb1 j hj']
      have h4 : j < v.length := lt_of_lt_of_le hj' (min_le_left _ _)
      have h5 : j < (v.take (c - 1)).length := hj
      rw [List.getD_eq_getElem _ _ h4, List.getD_eq_getElem _ _ h5, List.getElem_take]
    · intro x hx
      exact Nat.pos_iff_ne_zero.1 (hv x (List.mem_of_mem_take hx)).1
    · have : (v.take (c - 1)).length = min v.length (c - 1) := by
        simp [List.length_take, min_comm]
      rw [Nat.zero_add, this]; exact hb2
    · have : (v.take (c - 1)).length ≤ c - 1 := by simp [List.length_take]
      omega

/-- C6. On a non-empty queue and with a buffer of capacity `c ≥ 1` supplied, both remove
functions leave in the buffer the first min(len, c - 1) bytes of the removed element's
string followed by a zero byte, so that the buffer read back as a C string is the
string cut to at most `c - 1` bytes; nothing is written at index `c` or beyond, and the
element's own string is not modified or freed. -/
theorem c6_remove_copies_truncated_string (hp : Heap) (h x : Ptr) (xs : List Ptr) (buf : Buf)
    (c : Nat) (hc1 : 1 ≤ c) (hc2 : c < 2 ^ 64) :
    (IsQueue hp h (x :: xs) → CopiedOut hp x buf c (q_remove_head hp (some h) (some buf) c)) ∧
    (IsQueue hp h (xs ++ [x]) → CopiedOut hp x buf c (q_remove_tail hp (some h) (some buf) c)) := by
  obtain ⟨b, hb⟩ := copy_out_spec buf (hp.value x) hc1 hc2
  constructor
  · intro hq
    rw [(q_remove_head_queue (some buf) c hq).1]
    exact ⟨rfl, ⟨b, hb⟩, rfl, rfl, rfl⟩
  · intro hq
    rw [(q_remove_tail_queue (some buf) c hq).1]
    exact ⟨rfl, ⟨b, hb⟩, rfl, rfl, rfl⟩

/-- C6 at the queue "b", "a", "a", a buffer of capacity 1 and `q_remove_head`. -/
theorem c6_remove_copies_truncated_string_witness :
    (1 ≤ 1 ∧ 1 < 2 ^ 64 ∧ IsQueue demoHeap 0 (1 :: [2, 3])) ∧
    CopiedOut demoHeap 1 (fun _ => 7) 1 (q_remove_head demoHeap (some 0) (some (fun _ => 7)) 1) :=
  ⟨⟨by decide, by decide, demoHeap_isQueue⟩,
    (c6_remove_copies_truncated_string demoHeap 0 1 [2, 3] (fun _ => 7) 1 (by decide)
      (by decide)).1 demoHeap_isQueue⟩

theorem q_new_queue (hp : Heap) (q : Ptr) :
    (q_new hp (some q)).2 = some q ∧ IsQueue (q_new hp (some q)).1 q [] ∧
      Live (q_new hp (some q)).1 q [] := by
  refine ⟨rfl, ⟨by simp, ?_⟩, ?_, ?_⟩
  · show List.Chain' _ [q, q]
    rw [List.chain'_pair]
    simp [Linked, q_new, INIT_LIST_HEAD]
  · simp [q_new, INIT_LIST_HEAD, mallocAt]
  · intro x hx; cases hx

theorem doInsert_queue {hp : Heap} {h : Ptr} {xs : List Ptr} (c : InsertCall)
    (hq : IsQueue hp h xs) (hl : Live hp h xs) (he : hp.alloc c.e = false) :
    ∃ ys, IsQueue (doInsert hp h c) h ys ∧ Live (doInsert hp h c) h ys ∧
      ys.length = xs.length + 1 ∧
      (doInsert hp h c).alloc = Function.update hp.alloc c.e true := by
  have hne := Live.fresh hl he
  unfold doInsert
  cases c.atHead
  · obtain ⟨_, r2, _, r4, r5⟩ := q_insert_tail_queue c.s hq hne
    exact ⟨xs ++ [c.e], r2, Live.insert hl (fun x hx => by simp at hx; tauto) r4 r5, by simp, r4⟩
  · obtain ⟨_, r2, _, r4, r5⟩ := q_insert_head_queue c.s hq hne
    exact ⟨c.e :: xs, r2, Live.insert hl (fun x hx => by simpa using hx) r4 r5, by simp, r4⟩

theorem doInserts_queue {h : Ptr} : ∀ (cs : List InsertCall) (hp : Heap) (xs : List Ptr),
    IsQueue hp h xs → Live hp h xs → MallocFresh hp h cs →
    ∃ ys, IsQueue (doInserts hp h cs) h ys ∧ ys.length = xs.length + cs.length
  | [], hp, xs, hq, _, _ => ⟨xs, hq, by simp⟩
  | c :: cs, hp, xs, hq, hl, hm => by
    obtain ⟨ys, r1, r2, r3, _⟩ := doInsert_queue c hq hl hm.1
    obtain ⟨zs, s1, s2⟩ := doInserts_queue cs (doInsert hp h c) ys r1 r2 hm.2
    exact ⟨zs, s1, by rw [s2, r3]; simp; omega⟩

theorem doRemoves_queue {h : Ptr} : ∀ (rs : List RemoveCall) (hp : Heap) (xs : List Ptr),
    IsQueue hp h xs → ∃ ys, IsQueue (doRemoves hp h rs) h ys ∧ ys.length = xs.length - rs.length
  | [], hp, xs, hq => ⟨xs, hq, by simp⟩
  | c :: rs, hp, xs, hq => by
    have step : ∃ ys, IsQueue (doRemove hp h c) h ys ∧ ys.length = xs.length - 1 := by
      unfold doRemove
      cases c.atHead
      · rcases eq_nil_or_snoc xs with rfl | ⟨t, x, rfl⟩
        · rw [(q_remove_empty c.sp c.bufsize hq).2]; exact ⟨[], hq, rfl⟩
        · obtain ⟨r1, r2⟩ := q_remove_tail_queue c.sp c.bufsize hq
          rw [r1]; exact ⟨t, r2, by simp⟩
      · cases xs with
        | nil => rw [(q_remove_empty c.sp c.bufsize hq).1]; exact ⟨[], hq, rfl⟩
        | cons x t =>
          obtain ⟨r1, r2⟩ := q_remove_head_queue c.sp c.bufsize hq
          rw [if_pos rfl, r1]; exact ⟨t, r2, by simp⟩
    obtain ⟨ys, r1, r2⟩ := step
    obtain ⟨zs, s1, s2⟩ := doRemoves_queue rs (doRemove hp h c) ys r1
    exact ⟨zs, s1, by rw [s2, r2]; simp; omega⟩

/-- After any sequence of successful insertions into a fresh queue `q_size` returns their
number reduced to an `int`. -/
theorem q_size_after_inserts (hp0 : Heap) (q : Ptr) (cs : List InsertCall) (fuel : Nat)
    (hm : MallocFresh (q_new hp0 (some q)).1 q cs) (hf : cs.length + 1 ≤ fuel) :
    q_size fuel (doInserts (q_new hp0 (some q)).1 q cs) (some q) = some (wrap32 cs.length) := by
  obtain ⟨_, n1, n2⟩ := q_new_queue hp0 q
  obtain ⟨ys, r1, r2⟩ := doInserts_queue cs _ [] n1 n2 hm
  have hy : ys.length = cs.length := by simpa using r2
  rw [q_size_queue r1 (by omega), hy]

/-- After as many removals as there were insertions `q_size` returns 0. -/
theorem q_size_after_removes (hp0 : Heap) (q : Ptr) (cs : List InsertCall) (rs : List RemoveCall)
    (fuel : Nat) (hm : MallocFresh (q_new hp0 (some q)).1 q cs) (hr : rs.length = cs.length)
    (hf : 1 ≤ fuel) :
    q_size fuel (doRemoves (doInserts (q_new hp0 (some q)).1 q cs) q rs) (some q) = some 0 := by
  obtain ⟨_, n1, n2⟩ := q_new_queue hp0 q
  obtain ⟨ys, r1, r2⟩ := doInserts_queue cs _ [] n1 n2 hm
  obtain ⟨zs, s1, s2⟩ := doRemoves_queue rs _ ys r1
  have hy : ys.length = cs.length := by simpa using r2
  have hz : zs.length = 0 := by rw [s2, hy, hr]; simp
  rw [q_size_queue s1 (by omega), hz]; rfl

theorem mallocFresh_of_nodup {h : Ptr} {xs : List Ptr} : ∀ (cs : List InsertCall) (hp : Heap),
    IsQueue hp h xs → Live hp h xs →
    (cs.map InsertCall.e).Nodup → (∀ c ∈ cs, hp.alloc c.e = false) → MallocFresh hp h cs := by
  intro cs
  induction cs generalizing xs with
  | nil => intro _ _ _ _ _; trivial
  | cons c cs ih =>
    intro hp hq hl hnd ha
    have hc := ha c (by simp)
    obtain ⟨ys, r1, r2, _, r4⟩ := doInsert_queue c hq hl hc
    refine ⟨hc, ih (doInsert hp h c) r1 r2 (List.nodup_cons.1 hnd).2 ?_⟩
    intro c' hc'
    have hne : c'.e ≠ c.e := by
      intro e'
      exact (List.nodup_cons.1 hnd).1 (by rw [← e']; exact List.mem_map_of_mem _ hc')
    rw [r4, Function.update_noteq hne]
    exact ha c' (List.mem_cons_of_mem _ hc')

theorem manyInserts_length : manyInserts.length = 2 ^ 31 := by
  unfold manyInserts
  rw [List.length_map, List.length_range]

theorem manyInserts_nodup : (manyInserts.map InsertCall.e).Nodup := by
  have : manyInserts.map InsertCall.e = (List.range (2 ^ 31)).map (fun i => i + 1) := by
    unfold manyInserts
    rw [List.map_map]
    rfl
  rw [this]
  exact (List.nodup_range _).map (fun a b hab => by simpa using hab)

theorem manyInserts_unallocated :
    ∀ c ∈ manyInserts, (q_new emptyHeap (some 0)).1.alloc c.e = false := by
  intro c hc
  unfold manyInserts at hc
  obtain ⟨i, _, rfl⟩ := List.mem_map.1 hc
  simp [q_new, INIT_LIST_HEAD, mallocAt, emptyHeap]

theorem manyInserts_fresh : MallocFresh (q_new emptyHeap (some 0)).1 0 manyInserts :=
  mallocFresh_of_nodup manyInserts _ (q_new_queue emptyHeap 0).2.1 (q_new_queue emptyHeap 0).2.2
    manyInserts_nodup manyInserts_unallocated

/-- The two removals of the example of C4 pass a buffer of capacity 2 and no buffer. -/
theorem demoRemoves_bufferOk :
    ∀ r ∈ [(⟨true, some (fun _ => 7), 2⟩ : RemoveCall), ⟨false, none, 0⟩],
      BufferOk r.sp r.bufsize := by
  intro r hr
  simp only [List.mem_cons, List.mem_singleton, List.not_mem_nil, or_false] at hr
  rcases hr with rfl | rfl
  · exact Or.inr ⟨by decide, by decide⟩
  · exact Or.inl rfl

/-- C4, as amended. After `k < 2^31` successful insertions, in any mix of
`q_insert_head` and `q_insert_tail`, into a freshly created queue, `q_size` returns
`k`; after as many removals, in any mix, each with no buffer or a capacity of at least
1, it returns 0; and on a null queue it returns 0. (The function `q_size` only reads
the heap: it yields no heap.) -/
theorem c4_size_counts_insertions (hp0 : Heap) (q : Ptr) (cs : List InsertCall)
    (rs : List RemoveCall) (fuel : Nat) (hm : MallocFresh (q_new hp0 (some q)).1 q cs)
    (hk : cs.length < 2 ^ 31) (hr : rs.length = cs.length)
    (_hbuf : ∀ r ∈ rs, BufferOk r.sp r.bufsize) (hf : cs.length + 1 ≤ fuel) :
    (q_new hp0 (some q)).2 = some q ∧
    q_size fuel (doInserts (q_new hp0 (some q)).1 q cs) (some q) = some (cs.length : Int) ∧
    q_size fuel (doRemoves (doInserts (q_new hp0 (some q)).1 q cs) q rs) (some q) = some 0 ∧
    q_size fuel (doInserts (q_new hp0 (some q)).1 q cs) none = some 0 := by
  refine ⟨rfl, ?_, q_size_after_removes hp0 q cs rs fuel hm hr (by omega), rfl⟩
  rw [q_size_after_inserts hp0 q cs fuel hm hf, wrap32_of_range (by omega) (by omega)]

/-- C4 at two insertions, at the tail and at the head, and two removals, at the head
with a buffer of capacity 2 and at the tail with no buffer. -/
theorem c4_size_counts_insertions_witness :
    (MallocFresh (q_new emptyHeap (some 0)).1 0 [⟨false, [97], 1⟩, ⟨true, [98], 2⟩] ∧
      [(⟨false, [97], 1⟩ : InsertCall), ⟨true, [98], 2⟩].length < 2 ^ 31 ∧
      ∀ r ∈ [(⟨true, some (fun _ => 7), 2⟩ : RemoveCall), ⟨false, none, 0⟩],
        BufferOk r.sp r.bufsize) ∧
    q_size 3 (doInserts (q_new emptyHeap (some 0)).1 0 [⟨false, [97], 1⟩, ⟨true, [98], 2⟩])
      (some 0) = some 2 ∧
    q_size 3 (doRemoves (doInserts (q_new emptyHeap (some 0)).1 0
      [⟨false, [97], 1⟩, ⟨true, [98], 2⟩]) 0
      [⟨true, some (fun _ => 7), 2⟩, ⟨false, none, 0⟩]) (some 0) = some 0 :=
  ⟨⟨⟨by decide, by decide, trivial⟩, by decide, demoRemoves_bufferOk⟩,
    (c4_size_counts_insertions emptyHeap 0 [⟨false, [97], 1⟩, ⟨true, [98], 2⟩]
      [⟨true, some (fun _ => 7), 2⟩, ⟨false, none, 0⟩] 3 ⟨by decide, by decide, trivial⟩
      (by decide) rfl demoRemoves_bufferOk (by decide)).2.1,
    (c4_size_counts_insertions emptyHeap 0 [⟨false, [97], 1⟩, ⟨true, [98], 2⟩]
      [⟨true, some (fun _ => 7), 2⟩, ⟨false, none, 0⟩] 3 ⟨by decide, by decide, trivial⟩
      (by decide) rfl demoRemoves_bufferOk (by decide)).2.2.1⟩

/-- C4 fails as stated: after 2^31 successful calls of `q_insert_tail` on a fresh
queue `q_size` returns -2^31, not 2^31. -/
theorem c4_size_wraps_at_two_pow_31 :
    MallocFresh (q_new emptyHeap (some 0)).1 0 manyInserts ∧ manyInserts.length = 2 ^ 31 ∧
    q_size (2 ^ 31 + 1) (doInserts (q_new emptyHeap (some 0)).1 0 manyInserts) (some 0) =
      some (-2147483648) ∧
    q_size (2 ^ 31 + 1) (doInserts (q_new emptyHeap (some 0)).1 0 manyInserts) (some 0) ≠
      some ((manyInserts.length : Nat) : Int) := by
  have h1 := q_size_after_inserts emptyHeap 0 manyInserts (2 ^ 31 + 1) manyInserts_fresh
    (le_of_eq (by rw [manyInserts_length]))
  have h2 : wrap32 ((manyInserts.length : Nat) : Int) = -2147483648 := by
    rw [manyInserts_length]
    unfold wrap32
    norm_num
  rw [h2] at h1
  refine ⟨manyInserts_fresh, manyInserts_length, h1, ?_⟩
  rw [h1, manyInserts_length]
  intro h
  have := Option.some.inj h
  norm_num at this

theorem chain_values {hp : Heap} {xs : List Ptr} :
    (values hp xs).Chain' (fun a b => strcmp a b ≤ 0) ↔
      xs.Chain' (fun a b => strcmp (hp.value a) (hp.value b) ≤ 0) :=
  List.chain'_map hp.value

/-- C7. After `q_sort` the strings of the queue, read head to tail, never decrease:
each compares less than or equal to the next. So the queue made by tail-inserting
"b", "a", "a" reads "a", "a", "b" after `q_sort`. -/
theorem c7_sort_orders_values (hp : Heap) (h : Ptr) (xs : List Ptr) (fuel : Nat)
    (hq : IsQueue hp h xs) (hf : xs.length + 1 ≤ fuel) :
    (∃ hp' ys, q_sort fuel hp (some h) = some hp' ∧ IsQueue hp' h ys ∧
      readValues fuel hp' h = some (values hp' ys) ∧
      (values hp' ys).Chain' (fun a b => strcmp a b ≤ 0)) ∧
    (q_sort 5 scenarioHeap (some 0)).bind (fun hp' => readValues 5 hp' 0) =
      some [[97], [97], [98]] := by
  refine ⟨?_, by decide!⟩
  obtain ⟨hp', r1, r2, r3, _, _⟩ := q_sort_queue hq hf
  have hl : (sortSeq hp.value xs).length = xs.length := (sortSeq_perm hp.value xs).length_eq
  refine ⟨hp', sortSeq hp.value xs, r1, r2, readValues_queue r2 (by omega), ?_⟩
  rw [chain_values, r3]
  exact sortSeq_chain hp.value xs

/-- C7 at the queue "b", "a", "a". -/
theorem c7_sort_orders_values_witness :
    (IsQueue demoHeap 0 [1, 2, 3] ∧ [1, 2, 3].length + 1 ≤ 5) ∧
    ∃ hp' ys, q_sort 5 demoHeap (some 0) = some hp' ∧ IsQueue hp' 0 ys ∧
      readValues 5 hp' 0 = some (values hp' ys) ∧
      (values hp' ys).Chain' (fun a b => strcmp a b ≤ 0) :=
  ⟨⟨demoHeap_isQueue, by decide⟩,
    (c7_sort_orders_values demoHeap 0 [1, 2, 3] 5 demoHeap_isQueue (by decide)).1⟩

/-- C8. The function `q_sort` leaves a permutation of the very same elements, with
their strings and their storage untouched, and on C strings it is stable: two
elements with equal strings come out in the order they came in. -/
theorem c8_sort_is_stable_permutation (hp : Heap) (h : Ptr) (xs : List Ptr) (fuel : Nat)
    (hq : IsQueue hp h xs) (hf : xs.length + 1 ≤ fuel) :
    ∃ hp' ys, q_sort fuel hp (some h) = some hp' ∧ IsQueue hp' h ys ∧ ys.Perm xs ∧
      hp'.value = hp.value ∧ hp'.alloc = hp.alloc ∧ hp'.salloc = hp.salloc ∧
      ((∀ x ∈ xs, CStr (hp.value x)) → ∀ a b, hp.value a = hp.value b →
        [a, b].Sublist xs → [a, b].Sublist ys) := by
  obtain ⟨hp', r1, r2, r3, r4, r5⟩ := q_sort_queue hq hf
  refine ⟨hp', sortSeq hp.value xs, r1, r2, sortSeq_perm hp.value xs, r3, r4, r5, ?_⟩
  intro hs a b hab hsub
  have h1 := hsub.filter (fun x => decide (hp.value x = hp.value b))
  rw [← sortSeq_filter (hp.value b) xs hs] at h1
  have h2 : [a, b].filter (fun x => decide (hp.value x = hp.value b)) = [a, b] := by
    simp [hab]
  rw [h2] at h1
  exact h1.trans (List.filter_sublist _)

/-- C8 at the queue "b", "a", "a". -/
theorem c8_sort_is_stable_permutation_witness :
    (IsQueue demoHeap 0 [1, 2, 3] ∧ [1, 2, 3].length + 1 ≤ 5 ∧
      ∀ x ∈ [1, 2, 3], CStr (demoHeap.value x)) ∧
    ∃ hp' ys, q_sort 5 demoHeap (some 0) = some hp' ∧ IsQueue hp' 0 ys ∧ ys.Perm [1, 2, 3] ∧
      hp'.value = demoHeap.value ∧ hp'.alloc = demoHeap.alloc ∧ hp'.salloc = demoHeap.salloc ∧
      (∀ a b, demoHeap.value a = demoHeap.value b →
        [a, b].Sublist [1, 2, 3] → [a, b].Sublist ys) := by
  obtain ⟨hp', ys, h1, h2, h3, h4, h5, h6, h7⟩ :=
    c8_sort_is_stable_permutation demoHeap 0 [1, 2, 3] 5 demoHeap_isQueue (by decide)
  exact ⟨⟨demoHeap_isQueue, by decide, by decide⟩, hp', ys, h1, h2, h3, h4, h5, h6,
    h7 (by decide)⟩

/-- C9. On a queue of C strings that are already in non-decreasing order `q_sort`
writes nothing: the heap, and so the sequence of elements, is exactly as before.
Hence sorting twice gives what sorting once gives. Likewise `q_sort` changes nothing
on a null queue and on a queue of at most one element. -/
theorem c9_sort_of_sorted_is_noop (hp : Heap) (h : Ptr) (xs : List Ptr) (fuel : Nat)
    (hq : IsQueue hp h xs) (hf : xs.length + 1 ≤ fuel) :
    ((∀ x ∈ xs, CStr (hp.value x)) → (values hp xs).Chain' (fun a b => strcmp a b ≤ 0) →
      q_sort fuel hp (some h) = some hp) ∧
    ((∀ x ∈ xs, CStr (hp.value x)) →
      ∃ hp', q_sort fuel hp (some h) = some hp' ∧ q_sort fuel hp' (some h) = some hp') ∧
    q_sort fuel hp none = some hp ∧
    (xs.length ≤ 1 → q_sort fuel hp (some h) = some hp) := by
  refine ⟨?_, ?_, rfl, ?_⟩
  · intro hs hc
    exact q_sort_noop hq hf (sorted_not_lt hs (chain_values.1 hc))
  · intro hs
    obtain ⟨hp', r1, r2, r3, _, _⟩ := q_sort_queue hq hf
    have hp := sortSeq_perm hp.value xs
    refine ⟨hp', r1, q_sort_noop r2 (by rw [hp.length_eq]; exact hf) ?_⟩
    rw [r3]
    exact sorted_not_lt (fun a ha => hs a (hp.mem_iff.1 ha)) (sortSeq_chain _ xs)
  · intro hl
    refine q_sort_noop hq hf ?_
    cases xs with
    | nil => exact List.Pairwise.nil
    | cons x t =>
      cases t with
      | nil => exact List.pairwise_singleton _ _
      | cons y t => simp at hl

theorem sortedHeap_sorted :
    (values sortedHeap [1, 2, 3]).Chain' (fun a b => strcmp a b ≤ 0) := by
  simp [values, sortedHeap, strcmp]

/-- C9 at the sorted queue "a", "a", "b". -/
theorem c9_sort_of_sorted_is_noop_witness :
    (IsQueue sortedHeap 0 [1, 2, 3] ∧ [1, 2, 3].length + 1 ≤ 5 ∧
      (∀ x ∈ [1, 2, 3], CStr (sortedHeap.value x)) ∧
      (values sortedHeap [1, 2, 3]).Chain' (fun a b => strcmp a b ≤ 0)) ∧
    q_sort 5 sortedHeap (some 0) = some sortedHeap :=
  ⟨⟨sortedHeap_isQueue, by decide, by decide, sortedHeap_sorted⟩,
    (c9_sort_of_sorted_is_noop sortedHeap 0 [1, 2, 3] 5 sortedHeap_isQueue (by decide)).1
      (by decide) sortedHeap_sorted⟩

theorem q_delete_dup_nil {hp : Heap} {h : Ptr} (hq : IsQueue hp h []) {fuel : Nat}
    (hf : 1 ≤ fuel) : q_delete_dup fuel hp (some h) = some (hp, true) := by
  obtain ⟨k, rfl⟩ : ∃ k, fuel = k + 1 := ⟨fuel - 1, by omega⟩
  have h1 : hp.next h = h := IsQueue.next_head hq
  simp [q_delete_dup, q_delete_dup_with, q_delete_dup_loop, h1]

/-- C10. On a queue of C strings sorted in ascending order `q_delete_dup` returns true
and leaves, in their order, exactly the elements whose string occurs once in the
queue: no member of a run of equal strings survives. On an empty queue it returns
true and changes nothing, on a null queue it returns false. So "a", "a", "b"
becomes "b". -/
theorem c10_delete_dup_keeps_unique_values (hp : Heap) (h : Ptr) (xs : List Ptr) (fuel : Nat)
    (hq : IsQueue hp h xs) (hf : xs.length + 1 ≤ fuel) :
    ((∀ x ∈ xs, CStr (hp.value x)) → (values hp xs).Chain' (fun a b => strcmp a b ≤ 0) →
      ∃ hp', q_delete_dup fuel hp (some h) = some (hp', true) ∧
        IsQueue hp' h (xs.filter (fun x => decide ((values hp xs).count (hp.value x) = 1))) ∧
        hp'.value = hp.value) ∧
    (xs = [] → q_delete_dup fuel hp (some h) = some (hp, true)) ∧
    q_delete_dup fuel hp none = some (hp, false) ∧
    (q_delete_dup 5 sortedHeap (some 0)).bind (fun r => readValues 5 r.1 0) = some [[98]] := by
  refine ⟨?_, ?_, rfl, by decide!⟩
  · intro hs hc
    obtain ⟨hp', r1, r2, r3, _⟩ := @q_delete_dup_with_spec strcmp hp h xs hq fuel hf
    refine ⟨hp', r1, ?_, r3⟩
    have := dropRuns_sorted xs [] false (by simpa using hs)
      (by simpa using sorted_of_chain hs (chain_values.1 hc))
      (by intro e _; simp)
    rw [this] at r2
    simpa [values] using r2
  · intro he
    subst he
    exact q_delete_dup_nil hq (by omega)

/-- C10 at the sorted queue "a", "a", "b". -/
theorem c10_delete_dup_keeps_unique_values_witness :
    (IsQueue sortedHeap 0 [1, 2, 3] ∧ [1, 2, 3].length + 1 ≤ 5 ∧
      (∀ x ∈ [1, 2, 3], CStr (sortedHeap.value x)) ∧
      (values sortedHeap [1, 2, 3]).Chain' (fun a b => strcmp a b ≤ 0)) ∧
    ∃ hp', q_delete_dup 5 sortedHeap (some 0) = some (hp', true) ∧
      IsQueue hp' 0 ([1, 2, 3].filter
        (fun x => decide ((values sortedHeap [1, 2, 3]).count (sortedHeap.value x) = 1))) ∧
      hp'.value = sortedHeap.value :=
  ⟨⟨sortedHeap_isQueue, by decide, by decide, sortedHeap_sorted⟩,
    (c10_delete_dup_keeps_unique_values sortedHeap 0 [1, 2, 3] 5 sortedHeap_isQueue
      (by decide)).1 (by decide) sortedHeap_sorted⟩

/-- C11. On a queue of `n ≥ 1` elements `q_delete_mid` returns true, unlinks and
releases the element at index ⌊n/2⌋ from the head and leaves the others in their
order; on an empty and on a null queue it returns false and changes nothing. So
"a", "b", "c", "d" loses "c", and "a", "b", "d" then loses "b". -/
theorem c11_delete_mid_removes_middle (hp : Heap) (h : Ptr) (xs : List Ptr) (fuel : Nat)
    (hq : IsQueue hp h xs) (hf : xs.length ≤ fuel) :
    (xs ≠ [] → ∃ hp', q_delete_mid fuel hp (some h) = some (hp', true) ∧
      IsQueue hp' h (xs.eraseIdx (xs.length / 2)) ∧ hp'.value = hp.value ∧
      hp'.alloc (xs.getD (xs.length / 2) h) = false ∧
      hp'.salloc (xs.getD (xs.length / 2) h) = false) ∧
    (xs = [] → q_delete_mid fuel hp (some h) = some (hp, false)) ∧
    q_delete_mid fuel hp none = some (hp, false) ∧
    (q_delete_mid 5 fourHeap (some 0)).bind (fun r => readValues 5 r.1 0) =
      some [[97], [98], [100]] ∧
    ((q_delete_mid 5 fourHeap (some 0)).bind (fun r => q_delete_mid 5 r.1 (some 0))).bind
      (fun r => readValues 5 r.1 0) = some [[97], [100]] := by
  refine ⟨?_, ?_, rfl, by decide!, by decide!⟩
  · intro hne
    obtain ⟨hp', r1, r2, r3, r4, r5⟩ := q_delete_mid_queue hq hne hf
    exact ⟨hp', r1, r2, r3, by rw [r4]; simp, by rw [r5]; simp⟩
  · intro he
    subst he
    exact q_delete_mid_nil hq fuel

/-- C11 at the queue "b", "a", "a". -/
theorem c11_delete_mid_removes_middle_witness :
    (IsQueue demoHeap 0 [1, 2, 3] ∧ [1, 2, 3].length ≤ 5) ∧
    ∃ hp', q_delete_mid 5 demoHeap (some 0) = some (hp', true) ∧
      IsQueue hp' 0 ([1, 2, 3].eraseIdx ([1, 2, 3].length / 2)) ∧ hp'.value = demoHeap.value ∧
      hp'.alloc ([1, 2, 3].getD ([1, 2, 3].length / 2) 0) = false ∧
      hp'.salloc ([1, 2, 3].getD ([1, 2, 3].length / 2) 0) = false :=
  ⟨⟨demoHeap_isQueue, by decide⟩,
    (c11_delete_mid_removes_middle demoHeap 0 [1, 2, 3] 5 demoHeap_isQueue (by decide)).1
      (by decide)⟩

theorem swapPairs_length (l : List Ptr) : (swapPairs l).length = l.length :=
  (swapPairs_perm l).length_eq

/-- The elements at the positions 2i and 2i+1 of a complete pair are exchanged. -/
theorem swapPairs_pair : ∀ (i : Nat) (l : List Ptr), 2 * i + 1 < l.length →
    (swapPairs l)[2 * i]? = l[2 * i + 1]? ∧ (swapPairs l)[2 * i + 1]? = l[2 * i]?
  | _, [], hl => by simp at hl
  | _, [_], hl => by simp at hl
  | 0, a :: b :: t, _ => by simp [swapPairs]
  | i + 1, a :: b :: t, hl => by
    have ih := swapPairs_pair i t (by simp at hl; omega)
    have e1 : 2 * (i + 1) = 2 * i + 1 + 1 := by omega
    have e2 : 2 * (i + 1) + 1 = 2 * i + 1 + 1 + 1 := by omega
    rw [e2, e1]
    simp only [swapPairs, List.getElem?_cons_succ]
    exact ih

/-- The last element of a sequence of odd length stays last. -/
theorem swapPairs_odd_last : ∀ (l : List Ptr), l.length % 2 = 1 →
    (swapPairs l)[l.length - 1]? = l[l.length - 1]?
  | [], hl => by simp at hl
  | [_], _ => by simp [swapPairs]
  | a :: b :: t, hl => by
    have ht : t.length % 2 = 1 := by simp at hl; omega
    have ih := swapPairs_odd_last t ht
    have e : (a :: b :: t).length - 1 = (t.length - 1) + 1 + 1 := by
      simp; omega
    rw [e]
    simp only [swapPairs, List.getElem?_cons_succ]
    exact ih

/-- C12. On a queue holding x0, x1, ..., x(n-1) the function `q_swap` leaves x1, x0,
x3, x2, ...: the elements at the positions 2i and 2i+1 of every complete pair are
exchanged, and the last element of a queue of odd length stays last. The elements are
the same ones, with their strings and their storage untouched. So "a", "b", "c"
becomes "b", "a", "c". -/
theorem c12_swap_exchanges_pairs (hp : Heap) (h : Ptr) (xs : List Ptr) (fuel : Nat)
    (hq : IsQueue hp h xs) (hf : xs.length + 1 ≤ fuel) :
    (∃ hp' ys, q_swap fuel hp (some h) = Res.ok hp' ∧ IsQueue hp' h ys ∧
      ys.length = xs.length ∧
      (∀ i, 2 * i + 1 < xs.length → ys[2 * i]? = xs[2 * i + 1]? ∧ ys[2 * i + 1]? = xs[2 * i]?) ∧
      (xs.length % 2 = 1 → ys[xs.length - 1]? = xs[xs.length - 1]?) ∧
      ys.Perm xs ∧ hp'.value = hp.value ∧ hp'.alloc = hp.alloc ∧ hp'.salloc = hp.salloc) ∧
    (match q_swap 5 threeHeap (some 0) with
      | Res.ok hp' => readValues 5 hp' 0
      | _ => none) = some [[98], [97], [99]] := by
  refine ⟨?_, by decide!⟩
  obtain ⟨hp', r1, r2, r3, r4, r5⟩ := q_swap_queue hq hf
  exact ⟨hp', swapPairs xs, r1, r2, swapPairs_length xs, fun i hi => swapPairs_pair i xs hi,
    swapPairs_odd_last xs, swapPairs_perm xs, r3, r4, r5⟩

/-- C12 at the queue "b", "a", "a". -/
theorem c12_swap_exchanges_pairs_witness :
    (IsQueue demoHeap 0 [1, 2, 3] ∧ [1, 2, 3].length + 1 ≤ 5) ∧
    ∃ hp' ys, q_swap 5 demoHeap (some 0) = Res.ok hp' ∧ IsQueue hp' 0 ys ∧
      ys.length = [1, 2, 3].length ∧
      (∀ i, 2 * i + 1 < [1, 2, 3].length →
        ys[2 * i]? = [1, 2, 3][2 * i + 1]? ∧ ys[2 * i + 1]? = [1, 2, 3][2 * i]?) ∧
      ([1, 2, 3].length % 2 = 1 → ys[[1, 2, 3].length - 1]? = [1, 2, 3][[1, 2, 3].length - 1]?) ∧
      ys.Perm [1, 2, 3] ∧ hp'.value = demoHeap.value ∧ hp'.alloc = demoHeap.alloc ∧
      hp'.salloc = demoHeap.salloc :=
  ⟨⟨demoHeap_isQueue, by decide⟩,
    (c12_swap_exchanges_pairs demoHeap 0 [1, 2, 3] 5 demoHeap_isQueue (by decide)).1⟩

theorem heap_eq {a b : Heap} (h1 : a.next = b.next) (h2 : a.prev = b.prev)
    (h3 : a.value = b.value) (h4 : a.alloc = b.alloc) (h5 : a.salloc = b.salloc) : a = b := by
  cases a; cases b; simp_all

/-- C13. On a queue holding the sequence L the function `q_reverse` leaves L reversed,
made of the very same elements with their strings and their storage untouched; a queue
of at most one element is returned as it was, and so is the heap for a null queue. -/
theorem c13_reverse_reverses (hp : Heap) (h : Ptr) (xs : List Ptr) (fuel : Nat)
    (hq : IsQueue hp h xs) (hf : xs.length + 1 ≤ fuel) :
    (∃ hp', q_reverse fuel hp (some h) = some hp' ∧ IsQueue hp' h xs.reverse ∧
      readValues fuel hp' h = some (values hp xs).reverse ∧
      hp'.value = hp.value ∧ hp'.alloc = hp.alloc ∧ hp'.salloc = hp.salloc) ∧
    (xs.length ≤ 1 → q_reverse fuel hp (some h) = some hp) ∧
    q_reverse fuel hp none = some hp := by
  obtain ⟨hp', r1, r2, r3, r4, r5, r6, r7⟩ := q_reverse_queue hq hf
  refine ⟨⟨hp', r1, r2, ?_, r5, r6, r7⟩, ?_, rfl⟩
  · rw [readValues_queue r2 (by simpa using hf)]
    simp [values, r5]
  · intro hl
    rw [r1]
    congr 1
    have key : ∀ n ∈ h :: xs, hp.prev n = hp.next n := by
      cases xs with
      | nil =>
        intro n hn
        simp at hn; subst hn
        rw [IsQueue.next_head hq, IsQueue.prev_head hq]; rfl
      | cons x t =>
        cases t with
        | cons y t => simp at hl
        | nil =>
          have h1 : hp.next h = x := IsQueue.next_head hq
          have h2 : hp.prev h = x := IsQueue.prev_head hq
          have h3 : hp.next x = h := IsQueue.next_mid (P := []) (Q := []) hq
          have h4 : hp.prev x = h := IsQueue.prev_mid (P := []) (Q := []) hq
          intro n hn
          simp at hn
          rcases hn with rfl | rfl
          · rw [h1, h2]
          · rw [h3, h4]
    refine heap_eq ?_ ?_ r5 r6 r7
    · funext n
      rw [r3]
      split
      · rename_i hn; exact key n hn
      · rfl
    · funext n
      rw [r4]
      split
      · rename_i hn; exact (key n hn).symm
      · rfl

/-- C13 at the queue "b", "a", "a". -/
theorem c13_reverse_reverses_witness :
    (IsQueue demoHeap 0 [1, 2, 3] ∧ [1, 2, 3].length + 1 ≤ 5) ∧
    ∃ hp', q_reverse 5 demoHeap (some 0) = some hp' ∧ IsQueue hp' 0 [1, 2, 3].reverse ∧
      readValues 5 hp' 0 = some (values demoHeap [1, 2, 3]).reverse ∧
      hp'.value = demoHeap.value ∧ hp'.alloc = demoHeap.alloc ∧ hp'.salloc = demoHeap.salloc :=
  ⟨⟨demoHeap_isQueue, by decide⟩,
    (c13_reverse_reverses demoHeap 0 [1, 2, 3] 5 demoHeap_isQueue (by decide)).1⟩

/-- C14. The function `q_reverse` is an involution: applied twice to a queue it returns
the heap it started from, so every node has again the `next` and `prev` links it had and
the elements are in their original order. -/
theorem c14_reverse_involution (hp : Heap) (h : Ptr) (xs : List Ptr) (fuel : Nat)
    (hq : IsQueue hp h xs) (hf : xs.length + 1 ≤ fuel) :
    ∃ hp1, q_reverse fuel hp (some h) = some hp1 ∧ q_reverse fuel hp1 (some h) = some hp ∧
      walkNext fuel hp h = some xs := by
  obtain ⟨hp1, r1, r2, r3, r4, r5, r6, r7⟩ := q_reverse_queue hq hf
  obtain ⟨hp2, s1, _, s3, s4, s5, s6, s7⟩ := q_reverse_queue r2
    (show xs.reverse.length + 1 ≤ fuel by simpa using hf)
  refine ⟨hp1, r1, ?_, IsQueue.walkNext hq hf⟩
  rw [s1]
  congr 1
  have hm : ∀ n, n ∈ h :: xs.reverse ↔ n ∈ h :: xs := by
    intro n; simp
  refine heap_eq ?_ ?_ (s5.trans r5) (s6.trans r6) (s7.trans r7)
  · funext n
    rw [s3, r3, r4]
    by_cases hn : n ∈ h :: xs
    · rw [if_pos ((hm n).2 hn), if_pos hn]
    · rw [if_neg (fun e => hn ((hm n).1 e)), if_neg hn]
  · funext n
    rw [s4, r3, r4]
    by_cases hn : n ∈ h :: xs
    · rw [if_pos ((hm n).2 hn), if_pos hn]
    · rw [if_neg (fun e => hn ((hm n).1 e)), if_neg hn]

/-- C14 at the queue "b", "a", "a". -/
theorem c14_reverse_involution_witness :
    (IsQueue demoHeap 0 [1, 2, 3] ∧ [1, 2, 3].length + 1 ≤ 5) ∧
    ∃ hp1, q_reverse 5 demoHeap (some 0) = some hp1 ∧
      q_reverse 5 hp1 (some 0) = some demoHeap ∧ walkNext 5 demoHeap 0 = some [1, 2, 3] :=
  ⟨⟨demoHeap_isQueue, by decide⟩,
    c14_reverse_involution demoHeap 0 [1, 2, 3] 5 demoHeap_isQueue (by decide)⟩

/-- C15. Given a null queue handle `q_swap` does not return normally: it reads
`head->next` through the null pointer. On an empty and on a one-element queue it
returns the heap unchanged. -/
theorem c15_swap_faults_on_null (fuel : Nat) (hp : Heap) :
    q_swap fuel hp none = Res.nullDeref ∧
    (∀ h xs, IsQueue hp h xs → xs.length ≤ 1 → 1 ≤ fuel →
      q_swap fuel hp (some h) = Res.ok hp) := by
  refine ⟨rfl, ?_⟩
  intro h xs hq hl hf
  obtain ⟨k, rfl⟩ : ∃ k, fuel = k + 1 := ⟨fuel - 1, by omega⟩
  cases xs with
  | nil =>
    have h1 : hp.next h = h := IsQueue.next_head hq
    simp [q_swap, q_swap_loop, h1]
  | cons x t =>
    cases t with
    | cons y t => simp at hl
    | nil =>
      have h1 : hp.next h = x := IsQueue.next_head hq
      have h3 : hp.next x = h := IsQueue.next_mid (P := []) (Q := []) hq
      simp [q_swap, q_swap_loop, h1, h3]

/-- C16. Each insert function returns false exactly when the queue handle is null,
`malloc` fails or `strdup` fails. In every such case the links, the strings and the
queue are what they were, and allocation is what it was except that the element
`malloc` returned, if any, is released; when `malloc` handed out unallocated storage
the whole heap is as before the call. -/
theorem c16_insert_failure_leaves_queue (hp : Heap) (head : Option Ptr) (s : Str)
    (m : Option Ptr) (dup : Bool) :
    ((q_insert_head hp head s m dup).2 = false ↔ head = none ∨ m = none ∨ dup = false) ∧
    ((q_insert_tail hp head s m dup).2 = false ↔ head = none ∨ m = none ∨ dup = false) ∧
    ((head = none ∨ m = none ∨ dup = false) →
      q_insert_tail hp head s m dup = q_insert_head hp head s m dup ∧
      (q_insert_head hp head s m dup).1.next = hp.next ∧
      (q_insert_head hp head s m dup).1.prev = hp.prev ∧
      (q_insert_head hp head s m dup).1.value = hp.value ∧
      (q_insert_head hp head s m dup).1.salloc = hp.salloc ∧
      (∀ h xs, IsQueue hp h xs → IsQueue (q_insert_head hp head s m dup).1 h xs) ∧
      (∀ p, m ≠ some p → (q_insert_head hp head s m dup).1.alloc p = hp.alloc p) ∧
      (∀ e, head ≠ none → m = some e → (q_insert_head hp head s m dup).1.alloc e = false) ∧
      ((∀ e, m = some e → hp.alloc e = false) → (q_insert_head hp head s m dup).1 = hp)) := by
  refine ⟨?_, ?_, ?_⟩
  · cases head <;> cases m <;> cases dup <;> simp [q_insert_head]
  · cases head <;> cases m <;> cases dup <;> simp [q_insert_tail]
  · intro hfail
    have hcase : q_insert_head hp head s m dup = (hp, false) ∨
        ∃ h e, head = some h ∧ m = some e ∧ dup = false ∧
          q_insert_head hp head s m dup = (freeAt (mallocAt hp e) e, false) := by
      cases head with
      | none => exact Or.inl rfl
      | some h =>
        cases m with
        | none => exact Or.inl rfl
        | some e =>
          cases dup with
          | false => exact Or.inr ⟨h, e, rfl, rfl, rfl, rfl⟩
          | true => simp at hfail
    have htail : q_insert_tail hp head s m dup = q_insert_head hp head s m dup := by
      cases head with
      | none => rfl
      | some h =>
        cases m with
        | none => rfl
        | some e =>
          cases dup with
          | false => rfl
          | true => simp at hfail
    refine ⟨htail, ?_⟩
    rcases hcase with e0 | ⟨h, e, rfl, rfl, rfl, e0⟩
    · rw [e0]
      refine ⟨rfl, rfl, rfl, rfl, fun _ _ hq => hq, fun _ _ => rfl, ?_, fun _ => rfl⟩
      intro e hh hm
      cases head with
      | none => exact absurd rfl hh
      | some h =>
        subst hm
        cases dup with
        | false =>
          simp only [q_insert_head, Bool.false_eq_true, if_false, Prod.mk.injEq,
            and_true] at e0
          have := congrArg (fun x => x.alloc e) e0
          simpa [freeAt, mallocAt] using this.symm
        | true => simp [q_insert_head] at e0
    · rw [e0]
      refine ⟨rfl, rfl, rfl, rfl, fun _ _ hq => IsQueue.congr hq rfl rfl, ?_, ?_, ?_⟩
      · intro p hp'
        have : p ≠ e := fun e' => hp' (by rw [e'])
        simp [freeAt, mallocAt, Function.update_noteq this]
      · intro e' _ he'
        cases he'
        simp [freeAt, mallocAt]
      · intro hfresh
        have he := hfresh e rfl
        refine heap_eq rfl rfl rfl ?_ rfl
        funext p
        by_cases hp' : p = e
        · subst hp'; simp [freeAt, mallocAt, he]
        · simp [freeAt, mallocAt, Function.update_noteq hp']

/-- C17, as amended. For every capacity `1 ≤ c < 2^64` the byte count `c - 1` passed to
`strncpy` and the index `c - 1` of the terminating zero byte, both computed in `size_t`
arithmetic, are below `c`; on a non-empty queue both remove functions leave the buffer
with the string copied into the indices below `c - 1`, a zero byte at `c - 1` and
every byte from index `c` on as it was. -/
theorem c17_remove_writes_inside_buffer (hp : Heap) (h x : Ptr) (xs : List Ptr) (buf : Buf)
    (c : Nat) (hc1 : 1 ≤ c) (hc2 : c < 2 ^ 64) :
    size_sub_one c = c - 1 ∧ size_sub_one c < c ∧
    (IsQueue hp h (x :: xs) → ∃ b, (q_remove_head hp (some h) (some buf) c).2.2 = some b ∧
      b = Function.update (strncpy buf (hp.value x) (c - 1)) (c - 1) 0 ∧
      b (c - 1) = 0 ∧ ∀ i, c ≤ i → b i = buf i) ∧
    (IsQueue hp h (xs ++ [x]) → ∃ b, (q_remove_tail hp (some h) (some buf) c).2.2 = some b ∧
      b = Function.update (strncpy buf (hp.value x) (c - 1)) (c - 1) 0 ∧
      b (c - 1) = 0 ∧ ∀ i, c ≤ i → b i = buf i) := by
  have hs := size_sub_one_eq hc1 hc2
  have hw : ∀ i, c ≤ i →
      Function.update (strncpy buf (hp.value x) (c - 1)) (c - 1) 0 i = buf i := by
    intro i hi
    rw [Function.update_noteq (by omega)]
    have : ¬ i < c - 1 := by omega
    simp [strncpy, this]
  refine ⟨hs, by omega, ?_, ?_⟩
  · intro hq
    rw [(q_remove_head_queue (some buf) c hq).1]
    exact ⟨_, by simp [copy_out, hs], rfl, by simp, hw⟩
  · intro hq
    rw [(q_remove_tail_queue (some buf) c hq).1]
    exact ⟨_, by simp [copy_out, hs], rfl, by simp, hw⟩

/-- C17 at the queue "b", "a", "a", a buffer of capacity 2 and `q_remove_head`. -/
theorem c17_remove_writes_inside_buffer_witness :
    (1 ≤ 2 ∧ 2 < 2 ^ 64 ∧ IsQueue demoHeap 0 (1 :: [2, 3])) ∧
    size_sub_one 2 < 2 ∧
    ∃ b, (q_remove_head demoHeap (some 0) (some (fun _ => 7)) 2).2.2 = some b ∧
      b = Function.update (strncpy (fun _ => 7) (demoHeap.value 1) (2 - 1)) (2 - 1) 0 ∧
      b (2 - 1) = 0 ∧ ∀ i, 2 ≤ i → b i = (fun _ => 7) i :=
  ⟨⟨by decide, by decide, demoHeap_isQueue⟩,
    (c17_remove_writes_inside_buffer demoHeap 0 1 [2, 3] (fun _ => 7) 2 (by decide)
      (by decide)).2.1,
    (c17_remove_writes_inside_buffer demoHeap 0 1 [2, 3] (fun _ => 7) 2 (by decide)
      (by decide)).2.2.1 demoHeap_isQueue⟩

/-- C17 fails as stated at capacity 0: `bufsize - 1` is then 2^64 - 1, which is not
below 0, and `q_remove_head` on the queue "b", "a", "a" with a buffer filled with the
byte 7 writes 'b' at index 0, a padding zero at index 1 and the terminating zero at
index 2^64 - 1, all outside a buffer of capacity 0. -/
theorem c17_capacity_zero_writes_outside :
    IsQueue demoHeap 0 (1 :: [2, 3]) ∧ size_sub_one 0 = 2 ^ 64 - 1 ∧ ¬ size_sub_one 0 < 0 ∧
    ∃ b, (q_remove_head demoHeap (some 0) (some (fun _ => 7)) 0).2.2 = some b ∧
      b 0 = 98 ∧ b 1 = 0 ∧ b (2 ^ 64 - 1) = 0 := by
  refine ⟨demoHeap_isQueue, by decide, by decide, ?_⟩
  rw [(q_remove_head_queue (some (fun _ => 7)) 0 demoHeap_isQueue).1]
  have hs : size_sub_one 0 = 18446744073709551615 := by decide
  refine ⟨Function.update (strncpy (fun _ => 7) (demoHeap.value 1) (size_sub_one 0))
    (size_sub_one 0) 0, rfl, ?_, ?_, ?_⟩
  · rw [hs, Function.update_noteq (by decide)]
    simp [strncpy, demoHeap]
  · rw [hs, Function.update_noteq (by decide)]
    simp [strncpy, demoHeap]
  · rw [hs]
    simp

theorem insertBefore_split (val : Ptr → Str) (x y : Ptr) (Q : List Ptr) : ∀ (P : List Ptr),
    (∀ z ∈ P, ¬ strcmp (val x) (val z) < 0) → strcmp (val x) (val y) < 0 →
    insertBefore val x (P ++ y :: Q) = P ++ x :: y :: Q
  | [], _, hy => by simp [insertBefore, hy]
  | z :: P, hP, hy => by
    have hz := hP z (by simp)
    have ih := insertBefore_split val x y Q P (fun w hw => hP w (List.mem_cons_of_mem _ hw)) hy
    simp [insertBefore, hz, ih]

/-- C18, as amended. In one step of the outer loop of `q_sort`, which is one run of the
inner loop from the head, the first element `x` of the unsorted remainder is relocated
to the position immediately preceding the first element of the part before it that
`x` is less than; if that part has no such element, nothing is written and `x` stays
where it is. -/
theorem c18_sort_step_places_before_first_greater (hp : Heap) (h x : Ptr)
    (done rest : List Ptr) (fuel : Nat) (hq : IsQueue hp h (done ++ x :: rest))
    (hf : done.length + 1 ≤ fuel) :
    ∃ hp1, q_sort_inner x fuel hp (hp.next h) = some hp1 ∧ hp1.value = hp.value ∧
      (∀ P y Q, done = P ++ y :: Q → (∀ z ∈ P, ¬ strcmp (hp.value x) (hp.value z) < 0) →
        strcmp (hp.value x) (hp.value y) < 0 → IsQueue hp1 h (P ++ x :: y :: Q ++ rest)) ∧
      ((∀ y ∈ done, ¬ strcmp (hp.value x) (hp.value y) < 0) → hp1 = hp) := by
  have hj : hp.next h = (done ++ [x]).headD h := by
    rw [IsQueue.next_head hq]; cases done <;> simp
  obtain ⟨hp1, e1, e2, e3, _, _⟩ := q_sort_inner_queue (h := h) (x := x) done [] rest hp fuel
    (by simpa using hq) hf
  rw [← hj] at e1
  refine ⟨hp1, e1, e3, ?_, ?_⟩
  · intro P y Q hd hP hy
    have := insertBefore_split hp.value x y Q P hP hy
    rw [hd, this] at e2
    simpa using e2
  · intro hn
    have e4 := q_sort_inner_noop (h := h) (x := x) done [] rest hp fuel (by simpa using hq) hf hn
    rw [← hj, e1] at e4
    exact Option.some.inj e4

/-- C18 at the queue "b", "a", "a" with "b" before the element "a" being placed. -/
theorem c18_sort_step_places_before_first_greater_witness :
    (IsQueue demoHeap 0 ([1] ++ 2 :: [3]) ∧ [1].length + 1 ≤ 5) ∧
    ∃ hp1, q_sort_inner 2 5 demoHeap (demoHeap.next 0) = some hp1 ∧
      hp1.value = demoHeap.value ∧ IsQueue hp1 0 ([] ++ 2 :: 1 :: [] ++ [3]) := by
  obtain ⟨hp1, h1, h2, h3, _⟩ :=
    c18_sort_step_places_before_first_greater demoHeap 0 2 [1] [3] 5 demoHeap_isQueue
      (by decide)
  exact ⟨⟨demoHeap_isQueue, by decide⟩, hp1, h1, h2,
    h3 [] 1 [] rfl (by simp) (by decide)⟩

/-- C18 fails as stated. On "b", "a", "a" the step for the element 2 ("a") relocates it
before "b", the first element it is less than, where the wording "not less than", there
being no element that "a" is not less than, has it stay; on "a", "a", "b" the step for
the element 3 ("b") leaves it in place, where that wording has it relocated before the
first "a". -/
theorem c18_not_before_first_not_less :
    (q_sort_inner 2 5 demoHeap (demoHeap.next 0)).bind (fun hp1 => walkNext 5 hp1 0) =
      some [2, 1, 3] ∧
    insertBeforeNotLess demoHeap.value 2 [1] ++ [3] = [1, 2, 3] ∧
    (q_sort_inner 3 5 sortedHeap (sortedHeap.next 0)).bind (fun hp1 => walkNext 5 hp1 0) =
      some [1, 2, 3] ∧
    insertBeforeNotLess sortedHeap.value 3 [1, 2] ++ [] = [3, 1, 2] ∧
    (q_sort_inner 2 5 demoHeap (demoHeap.next 0)).bind (fun hp1 => walkNext 5 hp1 0) ≠
      some (insertBeforeNotLess demoHeap.value 2 [1] ++ [3]) ∧
    (q_sort_inner 3 5 sortedHeap (sortedHeap.next 0)).bind (fun hp1 => walkNext 5 hp1 0) ≠
      some (insertBeforeNotLess sortedHeap.value 3 [1, 2] ++ []) := by
  refine ⟨by decide!, by decide, by decide!, by decide, by decide!, by decide!⟩

theorem dropRuns_congr {f g : Ptr → Ptr → Bool} : ∀ (flag : Bool) (l : List Ptr),
    (∀ a ∈ l, ∀ b ∈ l, f a b = g a b) → dropRuns f flag l = dropRuns g flag l
  | _, [], _ => by simp [dropRuns]
  | _, [_], _ => by simp [dropRuns]
  | flag, e :: s :: rest, hfg => by
    have h1 := hfg e (by simp) s (by simp)
    have hrest : ∀ a ∈ s :: rest, ∀ b ∈ s :: rest, f a b = g a b :=
      fun a ha b hb => hfg a (List.mem_cons_of_mem _ ha) b (List.mem_cons_of_mem _ hb)
    rw [dropRuns, dropRuns, h1, dropRuns_congr true (s :: rest) hrest,
      dropRuns_congr false (s :: rest) hrest]

theorem dup_test_min : dup_test (-2 ^ 31) = true := by decide

/-- C19. The test `!(c & 0x7fffffff) || !c` of `q_delete_dup` on a 32-bit `int` c other
than -2^31 holds exactly when c = 0, and so does its masked half alone; at c = -2^31 it
holds although c is not 0. Hence with a comparator whose results lie strictly between
-2^31 and 2^31 and are 0 exactly for equal strings, as `strcmp` on C strings,
`q_delete_dup` takes two elements for duplicates exactly when their strings are equal. -/
theorem c19_dup_test_is_zero_test :
    (∀ c : Int, -2 ^ 31 ≤ c → c < 2 ^ 31 → c ≠ -2 ^ 31 →
      ((dup_test c = true ↔ c = 0) ∧ (((c % 2 ^ 32).toNat &&& 0x7fffffff) = 0 ↔ c = 0))) ∧
    (dup_test (-2 ^ 31) = true ∧ (-2 ^ 31 : Int) ≠ 0) ∧
    (∀ (cmp : Str → Str → Int) (hp : Heap) (h : Ptr) (xs : List Ptr) (fuel : Nat),
      IsQueue hp h xs → xs.length + 1 ≤ fuel →
      (∀ a ∈ xs, ∀ b ∈ xs, -2 ^ 31 < cmp (hp.value a) (hp.value b) ∧
        cmp (hp.value a) (hp.value b) < 2 ^ 31 ∧
        (cmp (hp.value a) (hp.value b) = 0 ↔ hp.value a = hp.value b)) →
      (∀ a ∈ xs, ∀ b ∈ xs, dupEq cmp hp.value a b = decide (hp.value a = hp.value b)) ∧
      ∃ hp', q_delete_dup_with cmp fuel hp (some h) = some (hp', true) ∧
        IsQueue hp' h (dropRuns (fun a b => decide (hp.value a = hp.value b)) false xs)) ∧
    (∀ a b : Str, CStr a → CStr b →
      -2 ^ 31 < strcmp a b ∧ strcmp a b < 2 ^ 31 ∧ (strcmp a b = 0 ↔ a = b)) := by
  refine ⟨?_, ⟨dup_test_min, by norm_num⟩, ?_, ?_⟩
  · intro c h1 h2 h3
    have h4 : -2 ^ 31 < c := lt_of_le_of_ne h1 (Ne.symm h3)
    refine ⟨dup_test_iff h4 h2, ?_⟩
    have hm : (0x7fffffff : Nat) = 2 ^ 31 - 1 := by norm_num
    rw [hm, Nat.and_pow_two_sub_one_eq_mod]
    omega
  · intro cmp hp h xs fuel hq hf hc
    have heq : ∀ a ∈ xs, ∀ b ∈ xs, dupEq cmp hp.value a b = decide (hp.value a = hp.value b) := by
      intro a ha b hb
      obtain ⟨c1, c2, c3⟩ := hc a ha b hb
      have := dup_test_iff c1 c2
      unfold dupEq
      by_cases e : hp.value a = hp.value b
      · rw [decide_eq_true e]
        exact this.2 (c3.2 e)
      · rw [decide_eq_false e]
        cases hd : dup_test (cmp (hp.value a) (hp.value b)) with
        | false => rfl
        | true => exact absurd (c3.1 (this.1 hd)) e
    refine ⟨heq, ?_⟩
    obtain ⟨hp', r1, r2, _, _⟩ := @q_delete_dup_with_spec cmp hp h xs hq fuel hf
    exact ⟨hp', r1, by rw [← dropRuns_congr false xs heq]; exact r2⟩
  · intro a b ha hb
    have hr := strcmp_range ha hb
    refine ⟨by omega, by omega, ?_⟩
    constructor
    · exact strcmp_eq_zero ha hb
    · intro e; subst e; exact strcmp_self a

/-- C19 at the comparator `strcmp` and the queue "a", "a", "b". -/
theorem c19_dup_test_is_zero_test_witness :
    (IsQueue sortedHeap 0 [1, 2, 3] ∧ [1, 2, 3].length + 1 ≤ 5 ∧
      ∀ x ∈ [1, 2, 3], CStr (sortedHeap.value x)) ∧
    (∀ a ∈ [1, 2, 3], ∀ b ∈ [1, 2, 3],
      dupEq strcmp sortedHeap.value a b = decide (sortedHeap.value a = sortedHeap.value b)) ∧
    ∃ hp', q_delete_dup_with strcmp 5 sortedHeap (some 0) = some (hp', true) ∧
      IsQueue hp' 0
        (dropRuns (fun a b => decide (sortedHeap.value a = sortedHeap.value b)) false [1, 2, 3]) :=
  have hs : ∀ x ∈ [1, 2, 3], CStr (sortedHeap.value x) := by decide
  ⟨⟨sortedHeap_isQueue, by decide, hs⟩,
    c19_dup_test_is_zero_test.2.2.1 strcmp sortedHeap 0 [1, 2, 3] 5 sortedHeap_isQueue
      (by decide)
      (fun a ha b hb => c19_dup_test_is_zero_test.2.2.2 _ _ (hs a ha) (hs b hb))⟩

theorem dropRuns_cons_mem {eq : Ptr → Ptr → Bool} {x e s : Ptr} {rest : List Ptr} (flag : Bool)
    (hx : x ≠ e) :
    x ∈ dropRuns eq flag (e :: s :: rest) ↔ x ∈ dropRuns eq (eq e s) (s :: rest) := by
  rw [dropRuns]
  cases h : eq e s
  · cases flag <;> simp [hx]
  · simp

/-- An element survives `dropRuns` exactly when neither the element before it nor the
element after it is equal to it. -/
theorem mem_dropRuns_iff {eq : Ptr → Ptr → Bool} : ∀ (P : List Ptr) (flag : Bool) (x : Ptr)
    (Q : List Ptr), (P ++ x :: Q).Nodup →
    (x ∈ dropRuns eq flag (P ++ x :: Q) ↔
      (match P.getLast? with
        | some p => eq p x
        | none => flag) = false ∧ ∀ q, Q.head? = some q → eq x q = false)
  | [], flag, x, [], _ => by
    cases flag <;> simp [dropRuns]
  | [], flag, x, s :: rest, hnd => by
    have hx : x ∉ s :: rest := (List.nodup_cons.1 hnd).1
    have h1 : ∀ f, x ∉ dropRuns eq f (s :: rest) :=
      fun f hm => hx ((dropRuns_sublist eq f (s :: rest)).subset hm)
    simp only [List.nil_append, dropRuns, List.getLast?_nil, List.head?_cons,
      Option.some.injEq, forall_eq']
    cases h : eq x s
    · cases flag <;> simp [h1]
    · simp [h1]
  | [e], flag, x, Q, hnd => by
    have hx : x ≠ e := by
      intro e'; subst e'
      simp at hnd
    have ih := @mem_dropRuns_iff eq [] (eq e x) x Q (List.nodup_cons.1 hnd).2
    rw [show [e] ++ x :: Q = e :: x :: Q from rfl, dropRuns_cons_mem flag hx]
    simpa using ih
  | e :: p :: P, flag, x, Q, hnd => by
    have hx : x ≠ e := by
      intro e'; subst e'
      simp at hnd
    have ih := @mem_dropRuns_iff eq (p :: P) (eq e p) x Q (List.nodup_cons.1 hnd).2
    rw [show e :: p :: P ++ x :: Q = e :: p :: (P ++ x :: Q) from rfl,
      dropRuns_cons_mem flag hx]
    rw [show p :: (P ++ x :: Q) = p :: P ++ x :: Q from rfl, ih]
    have : (e :: p :: P).getLast? = (p :: P).getLast? := by simp [List.getLast?_cons_cons]
    rw [this]
    cases hl : (p :: P).getLast? with
    | none => simp at hl
    | some z => rfl

/-- C20. Sorted or not, a queue of C strings is left by `q_delete_dup` with exactly the
elements whose string differs from that of the element just before and from that of
the element just after, in their original order; it returns true. Equal strings that
are not adjacent are kept: "a", "b", "a" stays "a", "b", "a", while "b", "a", "a"
becomes "b". -/
theorem c20_delete_dup_removes_adjacent_equal (hp : Heap) (h : Ptr) (xs : List Ptr)
    (fuel : Nat) (hq : IsQueue hp h xs) (hf : xs.length + 1 ≤ fuel)
    (hs : ∀ x ∈ xs, CStr (hp.value x)) :
    (∃ hp' ys, q_delete_dup fuel hp (some h) = some (hp', true) ∧ IsQueue hp' h ys ∧
      hp'.value = hp.value ∧ ys.Sublist xs ∧
      ∀ P x Q, xs = P ++ x :: Q →
        (x ∈ ys ↔ (∀ p, P.getLast? = some p → hp.value p ≠ hp.value x) ∧
          (∀ q, Q.head? = some q → hp.value q ≠ hp.value x))) ∧
    (q_delete_dup 5 abaHeap (some 0)).bind (fun r => readValues 5 r.1 0) =
      some [[97], [98], [97]] ∧
    (q_delete_dup 5 scenarioHeap (some 0)).bind (fun r => readValues 5 r.1 0) =
      some [[98]] := by
  refine ⟨?_, by decide!, by decide!⟩
  obtain ⟨hp', r1, r2, r3, _⟩ := @q_delete_dup_with_spec strcmp hp h xs hq fuel hf
  refine ⟨hp', _, r1, r2, r3, dropRuns_sublist _ _ _, ?_⟩
  intro P x Q hx
  have hnd : (P ++ x :: Q).Nodup := by rw [← hx]; exact (List.nodup_cons.1 hq.1).2
  have hxs : CStr (hp.value x) := hs x (by rw [hx]; simp)
  rw [hx, mem_dropRuns_iff P false x Q hnd]
  have e1 : (∀ q, Q.head? = some q → dupEq strcmp hp.value x q = false) ↔
      (∀ q, Q.head? = some q → hp.value q ≠ hp.value x) := by
    refine forall_congr' (fun q => imp_congr_right (fun hq' => ?_))
    have hqm : q ∈ xs := by
      rw [hx]
      have := List.mem_of_mem_head? hq'
      simp [this]
    have : dupEq strcmp hp.value x q = decide (hp.value x = hp.value q) :=
      dup_test_strcmp hxs (hs q hqm)
    rw [this]
    simp [eq_comm]
  have e2 : ((match P.getLast? with
        | some p => dupEq strcmp hp.value p x
        | none => false) = false) ↔ (∀ p, P.getLast? = some p → hp.value p ≠ hp.value x) := by
    cases hl : P.getLast? with
    | none => simp
    | some p =>
      have hpm : p ∈ xs := by
        rw [hx]
        have := List.mem_of_mem_getLast? hl
        simp [this]
      have : dupEq strcmp hp.value p x = decide (hp.value p = hp.value x) :=
        dup_test_strcmp (hs p hpm) hxs
      simp [this]
  rw [e1, e2]

/-- C20 at the unsorted queue "b", "a", "a". -/
theorem c20_delete_dup_removes_adjacent_equal_witness :
    (IsQueue demoHeap 0 [1, 2, 3] ∧ [1, 2, 3].length + 1 ≤ 5 ∧
      ∀ x ∈ [1, 2, 3], CStr (demoHeap.value x)) ∧
    ∃ hp' ys, q_delete_dup 5 demoHeap (some 0) = some (hp', true) ∧ IsQueue hp' 0 ys ∧
      hp'.value = demoHeap.value ∧ ys.Sublist [1, 2, 3] ∧
      ∀ P x Q, [1, 2, 3] = P ++ x :: Q →
        (x ∈ ys ↔ (∀ p, P.getLast? = some p → demoHeap.value p ≠ demoHeap.value x) ∧
          (∀ q, Q.head? = some q → demoHeap.value q ≠ demoHeap.value x)) :=
  ⟨⟨demoHeap_isQueue, by decide, by decide⟩,
    (c20_delete_dup_removes_adjacent_equal demoHeap 0 [1, 2, 3] 5 demoHeap_isQueue (by decide)
      (by decide)).1⟩

end Queue
